import Mathlib

/-!
Verification of the piece-table text buffer (VS Code piece tree).

This file gives a shallow embedding of the piece-tree text buffer:
`createLineStarts` / `createLineStartsFast`, `Piece`, `StringBuffer`,
`PieceTreeBase` (insert, delete, offset and position queries, snapshots)
and `PieceTreeTextBuffer.applyEdits`, together with a naive reference
implementation over a plain string, and theorems settling the stated
properties.

Modelling conventions:
* JS strings are `List Char` (`Str`); all characters of interest are in the
  basic multilingual plane, so one `Char` is one UTF-16 code unit.
* JS numbers are `Int`.  `charCodeAt` out of range yields NaN in JS; NaN
  compares false with every concrete char code, which is modelled by the
  value `-1` (never a valid code unit).
* The red-black tree layer (`rbTreeBase.ts`) is not part of the source
  snapshot; it is modelled from the spec (see the `RBTree` section).
-/

set_option maxHeartbeats 1000000

namespace PieceTree

/-- JS strings as lists of UTF-16 code units (BMP scalar values). -/
abbrev Str := List Char

/-- Code of `str.charCodeAt(i)`; out-of-range access yields NaN in JS, which
compares false against every real char code, modelled by `-1`. -/
def codeAt (s : Str) (i : Int) : Int :=
  if h : 0 ≤ i ∧ i.toNat < s.length then (s.get ⟨i.toNat, h.2⟩).toNat else -1

/-- Code of JS `String.prototype.substring(a, b)`: clamps both arguments into
`[0, length]` and swaps them when `a > b`. -/
def jsSubstring (s : Str) (a b : Int) : Str :=
  let len : Int := s.length
  let a2 := min (max a 0) len
  let b2 := min (max b 0) len
  let lo := min a2 b2
  let hi := max a2 b2
  (s.take hi.toNat).drop lo.toNat

/-- Code of JS `String.prototype.substr(st, n)` for the non-negative uses in
the source: take `n` code units starting at `st`. -/
def jsSubstr (s : Str) (st n : Int) : Str :=
  jsSubstring s st (st + n)

/-- Element `l[i]` of a JS number array; out-of-range access is `undefined`
in JS and never meaningfully used by the source on valid states, modelled by
`-1` (a value no valid line start takes). -/
def lsGet (l : List Int) (i : Int) : Int :=
  if h : 0 ≤ i ∧ i.toNat < l.length then l.get ⟨i.toNat, h.2⟩ else -1

/-- Last element of a JS number array (`arr[arr.length - 1]`). -/
def lsLast (l : List Int) : Int := lsGet l ((l.length : Int) - 1)

/-- Carriage return. -/
def CR : Char := Char.ofNat 13
/-- Line feed. -/
def LF : Char := Char.ofNat 10

/-! ## Line-start index builder (`createLineStartsFast`, `createLineStarts`),
translated from `pieceTreeBase.ts` lines 50-123. -/

/-- Loop of `createLineStartsFast` (pieceTreeBase lines 54-71): `i` is the
offset of the head of the remaining list in the whole string.  A `"\r\n"`
pair is one break (the inner `i++` skip), a lone `"\r"` or `"\n"` is one
break. -/
def lineStartsFastLoop : Str → Int → List Int
  | [], _ => []
  | c :: rest, i =>
    if c = CR then
      match rest with
      | c2 :: rest2 =>
        if c2 = LF then (i + 2) :: lineStartsFastLoop rest2 (i + 2)
        else (i + 1) :: lineStartsFastLoop (c2 :: rest2) (i + 1)
      | [] => [i + 1]
    else if c = LF then
      (i + 1) :: lineStartsFastLoop rest (i + 1)
    else
      lineStartsFastLoop rest (i + 1)

/-- Code of `createLineStartsFast(str)` (pieceTreeBase lines 50-77); the
`Uint16Array` / `Uint32Array` width choice of `createUintArray` does not
change the stored offsets and is not modelled. -/
def createLineStartsFast (str : Str) : List Int :=
  0 :: lineStartsFastLoop str 0

/-- Result record of `createLineStarts` (class `LineStarts`,
pieceTreeBase lines 35-43). -/
structure LineStarts where
  lineStarts : List Int
  cr : Int
  lf : Int
  crlf : Int
  isBasicASCII : Bool
  deriving Repr, DecidableEq

/-- Loop of `createLineStarts` (pieceTreeBase lines 91-118), returning the
line starts together with the `cr` / `lf` / `crlf` counters and the
`isBasicASCII` flag.  Note the flag check runs only on non-break characters:
`chr !== Tab && (chr < 32 || chr > 126)` resets it. -/
def lineStartsLoop : Str → Int → Int → Int → Int → Bool →
    List Int × Int × Int × Int × Bool
  | [], _, cr, lf, crlf, basic => ([], cr, lf, crlf, basic)
  | c :: rest, i, cr, lf, crlf, basic =>
    if c = CR then
      match rest with
      | c2 :: rest2 =>
        if c2 = LF then
          let r := lineStartsLoop rest2 (i + 2) cr lf (crlf + 1) basic
          ((i + 2) :: r.1, r.2)
        else
          let r := lineStartsLoop (c2 :: rest2) (i + 1) (cr + 1) lf crlf basic
          ((i + 1) :: r.1, r.2)
      | [] => ([i + 1], cr + 1, lf, crlf, basic)
    else if c = LF then
      let r := lineStartsLoop rest (i + 1) cr (lf + 1) crlf basic
      ((i + 1) :: r.1, r.2)
    else
      let basic2 := if basic ∧ ¬(c = Char.ofNat 9) ∧ ((c.toNat : Int) < 32 ∨ (c.toNat : Int) > 126)
        then false else basic
      lineStartsLoop rest (i + 1) cr lf crlf basic2

/-- Code of `createLineStarts(r, str)` (pieceTreeBase lines 85-123). -/
def createLineStarts (str : Str) : LineStarts :=
  let r := lineStartsLoop str 0 0 0 0 true
  { lineStarts := 0 :: r.1
    cr := r.2.1
    lf := r.2.2.1
    crlf := r.2.2.2.1
    isBasicASCII := r.2.2.2.2 }

/-! ## Data model: cursors, pieces, buffers
(pieceTreeBase lines 140-190). -/

/-- Buffer cursor `(line, column)` inside one `StringBuffer`
(interface `BufferCursor`, pieceTreeBase lines 140-149). -/
structure BufferCursor where
  line : Int
  column : Int
  deriving Repr, DecidableEq

/-- Class `Piece` (pieceTreeBase lines 160-174): a descriptor of the run of
`buffers[bufferIndex]` between cursors `start` and `endPos`. -/
structure Piece where
  bufferIndex : Int
  start : BufferCursor
  endPos : BufferCursor
  lineFeedCnt : Int
  length : Int
  deriving Repr, DecidableEq

/-- Class `StringBuffer` (pieceTreeBase lines 182-190). -/
structure StringBuffer where
  buffer : Str
  lineStarts : List Int
  deriving Repr, DecidableEq

end PieceTree

namespace PieceTree

/-! ## Tree layer

Modelled from the spec: `rbTreeBase.ts` (`TreeNode`, `SENTINEL`, `fixInsert`,
`rbDelete`, `leftest`, `righttest`, `updateTreeMetadata`) is imported by
`pieceTreeBase.ts` but is not part of the source snapshot.  Spec section 4.2
describes it: a binary tree ordering pieces by document sequence, carrying
per-node `size_left` / `lf_left` aggregates of the left subtree, with
insert-before / insert-after of a given node, node deletion, and standard
red-black recolor/rotate fixups.  Recoloring and rotations preserve the
in-order sequence of pieces and therefore every aggregate derived from it,
so the fixup passes are modelled as recoloring only; `size_left` and
`lf_left` are modelled as the derived sums the spec defines them to be
(spec section 3, document invariant 2), so `updateTreeMetadata` is the
identity on this representation.  Nodes are identified by a `Nat` id that
plays the role of the JS object reference (ids are never reused). -/

/-- Tree of pieces; `nil` is the shared `SENTINEL`.  `red` is the node
color. -/
inductive RBTree where
  | nil : RBTree
  | node (l : RBTree) (id : Nat) (red : Bool) (piece : Piece) (r : RBTree)
  deriving Repr, DecidableEq

namespace RBTree

/-- Total character length of a subtree; `x.size_left` of the source is
`x.left.totalLen` (spec section 3, invariant 2). -/
def totalLen : RBTree → Int
  | nil => 0
  | node l _ _ p r => l.totalLen + p.length + r.totalLen

/-- Total line-feed count of a subtree; `x.lf_left` of the source is
`x.left.totalLFs`. -/
def totalLFs : RBTree → Int
  | nil => 0
  | node l _ _ p r => l.totalLFs + p.lineFeedCnt + r.totalLFs

/-- In-order sequence of `(id, piece)` (spec section 3, invariant 1). -/
def inorder : RBTree → List (Nat × Piece)
  | nil => []
  | node l id _ p r => l.inorder ++ (id, p) :: r.inorder

/-- Membership of a node id. -/
def contains (t : RBTree) (tgt : Nat) : Bool :=
  (t.inorder.map Prod.fst).contains tgt

/-- Piece carried by node `tgt`. -/
def findPiece : RBTree → Nat → Option Piece
  | nil, _ => none
  | node l id _ p r, tgt =>
    if id = tgt then some p else
      match l.findPiece tgt with
      | some q => some q
      | none => r.findPiece tgt

/-- Writing `node.piece = newPiece` for the node with id `tgt`. -/
def setPiece : RBTree → Nat → Piece → RBTree
  | nil, _, _ => nil
  | node l id c p r, tgt, q =>
    if id = tgt then node l id c q r
    else node (l.setPiece tgt q) id c p (r.setPiece tgt q)

/-- Attaching subtree `z` as the left child of the leftmost descendant
(source: `leftest(node.right).left = z`). -/
def attachAtLeftmost : RBTree → RBTree → RBTree
  | nil, z => z
  | node l id c p r, z => node (l.attachAtLeftmost z) id c p r

/-- Attaching subtree `z` as the right child of the rightmost descendant
(source: `righttest(node.left).right = z`). -/
def attachAtRightmost : RBTree → RBTree → RBTree
  | nil, z => z
  | node l id c p r, z => node l id c p (r.attachAtRightmost z)

/-- Structural step of `rbInsertRight` (pieceTreeBase lines 1917-1940): the
fresh node `z` becomes `tgt.right` when that slot is empty, else the left
child of the leftmost descendant of `tgt.right`. -/
def insertRightOf : RBTree → Nat → RBTree → RBTree
  | nil, _, _ => nil
  | node l id c p r, tgt, z =>
    if id = tgt then
      match r with
      | nil => node l id c p z
      | _ => node l id c p (r.attachAtLeftmost z)
    else node (l.insertRightOf tgt z) id c p (r.insertRightOf tgt z)

/-- Structural step of `rbInsertLeft` (pieceTreeBase lines 1953-1975). -/
def insertLeftOf : RBTree → Nat → RBTree → RBTree
  | nil, _, _ => nil
  | node l id c p r, tgt, z =>
    if id = tgt then
      match l with
      | nil => node z id c p r
      | _ => node (l.attachAtRightmost z) id c p r
    else node (l.insertLeftOf tgt z) id c p (r.insertLeftOf tgt z)

/-- Modelled from the spec: the red-black `fixInsert` recolors and rotates
without changing the in-order sequence; on this representation only the
final blackening of the root is observable. -/
def blackenRoot : RBTree → RBTree
  | nil => nil
  | node l id _ p r => node l id false p r

/-- Data of the leftmost node (source `leftest`). -/
def leftmostData? : RBTree → Option (Nat × Bool × Piece)
  | nil => none
  | node nil id c p _ => some (id, c, p)
  | node (node l2 id2 c2 p2 r2) _ _ _ _ => leftmostData? (node l2 id2 c2 p2 r2)

/-- Removing the leftmost node. -/
def dropLeftmost : RBTree → RBTree
  | nil => nil
  | node nil _ _ _ r => r
  | node (node l2 id2 c2 p2 r2) id c p r =>
    node (dropLeftmost (node l2 id2 c2 p2 r2)) id c p r

/-- Modelled from the spec: `rbDelete` splices the node out (replacing a
two-child node by its in-order successor, which keeps its own piece and id)
and then restores the red-black shape by recoloring/rotations that do not
affect the in-order sequence. -/
def deleteId : RBTree → Nat → RBTree
  | nil, _ => nil
  | node l id c p r, tgt =>
    if id = tgt then
      match l, r with
      | nil, _ => r
      | node l2 id2 c2 p2 r2, nil => node l2 id2 c2 p2 r2
      | node _ _ _ _ _, node r2l r2id r2c r2p r2r =>
        match leftmostData? (node r2l r2id r2c r2p r2r) with
        | some (sid, _, sp) => node l sid c sp (dropLeftmost (node r2l r2id r2c r2p r2r))
        | none => l
    else node (l.deleteId tgt) id c p (r.deleteId tgt)

/-- In-order successor id (source `node.next()`); `none` is `SENTINEL`. -/
def nextId (t : RBTree) (tgt : Nat) : Option Nat :=
  let ids := t.inorder.map Prod.fst
  match ids.indexOf? tgt with
  | some i => ids.get? (i + 1)
  | none => none

/-- In-order predecessor id (source `node.prev()`). -/
def prevId (t : RBTree) (tgt : Nat) : Option Nat :=
  let ids := t.inorder.map Prod.fst
  match ids.indexOf? tgt with
  | some i => if i = 0 then none else ids.get? (i - 1)
  | none => none

/-- Document start offset of the node with id `tgt`
(source `offsetOfNode`: the sum of the lengths of all pieces before it). -/
def offsetOfId (t : RBTree) (tgt : Nat) : Int :=
  ((t.inorder.takeWhile (fun e => ¬(e.1 = tgt))).map (fun e => e.2.length)).sum

/-- In-order suffix strictly after the node with id `tgt`
(the nodes visited by repeated `node.next()`). -/
def suffixAfter (t : RBTree) (tgt : Nat) : List (Nat × Piece) :=
  ((t.inorder.dropWhile (fun e => ¬(e.1 = tgt))).drop 1)

end RBTree

/-! ## Search cache (`PieceTreeSearchCache`, pieceTreeBase lines 240-312). -/

/-- Interface `CacheEntry` (pieceTreeBase lines 240-244); the node reference
is an id. -/
structure CacheEntry where
  nodeId : Nat
  nodeStartOffset : Int
  nodeStartLineNumber : Option Int
  deriving Repr, DecidableEq

/-- Interface `NodePosition` (pieceTreeBase lines 125-138). -/
structure NodePosition where
  nodeId : Nat
  remainder : Int
  nodeStartOffset : Int
  deriving Repr, DecidableEq

/-- Class `PieceTreeSearchCache` (pieceTreeBase lines 247-312). -/
structure SearchCache where
  limit : Int
  entries : List CacheEntry
  deriving Repr, DecidableEq

namespace SearchCache

/-- Scan of `get` (pieceTreeBase lines 258-266): from the most recent entry
backwards, the first entry whose node owns `offset`
(`nodeStartOffset <= offset <= nodeStartOffset + node.piece.length`).  The
node piece is read through the tree; entries of detached nodes cannot occur
here because every operation ends with `computeBufferMetadata`, whose
`validate` evicts them. -/
def get (c : SearchCache) (t : RBTree) (offset : Int) : Option CacheEntry :=
  c.entries.reverse.find? (fun e =>
    match t.findPiece e.nodeId with
    | some p => decide (e.nodeStartOffset ≤ offset) && decide (offset ≤ e.nodeStartOffset + p.length)
    | none => false)

/-- Scan of `get2` (pieceTreeBase lines 269-278): the first entry (from the
most recent backwards) carrying a start line with
`nodeStartLineNumber < lineNumber <= nodeStartLineNumber + lineFeedCnt`. -/
def get2 (c : SearchCache) (t : RBTree) (lineNumber : Int) : Option (CacheEntry × Int) :=
  (c.entries.reverse.findSome? (fun e =>
    match e.nodeStartLineNumber with
    | some ln =>
      if ¬(ln = 0) ∧ ln < lineNumber ∧
          lineNumber ≤ ln + (match t.findPiece e.nodeId with
            | some p => p.lineFeedCnt
            | none => 0) then
        some (e, ln)
      else none
    | none => none))

/-- Code of `set` (pieceTreeBase lines 281-286): evict the oldest entry when
full, then push. -/
def set (c : SearchCache) (e : CacheEntry) : SearchCache :=
  let es := if (c.entries.length : Int) ≥ c.limit then c.entries.drop 1 else c.entries
  { c with entries := es ++ [e] }

/-- Code of `validate(offset)` (pieceTreeBase lines 289-311): drop entries
whose node is detached (`node.parent === null`) or which start at or after
`offset`. -/
def validate (c : SearchCache) (t : RBTree) (offset : Int) : SearchCache :=
  { c with entries := c.entries.filter (fun e =>
      t.contains e.nodeId && decide (e.nodeStartOffset < offset)) }

end SearchCache

/-- State of class `PieceTreeBase` (pieceTreeBase lines 315-330).
`buffers[0]` is the mutable change buffer. -/
structure PTB where
  root : RBTree
  buffers : List StringBuffer
  lineCnt : Int
  length : Int
  eol : Str
  eolLength : Int
  eolNormalized : Bool
  lastChangeBufferPos : BufferCursor
  cache : SearchCache
  lastVisitedLineNumber : Int
  lastVisitedLineValue : Str
  nextId : Nat
  deriving Repr, DecidableEq

/-- Piece placeholder for impossible lookups (a JS crash path). -/
def defaultPiece : Piece :=
  { bufferIndex := 0, start := ⟨0, 0⟩, endPos := ⟨0, 0⟩, lineFeedCnt := 0, length := 0 }

namespace PTB

/-- Piece of the node with id `tgt` (`node.piece`). -/
def pieceOf (s : PTB) (tgt : Nat) : Piece :=
  (s.root.findPiece tgt).getD defaultPiece

/-- Buffer `buffers[i]`. -/
def bufferAt (s : PTB) (i : Int) : StringBuffer :=
  (s.buffers.getD i.toNat ⟨[], [0]⟩)

/-- Writing `buffers[i] = b`. -/
def setBufferAt (s : PTB) (i : Int) (b : StringBuffer) : PTB :=
  { s with buffers := s.buffers.set i.toNat b }

/-- Code of `rbInsertRight(node, p)` (pieceTreeBase lines 1917-1940); the
returned id is the fresh node `z`.  `fixInsert` is modelled by
`blackenRoot`. -/
def rbInsertRight (s : PTB) (tgt? : Option Nat) (p : Piece) : Nat × PTB :=
  let zid := s.nextId
  let z := RBTree.node RBTree.nil zid true p RBTree.nil
  let root2 :=
    match s.root, tgt? with
    | RBTree.nil, _ => z
    | t, some tgt => t.insertRightOf tgt z
    | t, none => t
  (zid, { s with root := root2.blackenRoot, nextId := zid + 1 })

/-- Code of `rbInsertLeft(node, p)` (pieceTreeBase lines 1953-1975). -/
def rbInsertLeft (s : PTB) (tgt? : Option Nat) (p : Piece) : Nat × PTB :=
  let zid := s.nextId
  let z := RBTree.node RBTree.nil zid true p RBTree.nil
  let root2 :=
    match s.root, tgt? with
    | RBTree.nil, _ => z
    | t, some tgt => t.insertLeftOf tgt z
    | t, none => t
  (zid, { s with root := root2.blackenRoot, nextId := zid + 1 })

/-- Code of `rbDelete(this, node)` followed by the metadata recomputation it
performs; on this representation deletion of the id suffices (aggregates are
derived). -/
def rbDelete (s : PTB) (tgt : Nat) : PTB :=
  { s with root := (s.root.deleteId tgt).blackenRoot }

/-- Code of `deleteNodes(nodes)` (pieceTreeBase lines 1241-1245). -/
def deleteNodes (s : PTB) (nodes : List Nat) : PTB :=
  nodes.foldl (fun acc n => acc.rbDelete n) s

end PTB

end PieceTree

namespace PieceTree

/-- Class `Position` (1-based line/column), from `position.ts`. -/
structure Position where
  lineNumber : Int
  column : Int
  deriving Repr, DecidableEq

/-- Class `Range` (1-based, start before or equal end), from `range.ts`. -/
structure Range where
  startLineNumber : Int
  startColumn : Int
  endLineNumber : Int
  endColumn : Int
  deriving Repr, DecidableEq

/-- Code of `Position.isBefore(a, b)` (position.ts lines 105-113). -/
def Position.isBefore (a b : Position) : Bool :=
  if a.lineNumber < b.lineNumber then true
  else if b.lineNumber < a.lineNumber then false
  else a.column < b.column

/-- Code of `Position.isBeforeOrEqual(a, b)` (position.ts lines 129-137). -/
def Position.isBeforeOrEqual (a b : Position) : Bool :=
  if a.lineNumber < b.lineNumber then true
  else if b.lineNumber < a.lineNumber then false
  else a.column ≤ b.column

/-- Code of `Range.isEmpty(range)` (range.ts). -/
def Range.isEmpty (r : Range) : Bool :=
  r.startLineNumber = r.endLineNumber ∧ r.startColumn = r.endColumn

/-- Code of `Range.getStartPosition`. -/
def Range.getStartPosition (r : Range) : Position := ⟨r.startLineNumber, r.startColumn⟩

/-- Code of `Range.getEndPosition`. -/
def Range.getEndPosition (r : Range) : Position := ⟨r.endLineNumber, r.endColumn⟩

/-- Code of `Range.compareRangesUsingEnds(a, b)` (range.ts lines 534-545). -/
def Range.compareRangesUsingEnds (a b : Range) : Int :=
  if a.endLineNumber = b.endLineNumber then
    if a.endColumn = b.endColumn then
      if a.startLineNumber = b.startLineNumber then a.startColumn - b.startColumn
      else a.startLineNumber - b.startLineNumber
    else a.endColumn - b.endColumn
  else a.endLineNumber - b.endLineNumber

/-- Global regex replace `value.replace(/\r\n|\r|\n/g, eol)`. -/
def replaceEOLAll (eolStr : Str) : Str → Str
  | [] => []
  | c :: rest =>
    if c = CR then
      match rest with
      | c2 :: rest2 =>
        if c2 = LF then eolStr ++ replaceEOLAll eolStr rest2
        else eolStr ++ replaceEOLAll eolStr (c2 :: rest2)
      | [] => eolStr
    else if c = LF then eolStr ++ replaceEOLAll eolStr rest
    else c :: replaceEOLAll eolStr rest

/-- Anchored regex replace `value.replace(/(\r\n|\r|\n)$/, '')`: drop one
trailing line break (preferring `"\r\n"`). -/
def chopTrailingEOL (v : Str) : Str :=
  if v.reverse.take 2 = [LF, CR] then v.take (v.length - 2)
  else if v.reverse.take 1 = [LF] ∨ v.reverse.take 1 = [CR] then v.take (v.length - 1)
  else v

namespace PTB

/-- Code of `offsetInBuffer(bufferIndex, cursor)` (pieceTreeBase lines
1236-1239). -/
def offsetInBuffer (s : PTB) (bufferIndex : Int) (cursor : BufferCursor) : Int :=
  lsGet (s.bufferAt bufferIndex).lineStarts cursor.line + cursor.column

/-- Binary-search loop of `positionInBuffer` (pieceTreeBase lines
1174-1191), structurally recursive on a fuel that bounds the iteration
count (each step shrinks `high - low`); returns the final
`(mid, midStart)`.  Both the never-entered loop and fuel exhaustion (which
the fuel choice in `posInBufLoop` makes unreachable) give the JS loop
initialisation `(0, 0)`. -/
def posInBufLoopF (lineStarts : List Int) (offset : Int) : Nat → Int → Int → Int × Int
  | 0, _, _ => (0, 0)
  | fuel + 1, low, high =>
    if low ≤ high then
      let mid := low + (high - low) / 2
      let midStart := lsGet lineStarts mid
      if mid = high then (mid, midStart)
      else
        let midStop := lsGet lineStarts (mid + 1)
        if offset < midStart then posInBufLoopF lineStarts offset fuel low (mid - 1)
        else if offset ≥ midStop then posInBufLoopF lineStarts offset fuel (mid + 1) high
        else (mid, midStart)
    else (0, 0)

/-- Binary-search loop of `positionInBuffer` with sufficient fuel. -/
def posInBufLoop (lineStarts : List Int) (offset low high : Int) : Int × Int :=
  posInBufLoopF lineStarts offset ((high + 1 - low).toNat + 1) low high

/-- Code of `positionInBuffer(node, remainder)` (pieceTreeBase lines
1155-1203). -/
def positionInBuffer (s : PTB) (p : Piece) (remainder : Int) : BufferCursor :=
  let lineStarts := (s.bufferAt p.bufferIndex).lineStarts
  let startOffset := lsGet lineStarts p.start.line + p.start.column
  let offset := startOffset + remainder
  let r := posInBufLoop lineStarts offset p.start.line p.endPos.line
  ⟨r.1, offset - r.2⟩

/-- Code of `getLineFeedCnt(bufferIndex, start, end)` (pieceTreeBase lines
1205-1233). -/
def getLineFeedCnt (s : PTB) (bufferIndex : Int) (start endC : BufferCursor) : Int :=
  if endC.column = 0 then endC.line - start.line
  else
    let lineStarts := (s.bufferAt bufferIndex).lineStarts
    if endC.line = (lineStarts.length : Int) - 1 then endC.line - start.line
    else
      let nextLineStartOffset := lsGet lineStarts (endC.line + 1)
      let endOffset := lsGet lineStarts endC.line + endC.column
      if nextLineStartOffset > endOffset + 1 then endC.line - start.line
      else
        let previousCharOffset := endOffset - 1
        if codeAt (s.bufferAt bufferIndex).buffer previousCharOffset = 13 then
          endC.line - start.line + 1
        else endC.line - start.line

/-- Code of `getAccumulatedValue(node, index)` (pieceTreeBase lines
1450-1462). -/
def getAccumulatedValue (s : PTB) (p : Piece) (index : Int) : Int :=
  if index < 0 then 0
  else
    let lineStarts := (s.bufferAt p.bufferIndex).lineStarts
    let expectedLineStartIndex := p.start.line + index + 1
    if expectedLineStartIndex > p.endPos.line then
      lsGet lineStarts p.endPos.line + p.endPos.column
        - lsGet lineStarts p.start.line - p.start.column
    else lsGet lineStarts expectedLineStartIndex
        - lsGet lineStarts p.start.line - p.start.column

/-- Code of `getIndexOf(node, accumulatedValue)` (pieceTreeBase lines
1432-1447); the result is `(index, remainder)`. -/
def getIndexOf (s : PTB) (p : Piece) (accumulatedValue : Int) : Int × Int :=
  let pos := s.positionInBuffer p accumulatedValue
  let lineCnt := pos.line - p.start.line
  if accumulatedValue =
      s.offsetInBuffer p.bufferIndex p.endPos - s.offsetInBuffer p.bufferIndex p.start then
    let realLineCnt := s.getLineFeedCnt p.bufferIndex p.start pos
    if ¬(realLineCnt = lineCnt) then (realLineCnt, 0)
    else (lineCnt, pos.column)
  else (lineCnt, pos.column)

/-- Descent loop of `getOffsetAt` (pieceTreeBase lines 455-476). -/
def getOffsetAtGo (s : PTB) : RBTree → Int → Int → Int → Int
  | RBTree.nil, _, _, leftLen => leftLen
  | RBTree.node l _ _ p r, lineNumber, column, leftLen =>
    if ¬(l = RBTree.nil) ∧ lineNumber ≤ l.totalLFs + 1 then
      s.getOffsetAtGo l lineNumber column leftLen
    else if lineNumber ≤ l.totalLFs + p.lineFeedCnt + 1 then
      let leftLen2 := leftLen + l.totalLen
      let accumulated := s.getAccumulatedValue p (lineNumber - l.totalLFs - 2)
      leftLen2 + accumulated + column - 1
    else
      s.getOffsetAtGo r (lineNumber - (l.totalLFs + p.lineFeedCnt)) column
        (leftLen + l.totalLen + p.length)

/-- Code of `getOffsetAt(lineNumber, column)` (pieceTreeBase lines
455-476). -/
def getOffsetAt (s : PTB) (lineNumber column : Int) : Int :=
  s.getOffsetAtGo s.root lineNumber column 0

/-- Descent loop of `getPositionAt` (pieceTreeBase lines 487-515). -/
def getPositionAtGo (s : PTB) : RBTree → Int → Int → Int → Position
  | RBTree.nil, _, _, _ => ⟨1, 1⟩
  | RBTree.node l _ _ p r, offset, lfCnt, originalOffset =>
    if ¬(l.totalLen = 0) ∧ offset ≤ l.totalLen then
      s.getPositionAtGo l offset lfCnt originalOffset
    else if offset ≤ l.totalLen + p.length then
      let out := s.getIndexOf p (offset - l.totalLen)
      let lfCnt2 := lfCnt + l.totalLFs + out.1
      if out.1 = 0 then
        let lineStartOffset := s.getOffsetAt (lfCnt2 + 1) 1
        let column := originalOffset - lineStartOffset
        ⟨lfCnt2 + 1, column + 1⟩
      else ⟨lfCnt2 + 1, out.2 + 1⟩
    else
      let offset2 := offset - (l.totalLen + p.length)
      let lfCnt2 := lfCnt + l.totalLFs + p.lineFeedCnt
      match r with
      | RBTree.nil =>
        let lineStartOffset := s.getOffsetAt (lfCnt2 + 1) 1
        let column := originalOffset - offset2 - lineStartOffset
        ⟨lfCnt2 + 1, column + 1⟩
      | RBTree.node rl rid rc rp rr =>
        s.getPositionAtGo (RBTree.node rl rid rc rp rr) offset2 lfCnt2 originalOffset

/-- Code of `getPositionAt(offset)` (pieceTreeBase lines 479-518):
`Math.floor` then clamp below at 0, then descend. -/
def getPositionAt (s : PTB) (offset0 : Int) : Position :=
  let offset := max 0 offset0
  s.getPositionAtGo s.root offset 0 offset

/-- Descent loop of `nodeAt` (pieceTreeBase lines 1600-1619). -/
def nodeAtGo (s : PTB) : RBTree → Int → Int → Option NodePosition
  | RBTree.nil, _, _ => none
  | RBTree.node l id _ p r, offset, nodeStartOffset =>
    if l.totalLen > offset then s.nodeAtGo l offset nodeStartOffset
    else if l.totalLen + p.length ≥ offset then
      some ⟨id, offset - l.totalLen, nodeStartOffset + l.totalLen⟩
    else
      s.nodeAtGo r (offset - (l.totalLen + p.length))
        (nodeStartOffset + l.totalLen + p.length)

/-- Code of `nodeAt(offset)` (pieceTreeBase lines 1589-1622); a cache hit
returns without a descent, a descent stores its result in the cache.  The
JS `return null!` is `none`. -/
def nodeAt (s : PTB) (offset : Int) : Option NodePosition × PTB :=
  match s.cache.get s.root offset with
  | some e => (some ⟨e.nodeId, offset - e.nodeStartOffset, e.nodeStartOffset⟩, s)
  | none =>
    match s.nodeAtGo s.root offset 0 with
    | some ret =>
      (some ret, { s with cache := s.cache.set ⟨ret.nodeId, ret.nodeStartOffset, none⟩ })
    | none => (none, s)

/-- Phase-1 descent of `nodeAt2` (pieceTreeBase lines 1629-1659); `inr`
carries the `break` into the in-order phase 2 with the adjusted column. -/
def nodeAt2Go (s : PTB) : RBTree → Int → Int → Int → (Option NodePosition) ⊕ (Nat × Int)
  | RBTree.nil, _, _, _ => Sum.inl none
  | RBTree.node l id _ p r, lineNumber, column, nodeStartOffset =>
    if ¬(l = RBTree.nil) ∧ l.totalLFs ≥ lineNumber - 1 then
      s.nodeAt2Go l lineNumber column nodeStartOffset
    else if l.totalLFs + p.lineFeedCnt > lineNumber - 1 then
      let prevAccumulatedValue := s.getAccumulatedValue p (lineNumber - l.totalLFs - 2)
      let accumulatedValue := s.getAccumulatedValue p (lineNumber - l.totalLFs - 1)
      Sum.inl (some ⟨id, min (prevAccumulatedValue + column - 1) accumulatedValue,
        nodeStartOffset + l.totalLen⟩)
    else if l.totalLFs + p.lineFeedCnt = lineNumber - 1 then
      let prevAccumulatedValue := s.getAccumulatedValue p (lineNumber - l.totalLFs - 2)
      if prevAccumulatedValue + column - 1 ≤ p.length then
        Sum.inl (some ⟨id, prevAccumulatedValue + column - 1, nodeStartOffset⟩)
      else Sum.inr (id, column - (p.length - prevAccumulatedValue))
    else
      s.nodeAt2Go r (lineNumber - (l.totalLFs + p.lineFeedCnt)) column
        (nodeStartOffset + l.totalLen + p.length)

/-- Phase-2 in-order walk of `nodeAt2` (pieceTreeBase lines 1662-1687). -/
def nodeAt2Phase2 (s : PTB) : List (Nat × Piece) → Int → Option NodePosition
  | [], _ => none
  | (id, p) :: rest, column =>
    if p.lineFeedCnt > 0 then
      let accumulatedValue := s.getAccumulatedValue p 0
      some ⟨id, min (column - 1) accumulatedValue, s.root.offsetOfId id⟩
    else
      if p.length ≥ column - 1 then some ⟨id, column - 1, s.root.offsetOfId id⟩
      else s.nodeAt2Phase2 rest (column - p.length)

/-- Code of `nodeAt2(lineNumber, column)` (pieceTreeBase lines
1625-1690). -/
def nodeAt2 (s : PTB) (lineNumber column : Int) : Option NodePosition :=
  match s.nodeAt2Go s.root lineNumber column 0 with
  | Sum.inl res => res
  | Sum.inr (bid, col) => s.nodeAt2Phase2 (s.root.suffixAfter bid) col

/-- In-order tail walk of `getValueInRange2` (pieceTreeBase lines
561-574). -/
def getValueInRange2Go (s : PTB) (ep : NodePosition) : List (Nat × Piece) → Str
  | [] => []
  | (id, p) :: rest =>
    let buffer := (s.bufferAt p.bufferIndex).buffer
    let startOffset := s.offsetInBuffer p.bufferIndex p.start
    if id = ep.nodeId then jsSubstring buffer startOffset (startOffset + ep.remainder)
    else jsSubstr buffer startOffset p.length ++ s.getValueInRange2Go ep rest

/-- Code of `getValueInRange2(startPosition, endPosition)` (pieceTreeBase
lines 547-577). -/
def getValueInRange2 (s : PTB) (sp ep : NodePosition) : Str :=
  if sp.nodeId = ep.nodeId then
    let p := s.pieceOf sp.nodeId
    let buffer := (s.bufferAt p.bufferIndex).buffer
    let startOffset := s.offsetInBuffer p.bufferIndex p.start
    jsSubstring buffer (startOffset + sp.remainder) (startOffset + ep.remainder)
  else
    let p := s.pieceOf sp.nodeId
    let buffer := (s.bufferAt p.bufferIndex).buffer
    let startOffset := s.offsetInBuffer p.bufferIndex p.start
    jsSubstring buffer (startOffset + sp.remainder) (startOffset + p.length)
      ++ s.getValueInRange2Go ep (s.root.suffixAfter sp.nodeId)

/-- Code of `getValueInRange(range, eol?)` (pieceTreeBase lines 521-544).
The JS null-dereference paths (a `nodeAt2` miss, impossible for validated
ranges) return the empty string. -/
def getValueInRange (s : PTB) (range : Range) (eol? : Option Str) : Str :=
  if range.startLineNumber = range.endLineNumber ∧ range.startColumn = range.endColumn then []
  else
    match s.nodeAt2 range.startLineNumber range.startColumn,
          s.nodeAt2 range.endLineNumber range.endColumn with
    | some sp, some ep =>
      let value := s.getValueInRange2 sp ep
      match eol? with
      | some eolStr =>
        if ¬(eolStr = s.eol) ∨ ¬s.eolNormalized then replaceEOLAll eolStr value
        else if eolStr = s.eol ∧ s.eolNormalized then value
        else replaceEOLAll eolStr value
      | none => value
    | _, _ => []

/-- Code of `getPieceContent(piece)` (pieceTreeBase lines 1898-1904). -/
def getPieceContent (s : PTB) (p : Piece) : Str :=
  jsSubstring (s.bufferAt p.bufferIndex).buffer
    (s.offsetInBuffer p.bufferIndex p.start) (s.offsetInBuffer p.bufferIndex p.endPos)

/-- Code of `getLinesRawContent()` (pieceTreeBase lines 1336-1338):
`getContentOfSubTree` concatenates `getNodeContent` over the in-order
traversal (`iterate` yields the empty string on `SENTINEL`). -/
def getLinesRawContent (s : PTB) : Str :=
  (s.root.inorder.map (fun e => s.getPieceContent e.2)).flatten

/-- Right-spine walk of `computeBufferMetadata` (pieceTreeBase lines
1419-1423). -/
def cbmGo : RBTree → Int → Int → Int × Int
  | RBTree.nil, lfCnt, len => (lfCnt, len)
  | RBTree.node l _ _ p r, lfCnt, len =>
    cbmGo r (lfCnt + l.totalLFs + p.lineFeedCnt) (len + l.totalLen + p.length)

/-- Code of `computeBufferMetadata()` (pieceTreeBase lines 1413-1428). -/
def computeBufferMetadata (s : PTB) : PTB :=
  let r := cbmGo s.root 1 0
  { s with lineCnt := r.1, length := r.2, cache := s.cache.validate s.root r.2 }

/-- Code of `getLength()` (pieceTreeBase lines 669-671). -/
def getLength (s : PTB) : Int := s.length

/-- Code of `getLineCount()` (pieceTreeBase lines 673-675). -/
def getLineCount (s : PTB) : Int := s.lineCnt

/-- Code of `shouldCheckCRLF()` (pieceTreeBase lines 1720-1722). -/
def shouldCheckCRLF (s : PTB) : Bool :=
  ¬(s.eolNormalized ∧ s.eol = [LF])

/-- Code of the string case of `startWithLF` (pieceTreeBase line 1726). -/
def startWithLFStr (val : Str) : Bool :=
  codeAt val 0 = 10

/-- Code of the string case of `endWithCR` (pieceTreeBase line 1750). -/
def endWithCRStr (val : Str) : Bool :=
  codeAt val ((val.length : Int) - 1) = 13

/-- Code of `nodeCharCodeAt(node, offset)` (pieceTreeBase lines
1692-1699). -/
def nodeCharCodeAt (s : PTB) (id : Nat) (offset : Int) : Int :=
  let p := s.pieceOf id
  if p.lineFeedCnt < 1 then -1
  else codeAt (s.bufferAt p.bufferIndex).buffer
    (s.offsetInBuffer p.bufferIndex p.start + offset)

/-- Code of the `TreeNode` case of `startWithLF` (pieceTreeBase lines
1729-1746); `none` is `SENTINEL`. -/
def startWithLFNode (s : PTB) (id? : Option Nat) : Bool :=
  match id? with
  | none => false
  | some id =>
    match s.root.findPiece id with
    | none => false
    | some p =>
      if p.lineFeedCnt = 0 then false
      else
        let lineStarts := (s.bufferAt p.bufferIndex).lineStarts
        let line := p.start.line
        let startOffset := lsGet lineStarts line + p.start.column
        if line = (lineStarts.length : Int) - 1 then false
        else
          let nextLineOffset := lsGet lineStarts (line + 1)
          if nextLineOffset > startOffset + 1 then false
          else codeAt (s.bufferAt p.bufferIndex).buffer startOffset = 10

/-- Code of the `TreeNode` case of `endWithCR` (pieceTreeBase lines
1753-1757). -/
def endWithCRNode (s : PTB) (id? : Option Nat) : Bool :=
  match id? with
  | none => false
  | some id =>
    match s.root.findPiece id with
    | none => false
    | some p =>
      if p.lineFeedCnt = 0 then false
      else s.nodeCharCodeAt id (p.length - 1) = 13

end PTB

end PieceTree

namespace PieceTree

namespace PTB

/-- Large-text loop of `createNewPieces` (pieceTreeBase lines 1252-1287):
split `text` into chunks of at most `AverageBufferSize` (65535) code units,
keeping back a trailing `"\r"` or high surrogate, each chunk becoming a
fresh immutable buffer with one piece. -/
def createNewPiecesBigF (s : PTB) : Nat → Str → List Piece → List Piece × PTB
  | fuel + 1, text, acc =>
    if (text.length : Int) > 65535 then
      let lastChar := codeAt text 65534
      let cut : Nat :=
        if lastChar = 13 ∨ (lastChar ≥ 0xD800 ∧ lastChar ≤ 0xDBFF) then 65534 else 65535
      let splitText := text.take cut
      let text2 := text.drop cut
      let lineStarts := createLineStartsFast splitText
      let piece : Piece :=
        ⟨(s.buffers.length : Int), ⟨0, 0⟩,
          ⟨(lineStarts.length : Int) - 1, (splitText.length : Int) - lsLast lineStarts⟩,
          (lineStarts.length : Int) - 1, (splitText.length : Int)⟩
      createNewPiecesBigF { s with buffers := s.buffers ++ [⟨splitText, lineStarts⟩] }
        fuel text2 (acc ++ [piece])
    else
      let lineStarts := createLineStartsFast text
      let piece : Piece :=
        ⟨(s.buffers.length : Int), ⟨0, 0⟩,
          ⟨(lineStarts.length : Int) - 1, (text.length : Int) - lsLast lineStarts⟩,
          (lineStarts.length : Int) - 1, (text.length : Int)⟩
      (acc ++ [piece], { s with buffers := s.buffers ++ [⟨text, lineStarts⟩] })
  | 0, text, acc =>
    let lineStarts := createLineStartsFast text
    let piece : Piece :=
      ⟨(s.buffers.length : Int), ⟨0, 0⟩,
        ⟨(lineStarts.length : Int) - 1, (text.length : Int) - lsLast lineStarts⟩,
        (lineStarts.length : Int) - 1, (text.length : Int)⟩
    (acc ++ [piece], { s with buffers := s.buffers ++ [⟨text, lineStarts⟩] })

/-- Large-text split of `createNewPieces`, run with sufficient fuel (every
iteration drops at least 65534 code units, so `length` iterations always
suffice and the fuel guard never fires). -/
def createNewPiecesBig (s : PTB) (text : Str) (acc : List Piece) : List Piece × PTB :=
  createNewPiecesBigF s (text.length + 1) text acc

/-- Code of `createNewPieces(text)` (pieceTreeBase lines 1248-1333).  The
small-text path appends to the change buffer; when the change buffer ends
with `"\r"` and the new text starts with `"\n"`, a filler `"_"` is written
between them so the pair is not misread as one `"\r\n"` break (the piece
then starts one column later). -/
def createNewPieces (s : PTB) (text : Str) : List Piece × PTB :=
  if (text.length : Int) > 65535 then s.createNewPiecesBig text []
  else
    let buf0 := s.bufferAt 0
    let startOffset : Int := buf0.buffer.length
    let lineStarts := createLineStartsFast text
    if lsGet buf0.lineStarts ((buf0.lineStarts.length : Int) - 1) = startOffset
        ∧ ¬(startOffset = 0)
        ∧ startWithLFStr text
        ∧ endWithCRStr buf0.buffer then
      let lastPos : BufferCursor :=
        ⟨s.lastChangeBufferPos.line, s.lastChangeBufferPos.column + 1⟩
      let start := lastPos
      let shifted := lineStarts.map (fun x => x + startOffset + 1)
      let newBuf0 : StringBuffer :=
        ⟨buf0.buffer ++ Char.ofNat 95 :: text, buf0.lineStarts ++ shifted.drop 1⟩
      let s2 := { (s.setBufferAt 0 newBuf0) with lastChangeBufferPos := lastPos }
      let startOffset2 := startOffset + 1
      let endOffset : Int := newBuf0.buffer.length
      let endIndex : Int := (newBuf0.lineStarts.length : Int) - 1
      let endColumn := endOffset - lsGet newBuf0.lineStarts endIndex
      let endPos : BufferCursor := ⟨endIndex, endColumn⟩
      let newPiece : Piece :=
        ⟨0, start, endPos, s2.getLineFeedCnt 0 start endPos, endOffset - startOffset2⟩
      ([newPiece], { s2 with lastChangeBufferPos := endPos })
    else
      let shifted := if ¬(startOffset = 0) then lineStarts.map (fun x => x + startOffset)
        else lineStarts
      let newBuf0 : StringBuffer :=
        ⟨buf0.buffer ++ text, buf0.lineStarts ++ shifted.drop 1⟩
      let s2 := s.setBufferAt 0 newBuf0
      let start := s.lastChangeBufferPos
      let endOffset : Int := newBuf0.buffer.length
      let endIndex : Int := (newBuf0.lineStarts.length : Int) - 1
      let endColumn := endOffset - lsGet newBuf0.lineStarts endIndex
      let endPos : BufferCursor := ⟨endIndex, endColumn⟩
      let newPiece : Piece :=
        ⟨0, start, endPos, s2.getLineFeedCnt 0 start endPos, endOffset - startOffset⟩
      ([newPiece], { s2 with lastChangeBufferPos := endPos })

/-- Code of `deleteNodeTail(node, pos)` (pieceTreeBase lines 1464-1486);
metadata updates are derived on this representation. -/
def deleteNodeTail (s : PTB) (nodeId : Nat) (pos : BufferCursor) : PTB :=
  let piece := s.pieceOf nodeId
  let originalEndOffset := s.offsetInBuffer piece.bufferIndex piece.endPos
  let newEnd := pos
  let newEndOffset := s.offsetInBuffer piece.bufferIndex newEnd
  let newLineFeedCnt := s.getLineFeedCnt piece.bufferIndex piece.start newEnd
  let newLength := piece.length + (newEndOffset - originalEndOffset)
  { s with root := (s.root.setPiece nodeId
      ⟨piece.bufferIndex, piece.start, newEnd, newLineFeedCnt, newLength⟩) }

/-- Code of `deleteNodeHead(node, pos)` (pieceTreeBase lines 1488-1508). -/
def deleteNodeHead (s : PTB) (nodeId : Nat) (pos : BufferCursor) : PTB :=
  let piece := s.pieceOf nodeId
  let originalStartOffset := s.offsetInBuffer piece.bufferIndex piece.start
  let newStart := pos
  let newLineFeedCnt := s.getLineFeedCnt piece.bufferIndex newStart piece.endPos
  let newStartOffset := s.offsetInBuffer piece.bufferIndex newStart
  let newLength := piece.length + (originalStartOffset - newStartOffset)
  { s with root := (s.root.setPiece nodeId
      ⟨piece.bufferIndex, newStart, piece.endPos, newLineFeedCnt, newLength⟩) }

/-- Code of `fixCRLF(prev, next)` (pieceTreeBase lines 1778-1831): shave the
`"\r"` off `prev`, the `"\n"` off `next`, insert a fresh `"\r\n"` piece
after `prev`, and drop emptied nodes. -/
def fixCRLF (s : PTB) (prevId nextId : Nat) : PTB :=
  let prevPiece := s.pieceOf prevId
  let lineStarts := (s.bufferAt prevPiece.bufferIndex).lineStarts
  let newEnd : BufferCursor :=
    if prevPiece.endPos.column = 0 then
      ⟨prevPiece.endPos.line - 1,
        lsGet lineStarts prevPiece.endPos.line
          - lsGet lineStarts (prevPiece.endPos.line - 1) - 1⟩
    else ⟨prevPiece.endPos.line, prevPiece.endPos.column - 1⟩
  let prevNewLength := prevPiece.length - 1
  let prevNewLFCnt := prevPiece.lineFeedCnt - 1
  let s := { s with root := (s.root.setPiece prevId
      ⟨prevPiece.bufferIndex, prevPiece.start, newEnd, prevNewLFCnt, prevNewLength⟩) }
  let nodesToDel1 := if (s.pieceOf prevId).length = 0 then [prevId] else []
  let nextPiece := s.pieceOf nextId
  let newStart : BufferCursor := ⟨nextPiece.start.line + 1, 0⟩
  let newLength := nextPiece.length - 1
  let newLineFeedCnt := s.getLineFeedCnt nextPiece.bufferIndex newStart nextPiece.endPos
  let s := { s with root := (s.root.setPiece nextId
      ⟨nextPiece.bufferIndex, newStart, nextPiece.endPos, newLineFeedCnt, newLength⟩) }
  let nodesToDel := nodesToDel1 ++ (if (s.pieceOf nextId).length = 0 then [nextId] else [])
  let r := s.createNewPieces [CR, LF]
  let s := (r.2.rbInsertRight (some prevId) (r.1.headD defaultPiece)).2
  s.deleteNodes nodesToDel

/-- Code of `validateCRLFWithPrevNode(nextNode)` (pieceTreeBase lines
1760-1767). -/
def validateCRLFWithPrevNode (s : PTB) (nextNode? : Option Nat) : PTB :=
  if s.shouldCheckCRLF ∧ s.startWithLFNode nextNode? then
    match nextNode? with
    | some nid =>
      match s.root.prevId nid with
      | some pid => if s.endWithCRNode (some pid) then s.fixCRLF pid nid else s
      | none => s
    | none => s
  else s

/-- Code of `validateCRLFWithNextNode(node)` (pieceTreeBase lines
1769-1776). -/
def validateCRLFWithNextNode (s : PTB) (node? : Option Nat) : PTB :=
  if s.shouldCheckCRLF ∧ s.endWithCRNode node? then
    match node? with
    | some nid =>
      match s.root.nextId nid with
      | some nn => if s.startWithLFNode (some nn) then s.fixCRLF nid nn else s
      | none => s
    | none => s
  else s

/-- Code of `adjustCarriageReturnFromNext(value, node)` (pieceTreeBase lines
1833-1863); `true` tells the caller to append the stolen `"\n"` to
`value`. -/
def adjustCarriageReturnFromNext (s : PTB) (value : Str) (nodeId : Nat) : Bool × PTB :=
  if s.shouldCheckCRLF ∧ endWithCRStr value then
    let nextNode? := s.root.nextId nodeId
    if s.startWithLFNode nextNode? then
      match nextNode? with
      | some nextNode =>
        if (s.pieceOf nextNode).length = 1 then (true, s.rbDelete nextNode)
        else
          let piece := s.pieceOf nextNode
          let newStart : BufferCursor := ⟨piece.start.line + 1, 0⟩
          let newLength := piece.length - 1
          let newLineFeedCnt := s.getLineFeedCnt piece.bufferIndex newStart piece.endPos
          (true, { s with root := (s.root.setPiece nextNode
              ⟨piece.bufferIndex, newStart, piece.endPos, newLineFeedCnt, newLength⟩) })
      | none => (false, s)
    else (false, s)
  else (false, s)

/-- Code of `appendToNode(node, value)` (pieceTreeBase lines 1549-1587):
the sequential-typing fast path appending `value` to the change buffer and
extending the node's piece in place. -/
def appendToNode (s : PTB) (nodeId : Nat) (value0 : Str) : PTB :=
  let r0 := s.adjustCarriageReturnFromNext value0 nodeId
  let s := r0.2
  let value := if r0.1 then value0 ++ [LF] else value0
  let hitCRLF := s.shouldCheckCRLF ∧ startWithLFStr value ∧ s.endWithCRNode (some nodeId)
  let buf0 := s.bufferAt 0
  let startOffset : Int := buf0.buffer.length
  let newBuffer := buf0.buffer ++ value
  let lineStarts := (createLineStartsFast value).map (fun x => x + startOffset)
  let r1 :=
    if hitCRLF then
      let prevStartOffset := lsGet buf0.lineStarts ((buf0.lineStarts.length : Int) - 2)
      (buf0.lineStarts.dropLast,
        (⟨s.lastChangeBufferPos.line - 1, startOffset - prevStartOffset⟩ : BufferCursor))
    else (buf0.lineStarts, s.lastChangeBufferPos)
  let newLineStarts := r1.1 ++ lineStarts.drop 1
  let s := { (s.setBufferAt 0 ⟨newBuffer, newLineStarts⟩) with lastChangeBufferPos := r1.2 }
  let endIndex : Int := (newLineStarts.length : Int) - 1
  let endColumn : Int := (newBuffer.length : Int) - lsGet newLineStarts endIndex
  let newEnd : BufferCursor := ⟨endIndex, endColumn⟩
  let piece := s.pieceOf nodeId
  let newLength := piece.length + (value.length : Int)
  let newLineFeedCnt := s.getLineFeedCnt 0 piece.start newEnd
  let s := { s with root := (s.root.setPiece nodeId
      ⟨piece.bufferIndex, piece.start, newEnd, newLineFeedCnt, newLength⟩) }
  { s with lastChangeBufferPos := newEnd }

/-- Chain of `rbInsertLeft` calls in `insertContentToNodeLeft`
(pieceTreeBase lines 1129-1132): last piece left of `tgt`, then each
earlier piece left of the previous one; returns the node of the first
piece. -/
def insertLeftChain (s : PTB) (tgt : Nat) (pieces : List Piece) : Nat × PTB :=
  match pieces.reverse with
  | [] => (tgt, s)
  | p0 :: rest =>
    let r0 := s.rbInsertLeft (some tgt) p0
    rest.foldl (fun acc p => acc.2.rbInsertLeft (some acc.1) p) r0

/-- Chain of `rbInsertRight` calls (pieceTreeBase lines 1144-1150 and
1005-1008): first piece right of `tgt`, then each later piece right of the
previous one; returns the node of the first piece. -/
def insertRightChain (s : PTB) (tgt : Nat) (pieces : List Piece) : Nat × PTB :=
  match pieces with
  | [] => (tgt, s)
  | p0 :: rest =>
    let r0 := s.rbInsertRight (some tgt) p0
    let final := rest.foldl (fun acc p => acc.2.rbInsertRight (some acc.1) p) r0
    (r0.1, final.2)

/-- Code of `insertContentToNodeLeft(value, node)` (pieceTreeBase lines
1102-1135). -/
def insertContentToNodeLeft (s : PTB) (value0 : Str) (nodeId : Nat) : PTB :=
  let r0 :=
    if s.shouldCheckCRLF ∧ endWithCRStr value0 ∧ s.startWithLFNode (some nodeId) then
      let piece := s.pieceOf nodeId
      let newStart : BufferCursor := ⟨piece.start.line + 1, 0⟩
      let nPiece : Piece :=
        ⟨piece.bufferIndex, newStart, piece.endPos,
          s.getLineFeedCnt piece.bufferIndex newStart piece.endPos, piece.length - 1⟩
      let s2 := { s with root := s.root.setPiece nodeId nPiece }
      (value0 ++ [LF], s2, if nPiece.length = 0 then [nodeId] else [])
    else (value0, s, ([] : List Nat))
  let r1 := r0.2.1.createNewPieces r0.1
  let r2 := insertLeftChain r1.2 nodeId r1.1
  let s := r2.2.validateCRLFWithPrevNode (some r2.1)
  s.deleteNodes r0.2.2

/-- Code of `insertContentToNodeRight(value, node)` (pieceTreeBase lines
1137-1153). -/
def insertContentToNodeRight (s : PTB) (value0 : Str) (nodeId : Nat) : PTB :=
  let r0 := s.adjustCarriageReturnFromNext value0 nodeId
  let value := if r0.1 then value0 ++ [LF] else value0
  let r1 := r0.2.createNewPieces value
  let r2 := insertRightChain r1.2 nodeId r1.1
  r2.2.validateCRLFWithPrevNode (some r2.1)

/-- Code of `shrinkNode(node, start, end)` (pieceTreeBase lines
1514-1547). -/
def shrinkNode (s : PTB) (nodeId : Nat) (start endC : BufferCursor) : PTB :=
  let piece := s.pieceOf nodeId
  let originalStartPos := piece.start
  let originalEndPos := piece.endPos
  let newEnd := start
  let newLineFeedCnt := s.getLineFeedCnt piece.bufferIndex piece.start newEnd
  let newLength := s.offsetInBuffer piece.bufferIndex start
    - s.offsetInBuffer piece.bufferIndex originalStartPos
  let s := { s with root := (s.root.setPiece nodeId
      ⟨piece.bufferIndex, piece.start, newEnd, newLineFeedCnt, newLength⟩) }
  let newPiece : Piece :=
    ⟨piece.bufferIndex, endC, originalEndPos,
      s.getLineFeedCnt piece.bufferIndex endC originalEndPos,
      s.offsetInBuffer piece.bufferIndex originalEndPos
        - s.offsetInBuffer piece.bufferIndex endC⟩
  let r := s.rbInsertRight (some nodeId) newPiece
  r.2.validateCRLFWithPrevNode (some r.1)

/-- Code of `insert(offset, value, eolNormalized)` (pieceTreeBase lines
929-1025).  The `nodeAt` miss path (offset outside `[0, length]`, a JS
crash) leaves the state unchanged. -/
def insert (s0 : PTB) (offset : Int) (value : Str) (eolNormalized : Bool := false) : PTB :=
  let s := { s0 with eolNormalized := s0.eolNormalized && eolNormalized,
                     lastVisitedLineNumber := 0, lastVisitedLineValue := [] }
  if ¬(s.root = RBTree.nil) then
    match s.nodeAt offset with
    | (some np, s) =>
      let nodeId := np.nodeId
      let remainder := np.remainder
      let nodeStartOffset := np.nodeStartOffset
      let piece := s.pieceOf nodeId
      let bufferIndex := piece.bufferIndex
      let insertPosInBuffer := s.positionInBuffer piece remainder
      if piece.bufferIndex = 0
          ∧ piece.endPos.line = s.lastChangeBufferPos.line
          ∧ piece.endPos.column = s.lastChangeBufferPos.column
          ∧ offset = nodeStartOffset + piece.length
          ∧ (value.length : Int) < 65535 then
        (s.appendToNode nodeId value).computeBufferMetadata
      else if offset = nodeStartOffset then
        let s := s.insertContentToNodeLeft value nodeId
        let s := { s with cache := s.cache.validate s.root offset }
        s.computeBufferMetadata
      else if offset < nodeStartOffset + piece.length then
        let newRightPiece0 : Piece :=
          ⟨piece.bufferIndex, insertPosInBuffer, piece.endPos,
            s.getLineFeedCnt piece.bufferIndex insertPosInBuffer piece.endPos,
            s.offsetInBuffer bufferIndex piece.endPos
              - s.offsetInBuffer bufferIndex insertPosInBuffer⟩
        let r0 :=
          if s.shouldCheckCRLF ∧ endWithCRStr value then
            let headOfRight := s.nodeCharCodeAt nodeId remainder
            if headOfRight = 10 then
              let newStart : BufferCursor := ⟨newRightPiece0.start.line + 1, 0⟩
              ((⟨newRightPiece0.bufferIndex, newStart, newRightPiece0.endPos,
                  s.getLineFeedCnt newRightPiece0.bufferIndex newStart newRightPiece0.endPos,
                  newRightPiece0.length - 1⟩ : Piece), value ++ [LF])
            else (newRightPiece0, value)
          else (newRightPiece0, value)
        let newRightPiece := r0.1
        let r1 :=
          if s.shouldCheckCRLF ∧ startWithLFStr r0.2 then
            let tailOfLeft := s.nodeCharCodeAt nodeId (remainder - 1)
            if tailOfLeft = 13 then
              let previousPos := s.positionInBuffer piece (remainder - 1)
              let s2 := s.deleteNodeTail nodeId previousPos
              (CR :: r0.2, s2, if (s2.pieceOf nodeId).length = 0 then [nodeId] else [])
            else (r0.2, s.deleteNodeTail nodeId insertPosInBuffer, ([] : List Nat))
          else (r0.2, s.deleteNodeTail nodeId insertPosInBuffer, ([] : List Nat))
        let r2 := r1.2.1.createNewPieces r1.1
        let s := r2.2
        let s := if newRightPiece.length > 0 then (s.rbInsertRight (some nodeId) newRightPiece).2 else s
        let s := (insertRightChain s nodeId r2.1).2
        (s.deleteNodes r1.2.2).computeBufferMetadata
      else
        (s.insertContentToNodeRight value nodeId).computeBufferMetadata
    | (none, s) => s
  else
    let r := s.createNewPieces value
    match r.1 with
    | [] => r.2.computeBufferMetadata
    | p0 :: rest =>
      let r1 := r.2.rbInsertLeft none p0
      let s := (rest.foldl (fun acc p => acc.2.rbInsertRight (some acc.1) p) r1).2
      s.computeBufferMetadata

/-- Code of `delete(offset, cnt)` (pieceTreeBase lines 1028-1100).  The
`nodeAt` miss paths (JS crashes, unreachable for valid arguments) leave the
state unchanged. -/
def deleteRange (s0 : PTB) (offset cnt : Int) : PTB :=
  let s := { s0 with lastVisitedLineNumber := 0, lastVisitedLineValue := [] }
  if cnt ≤ 0 ∨ s.root = RBTree.nil then s
  else
    let ra := s.nodeAt offset
    let rb := ra.2.nodeAt (offset + cnt)
    let s := rb.2
    match ra.1, rb.1 with
    | some startPosition, some endPosition =>
      let startNode := startPosition.nodeId
      let endNode := endPosition.nodeId
      if startNode = endNode then
        let startSplitPosInBuffer := s.positionInBuffer (s.pieceOf startNode) startPosition.remainder
        let endSplitPosInBuffer := s.positionInBuffer (s.pieceOf startNode) endPosition.remainder
        if offset = startPosition.nodeStartOffset then
          if cnt = (s.pieceOf startNode).length then
            let next := s.root.nextId startNode
            let s := s.rbDelete startNode
            let s := s.validateCRLFWithPrevNode next
            s.computeBufferMetadata
          else
            let s := s.deleteNodeHead startNode endSplitPosInBuffer
            let s := { s with cache := s.cache.validate s.root offset }
            let s := s.validateCRLFWithPrevNode (some startNode)
            s.computeBufferMetadata
        else if offset + cnt = startPosition.nodeStartOffset + (s.pieceOf startNode).length then
          let s := s.deleteNodeTail startNode startSplitPosInBuffer
          let s := s.validateCRLFWithNextNode (some startNode)
          s.computeBufferMetadata
        else
          let s := s.shrinkNode startNode startSplitPosInBuffer endSplitPosInBuffer
          s.computeBufferMetadata
      else
        let startSplitPosInBuffer := s.positionInBuffer (s.pieceOf startNode) startPosition.remainder
        let s := s.deleteNodeTail startNode startSplitPosInBuffer
        let s := { s with cache := s.cache.validate s.root offset }
        let nodesToDel1 : List Nat := if (s.pieceOf startNode).length = (0 : Int) then [startNode] else []
        let endSplitPosInBuffer := s.positionInBuffer (s.pieceOf endNode) endPosition.remainder
        let s := s.deleteNodeHead endNode endSplitPosInBuffer
        let nodesToDel2 : List Nat := if (s.pieceOf endNode).length = (0 : Int) then [endNode] else []
        let between := ((s.root.suffixAfter startNode).map Prod.fst).takeWhile
          (fun i => ¬(i = endNode))
        let nodesToDel := nodesToDel1 ++ nodesToDel2 ++ between
        let prev : Option Nat := if (s.pieceOf startNode).length = (0 : Int) then s.root.prevId startNode
          else some startNode
        let s := s.deleteNodes nodesToDel
        let s := s.validateCRLFWithNextNode prev
        s.computeBufferMetadata
    | _, _ => s

end PTB

end PieceTree

namespace PieceTree

namespace PTB

/-- Chunk-processing loop of `create` (pieceTreeBase lines 346-370); `i` is
the chunk index, `lastNode` the previously inserted node.  A chunk carries
its line starts or `none` (the JS `undefined`), in which case they are
computed. -/
def createGo (s : PTB) : List (Str × Option (List Int)) → Int → Option Nat → PTB
  | [], _, _ => s
  | (buf, ls?) :: rest, i, lastNode =>
    if (buf.length : Int) > 0 then
      let lineStarts := match ls? with
        | some ls => ls
        | none => createLineStartsFast buf
      let piece : Piece :=
        ⟨i + 1, ⟨0, 0⟩,
          ⟨(lineStarts.length : Int) - 1,
            (buf.length : Int) - lsGet lineStarts ((lineStarts.length : Int) - 1)⟩,
          (lineStarts.length : Int) - 1, (buf.length : Int)⟩
      let s := { s with buffers := s.buffers ++ [(⟨buf, lineStarts⟩ : StringBuffer)] }
      let r := s.rbInsertRight lastNode piece
      createGo r.2 rest (i + 1) (some r.1)
    else createGo s rest (i + 1) lastNode

/-- Code of `create(chunks, eol, eolNormalized)` (pieceTreeBase lines
333-375), also the constructor. -/
def create (chunks : List (Str × Option (List Int))) (eol : Str) (eolNormalized : Bool) : PTB :=
  let s0 : PTB :=
    { root := RBTree.nil
      buffers := [⟨[], [0]⟩]
      lineCnt := 1
      length := 0
      eol := eol
      eolLength := (eol.length : Int)
      eolNormalized := eolNormalized
      lastChangeBufferPos := ⟨0, 0⟩
      cache := ⟨1, []⟩
      lastVisitedLineNumber := 0
      lastVisitedLineValue := []
      nextId := 1 }
  (createGo s0 chunks 0 none).computeBufferMetadata

end PTB

/-- State of class `PieceTreeSnapshot` (pieceTreeBase lines 198-238): the
piece list is copied at creation, the text is read lazily through the live
tree. -/
structure PieceTreeSnapshot where
  pieces : List Piece
  index : Nat
  bom : Str
  deriving Repr, DecidableEq

namespace PTB

/-- Code of `createSnapshot(BOM)` (pieceTreeBase lines 423-425 and the
`PieceTreeSnapshot` constructor): copy the in-order pieces. -/
def createSnapshot (s : PTB) (bom : Str) : PieceTreeSnapshot :=
  ⟨s.root.inorder.map Prod.snd, 0, bom⟩

end PTB

namespace PieceTreeSnapshot

/-- Code of `read()` (pieceTreeBase lines 219-237); `s` is the live tree
(`this._tree`), `none` is the JS `null`. -/
def read (snap : PieceTreeSnapshot) (s : PTB) : Option Str × PieceTreeSnapshot :=
  if snap.pieces.length = 0 then
    if snap.index = 0 then (some snap.bom, { snap with index := 1 })
    else (none, snap)
  else if snap.index > snap.pieces.length - 1 then (none, snap)
  else if snap.index = 0 then
    (some (snap.bom ++ s.getPieceContent (snap.pieces.getD 0 defaultPiece)),
      { snap with index := snap.index + 1 })
  else
    (some (s.getPieceContent (snap.pieces.getD snap.index defaultPiece)),
      { snap with index := snap.index + 1 })

/-- Fuelled loop of repeated `read()` calls. -/
def readAllGo (s : PTB) : PieceTreeSnapshot → Nat → List Str
  | _, 0 => []
  | snap, fuel + 1 =>
    match snap.read s with
    | (none, _) => []
    | (some chunk, snap2) => chunk :: readAllGo s snap2 fuel

/-- Concatenation of every chunk yielded by repeated `read()` calls until
`null` (the fuel bounds the loop; `read` advances `index` on every non-null
result, so `pieces.length + 2` steps always suffice). -/
def readAll (snap : PieceTreeSnapshot) (s : PTB) : Str :=
  (readAllGo s snap (snap.pieces.length + 2)).flatten

end PieceTreeSnapshot

namespace PTB

/-- In-order tail walk of `getLineRawContent` (pieceTreeBase lines
1392-1408). -/
def glrcPhase2 (s : PTB) (endOffset : Int) : List (Nat × Piece) → Str → Str
  | [], ret => ret
  | (_, p) :: rest, ret =>
    let buffer := (s.bufferAt p.bufferIndex).buffer
    if p.lineFeedCnt > 0 then
      let accumulatedValue := s.getAccumulatedValue p 0
      let startOffset := s.offsetInBuffer p.bufferIndex p.start
      ret ++ jsSubstring buffer startOffset (startOffset + accumulatedValue - endOffset)
    else
      let startOffset := s.offsetInBuffer p.bufferIndex p.start
      s.glrcPhase2 endOffset rest (ret ++ jsSubstr buffer startOffset p.length)

/-- Cache-miss descent of `getLineRawContent` (pieceTreeBase lines
1358-1388); `inl` is the early return (with the cache entry it stores),
`inr` the `break` into the in-order walk. -/
def glrcGo (s : PTB) (endOffset originalLineNumber : Int) :
    RBTree → Int → Int → (Str × CacheEntry) ⊕ (Str × Option Nat)
  | RBTree.nil, _, _ => Sum.inr ([], none)
  | RBTree.node l id _ p r, lineNumber, nodeStartOffset =>
    if ¬(l = RBTree.nil) ∧ l.totalLFs ≥ lineNumber - 1 then
      s.glrcGo endOffset originalLineNumber l lineNumber nodeStartOffset
    else if l.totalLFs + p.lineFeedCnt > lineNumber - 1 then
      let prevAccumulatedValue := s.getAccumulatedValue p (lineNumber - l.totalLFs - 2)
      let accumulatedValue := s.getAccumulatedValue p (lineNumber - l.totalLFs - 1)
      let buffer := (s.bufferAt p.bufferIndex).buffer
      let startOffset := s.offsetInBuffer p.bufferIndex p.start
      let nodeStartOffset2 := nodeStartOffset + l.totalLen
      Sum.inl (jsSubstring buffer (startOffset + prevAccumulatedValue)
          (startOffset + accumulatedValue - endOffset),
        ⟨id, nodeStartOffset2, some (originalLineNumber - (lineNumber - 1 - l.totalLFs))⟩)
    else if l.totalLFs + p.lineFeedCnt = lineNumber - 1 then
      let prevAccumulatedValue := s.getAccumulatedValue p (lineNumber - l.totalLFs - 2)
      let buffer := (s.bufferAt p.bufferIndex).buffer
      let startOffset := s.offsetInBuffer p.bufferIndex p.start
      Sum.inr (jsSubstring buffer (startOffset + prevAccumulatedValue)
        (startOffset + p.length), some id)
    else
      s.glrcGo endOffset originalLineNumber r (lineNumber - (l.totalLFs + p.lineFeedCnt))
        (nodeStartOffset + l.totalLen + p.length)

/-- Code of `getLineRawContent(lineNumber, endOffset)` (pieceTreeBase lines
1341-1411); a cache-miss early return stores a line-aware cache entry. -/
def getLineRawContent (s : PTB) (lineNumber endOffset : Int) : Str × PTB :=
  match s.cache.get2 s.root lineNumber with
  | some (e, ln) =>
    let p := s.pieceOf e.nodeId
    let prevAccumulatedValue := s.getAccumulatedValue p (lineNumber - ln - 1)
    let buffer := (s.bufferAt p.bufferIndex).buffer
    let startOffset := s.offsetInBuffer p.bufferIndex p.start
    if ln + p.lineFeedCnt = lineNumber then
      let ret := jsSubstring buffer (startOffset + prevAccumulatedValue)
        (startOffset + p.length)
      (s.glrcPhase2 endOffset (s.root.suffixAfter e.nodeId) ret, s)
    else
      let accumulatedValue := s.getAccumulatedValue p (lineNumber - ln)
      (jsSubstring buffer (startOffset + prevAccumulatedValue)
        (startOffset + accumulatedValue - endOffset), s)
  | none =>
    match s.glrcGo endOffset lineNumber s.root lineNumber 0 with
    | Sum.inl (v, entry) => (v, { s with cache := s.cache.set entry })
    | Sum.inr (ret, some bid) => (s.glrcPhase2 endOffset (s.root.suffixAfter bid) ret, s)
    | Sum.inr (ret, none) => (ret, s)

/-- Code of `getLineContent(lineNumber)` (pieceTreeBase lines 678-694) with
its most-recently-visited-line cache. -/
def getLineContent (s : PTB) (lineNumber : Int) : Str × PTB :=
  if s.lastVisitedLineNumber = lineNumber then (s.lastVisitedLineValue, s)
  else
    let s := { s with lastVisitedLineNumber := lineNumber }
    if lineNumber = s.lineCnt then
      let r := s.getLineRawContent lineNumber 0
      (r.1, { r.2 with lastVisitedLineValue := r.1 })
    else if s.eolNormalized then
      let r := s.getLineRawContent lineNumber s.eolLength
      (r.1, { r.2 with lastVisitedLineValue := r.1 })
    else
      let r := s.getLineRawContent lineNumber 0
      let v := chopTrailingEOL r.1
      (v, { r.2 with lastVisitedLineValue := v })

end PTB

end PieceTree

namespace PieceTree

/-! ## PieceTreeTextBuffer (`pieceTreeTextBuffer.ts`) and its modelled
external helpers. -/


/-- Stable insertion of `x` into a sorted list (before the first element
`y` with `le x y`). -/
def insertSorted (le : α → α → Bool) (x : α) : List α → List α
  | [] => [x]
  | y :: ys => if le x y then x :: y :: ys else y :: insertSorted le x ys

/-- Stable sort modelling the (stable) JS `Array.prototype.sort` with a
total comparator. -/
def stableSort (le : α → α → Bool) : List α → List α
  | [] => []
  | x :: rest => insertSorted le x (stableSort le rest)

/-- Truthiness of a nullable JS string: `null` and `""` are falsy. -/
def jsTruthy (t : Option Str) : Bool :=
  match t with
  | none => false
  | some v => ¬(v = [])

/-- Modelled from the spec: `strings.isBasicASCII` (vs/base/common/strings,
not in the source snapshot) tests that every code unit is tab, LF, CR or a
printable ASCII character; it only feeds the `mightContainNonBasicASCII`
metadata flag. -/
def isBasicASCIIStr (t : Str) : Bool :=
  t.all (fun c => c.toNat = 9 ∨ c.toNat = 10 ∨ c.toNat = 13 ∨
    (32 ≤ c.toNat ∧ c.toNat ≤ 126))

/-- Modelled from the spec: `strings.containsUnusualLineTerminators` (not in
the source snapshot) tests for U+2028 / U+2029; it only feeds a metadata
flag. -/
def containsUnusualLineTerminators (t : Str) : Bool :=
  t.any (fun c => c.toNat = 0x2028 ∨ c.toNat = 0x2029)

/-- Modelled from the spec: `strings.containsRTL` (not in the source
snapshot) tests for right-to-left characters (Hebrew/Arabic blocks); it only
feeds a metadata flag. -/
def containsRTL (t : Str) : Bool :=
  t.any (fun c => (0x591 ≤ c.toNat ∧ c.toNat ≤ 0x8FF) ∨
    (0xFB1D ≤ c.toNat ∧ c.toNat ≤ 0xFDFD) ∨ (0xFE70 ≤ c.toNat ∧ c.toNat ≤ 0xFEFC))

/-- Modelled from the spec: `strings.firstNonWhitespaceIndex` (not in the
source snapshot): index of the first character that is neither space nor
tab, `-1` when all are whitespace. -/
def firstNonWhitespaceIndex (t : Str) : Int :=
  match t.findIdx? (fun c => ¬(c.toNat = 32 ∨ c.toNat = 9)) with
  | some i => (i : Int)
  | none => -1

/-- Modelled from the spec: loop of `countEOL` (vs/editor/common/core/
eolCounter, not in the source snapshot).  State: offset `i`, `eolCount`,
`firstLineLength`, `lastLineStart`, and the `StringEOL` bitmask
(`Unknown = 0`, `LF = 1`, `CRLF = 2`, `Invalid = 3`); `"\r\n"` advances past
both characters. -/
def countEOLGo : Str → Int → Int → Int → Int → Nat → Int × Int × Int × Nat
  | [], i, eolCount, firstLineLength, lastLineStart, kind =>
    (eolCount, (if eolCount = 0 then i else firstLineLength), i - lastLineStart, kind)
  | c :: rest, i, eolCount, firstLineLength, lastLineStart, kind =>
    if c = CR then
      let firstLineLength2 := if eolCount = 0 then i else firstLineLength
      match rest with
      | c2 :: rest2 =>
        if c2 = LF then
          countEOLGo rest2 (i + 2) (eolCount + 1) firstLineLength2 (i + 2) (kind.lor 2)
        else
          countEOLGo (c2 :: rest2) (i + 1) (eolCount + 1) firstLineLength2 (i + 1) (kind.lor 3)
      | [] => (eolCount + 1, firstLineLength2, 0, kind.lor 3)
    else if c = LF then
      let firstLineLength2 := if eolCount = 0 then i else firstLineLength
      countEOLGo rest (i + 1) (eolCount + 1) firstLineLength2 (i + 1) (kind.lor 1)
    else countEOLGo rest (i + 1) eolCount firstLineLength lastLineStart kind

/-- Modelled from the spec: `countEOL(text)` returns
`(eolCount, firstLineLength, lastLineLength, strEOL)`. -/
def countEOL (t : Str) : Int × Int × Int × Nat :=
  countEOLGo t 0 0 0 0 0

/-- Enum `EndOfLinePreference`. -/
inductive EOLPref where
  | TextDefined
  | LF
  | CRLF
  deriving Repr, DecidableEq

/-- Class `ValidAnnotatedEditOperation` (vs/editor/common/model): an edit
operation as handed to `applyEdits`; `text` is nullable. -/
structure ValidAnnotatedEditOperation where
  identifier : Option Int
  range : Range
  text : Option Str
  forceMoveMarkers : Bool
  isAutoWhitespaceEdit : Bool
  isTracked : Bool
  deriving Repr, DecidableEq

/-- Interface `IValidatedEditOperation` (pieceTreeTextBuffer lines
21-33). -/
structure IValidatedEditOperation where
  sortIndex : Int
  identifier : Option Int
  range : Range
  rangeOffset : Int
  rangeLength : Int
  text : Str
  eolCount : Int
  firstLineLength : Int
  lastLineLength : Int
  forceMoveMarkers : Bool
  isAutoWhitespaceEdit : Bool
  deriving Repr, DecidableEq

/-- Placeholder operation for the impossible empty-batch indexing paths. -/
def defaultValidatedOp : IValidatedEditOperation :=
  ⟨0, none, ⟨1, 1, 1, 1⟩, 0, 0, [], 0, 0, 0, false, false⟩

/-- Modelled from the spec: class `TextChange`
(vs/editor/common/core/textChange, not in the source snapshot): the undo
payload `(oldPosition, oldText, newPosition, newText)`. -/
structure TextChange where
  oldPosition : Int
  oldText : Str
  newPosition : Int
  newText : Str
  deriving Repr, DecidableEq

/-- Interface `IReverseSingleEditOperation` (pieceTreeTextBuffer lines
35-37). -/
structure ReverseOp where
  sortIndex : Int
  identifier : Option Int
  range : Range
  text : Str
  textChange : TextChange
  deriving Repr, DecidableEq

/-- Interface `IInternalModelContentChange`. -/
structure ContentChange where
  range : Range
  rangeLength : Int
  text : Str
  rangeOffset : Int
  forceMoveMarkers : Bool
  deriving Repr, DecidableEq

/-- Class `ApplyEditsResult`. -/
structure ApplyEditsResult where
  reverseEdits : Option (List ReverseOp)
  changes : List ContentChange
  trimAutoWhitespaceLineNumbers : Option (List Int)
  deriving Repr, DecidableEq

/-- State of class `PieceTreeTextBuffer` (pieceTreeTextBuffer lines
40-58). -/
structure PTTB where
  pieceTree : PTB
  bom : Str
  mightContainRTL : Bool
  mightContainUnusualLineTerminators : Bool
  mightContainNonBasicASCII : Bool
  deriving Repr, DecidableEq

namespace PTTB

/-- Constructor of `PieceTreeTextBuffer` (pieceTreeTextBuffer lines
51-58). -/
def create (chunks : List (Str × Option (List Int))) (bom : Str) (eol : Str)
    (containsRTLFlag containsUnusualFlag isBasicASCIIFlag eolNormalized : Bool) : PTTB :=
  { pieceTree := PTB.create chunks eol eolNormalized
    bom := bom
    mightContainNonBasicASCII := ¬isBasicASCIIFlag
    mightContainRTL := containsRTLFlag
    mightContainUnusualLineTerminators := containsUnusualFlag }

/-- Code of `getEOL()` (pieceTreeTextBuffer lines 89-91). -/
def getEOL (b : PTTB) : Str := b.pieceTree.eol

/-- Code of `_getEndOfLine(eol)` (pieceTreeTextBuffer lines 251-262); the
enum is closed, so the `throw` branch is unreachable. -/
def getEndOfLine (b : PTTB) : EOLPref → Str
  | EOLPref.LF => [PieceTree.LF]
  | EOLPref.CRLF => [CR, PieceTree.LF]
  | EOLPref.TextDefined => b.getEOL

/-- Code of `getOffsetAt(lineNumber, column)` (pieceTreeTextBuffer lines
97-99). -/
def getOffsetAt (b : PTTB) (lineNumber column : Int) : Int :=
  b.pieceTree.getOffsetAt lineNumber column

/-- Code of `getPositionAt(offset)` (pieceTreeTextBuffer lines 101-103). -/
def getPositionAt (b : PTTB) (offset : Int) : Position :=
  b.pieceTree.getPositionAt offset

/-- Code of `getValueInRange(range, eol)` (pieceTreeTextBuffer lines
112-119). -/
def getValueInRange (b : PTTB) (range : Range) (eol : EOLPref := EOLPref.TextDefined) : Str :=
  if range.isEmpty then []
  else
    let lineEnding := b.getEndOfLine eol
    b.pieceTree.getValueInRange range (some lineEnding)

/-- Code of `getValueLengthInRange(range, eol)` (pieceTreeTextBuffer lines
125-149). -/
def getValueLengthInRange (b : PTTB) (range : Range) (eol : EOLPref := EOLPref.TextDefined) : Int :=
  if range.isEmpty then 0
  else if range.startLineNumber = range.endLineNumber then
    range.endColumn - range.startColumn
  else
    let startOffset := b.getOffsetAt range.startLineNumber range.startColumn
    let endOffset := b.getOffsetAt range.endLineNumber range.endColumn
    let desiredEOL := b.getEndOfLine eol
    let actualEOL := b.getEOL
    let eolOffsetCompensation : Int :=
      if ¬((desiredEOL.length : Int) = (actualEOL.length : Int)) then
        ((desiredEOL.length : Int) - (actualEOL.length : Int))
          * (range.endLineNumber - range.startLineNumber)
      else 0
    endOffset - startOffset + eolOffsetCompensation

/-- Code of `getLength()` (pieceTreeTextBuffer lines 186-188). -/
def getLength (b : PTTB) : Int := b.pieceTree.getLength

/-- Code of `getLineCount()` (pieceTreeTextBuffer lines 190-192). -/
def getLineCount (b : PTTB) : Int := b.pieceTree.getLineCount

/-- Code of `getLineContent(lineNumber)` (pieceTreeTextBuffer lines
198-200); the line cache makes this state-threading. -/
def getLineContent (b : PTTB) (lineNumber : Int) : Str × PTTB :=
  let r := b.pieceTree.getLineContent lineNumber
  (r.1, { b with pieceTree := r.2 })

/-- Code of `createSnapshot(preserveBOM)` (pieceTreeTextBuffer lines
93-95). -/
def createSnapshot (b : PTTB) (preserveBOM : Bool) : PieceTreeSnapshot :=
  b.pieceTree.createSnapshot (if preserveBOM then b.bom else [])

/-- Code of `_sortOpsAscending(a, b)` (pieceTreeTextBuffer lines
650-656). -/
def sortOpsAscendingCmp (a b : IValidatedEditOperation) : Int :=
  let r := Range.compareRangesUsingEnds a.range b.range
  if r = 0 then a.sortIndex - b.sortIndex else r

/-- Code of `_sortOpsDescending(a, b)` (pieceTreeTextBuffer lines
658-664). -/
def sortOpsDescendingCmp (a b : IValidatedEditOperation) : Int :=
  let r := Range.compareRangesUsingEnds a.range b.range
  if r = 0 then b.sortIndex - a.sortIndex else -r

end PTTB

end PieceTree

namespace PieceTree

namespace PTTB

/-- Inclusive integer range `[a, b]` as a list (the JS
`for (let n = a; n <= b; n++)`). -/
def intRangeIncl (a b : Int) : List Int :=
  (List.range (b + 1 - a).toNat).map (fun k => a + (k : Int))

/-- Operation-building loop of `applyEdits` (pieceTreeTextBuffer lines
276-329): validates text EOLs against the buffer EOL, computes range
offsets/lengths, and updates the `mightContain*` flags and
`canReduceOperations`.  Result:
`(operations, mightContainRTL, mightContainUnusualLineTerminators,
mightContainNonBasicASCII, canReduceOperations)`. -/
def buildOperations (b : PTTB) : List ValidAnnotatedEditOperation → Int →
    Bool → Bool → Bool → Bool →
    List IValidatedEditOperation × Bool × Bool × Bool × Bool
  | [], _, rtl, unusual, nonBasic, canReduce => ([], rtl, unusual, nonBasic, canReduce)
  | op :: rest, i, rtl, unusual, nonBasic, canReduce =>
    let canReduce2 := if canReduce ∧ op.isTracked then false else canReduce
    let flags :=
      if jsTruthy op.text then
        let t := op.text.getD []
        let textNB : Bool := if nonBasic then true else !(isBasicASCIIStr t)
        let nonBasic2 : Bool := if nonBasic then nonBasic else textNB
        let rtl2 : Bool := if !rtl && textNB then containsRTL t else rtl
        let unusual2 : Bool := if !unusual && textNB then containsUnusualLineTerminators t else unusual
        (rtl2, unusual2, nonBasic2)
      else (rtl, unusual, nonBasic)
    let tdata :=
      if jsTruthy op.text then
        let t := op.text.getD []
        let ce := countEOL t
        let bufferEOL := b.getEOL
        let expectedStrEOL : Nat := if bufferEOL = [CR, LF] then 2 else 1
        let validText := if ce.2.2.2 = 0 ∨ ce.2.2.2 = expectedStrEOL then t
          else replaceEOLAll bufferEOL t
        (validText, ce.1, ce.2.1, ce.2.2.1)
      else (([] : Str), (0 : Int), (0 : Int), (0 : Int))
    let operation : IValidatedEditOperation :=
      { sortIndex := i
        identifier := op.identifier
        range := op.range
        rangeOffset := b.getOffsetAt op.range.startLineNumber op.range.startColumn
        rangeLength := b.getValueLengthInRange op.range
        text := tdata.1
        eolCount := tdata.2.1
        firstLineLength := tdata.2.2.1
        lastLineLength := tdata.2.2.2
        forceMoveMarkers := op.forceMoveMarkers
        isAutoWhitespaceEdit := op.isAutoWhitespaceEdit }
    let r := b.buildOperations rest (i + 1) flags.1 flags.2.1 flags.2.2 canReduce2
    (operation :: r.1, r.2)

/-- Overlap-validation loop of `applyEdits` (pieceTreeTextBuffer lines
334-346) over the ascending-sorted operations: a strictly overlapping
adjacent pair throws, a touching pair sets `hasTouchingRanges`. -/
def checkAdjacent : Bool → List IValidatedEditOperation → Except String Bool
  | touching, a :: b :: rest =>
    let rangeEnd := a.range.getEndPosition
    let nextRangeStart := b.range.getStartPosition
    if nextRangeStart.isBeforeOrEqual rangeEnd then
      if nextRangeStart.isBefore rangeEnd then
        Except.error "Overlapping ranges are not allowed!"
      else checkAdjacent true (b :: rest)
    else checkAdjacent touching (b :: rest)
  | touching, _ => Except.ok touching

/-- Concatenation loop of `_toSingleEditOperation` (pieceTreeTextBuffer
lines 472-488): old text between operations interleaved with the new
texts. -/
def toSingleGo (b : PTTB) : List IValidatedEditOperation → Int → Int → Bool →
    List Str × Bool
  | [], _, _, fmm => ([], fmm)
  | op :: rest, lastEndLineNumber, lastEndColumn, fmm =>
    let fmm2 := fmm ∨ op.forceMoveMarkers
    let oldText := b.getValueInRange
      ⟨lastEndLineNumber, lastEndColumn, op.range.startLineNumber, op.range.startColumn⟩
    let newText := if (op.text.length : Int) > 0 then [op.text] else []
    let r := b.toSingleGo rest op.range.endLineNumber op.range.endColumn fmm2
    (oldText :: newText ++ r.1, r.2)

/-- Code of `_toSingleEditOperation(operations)` (pieceTreeTextBuffer lines
463-506). -/
def toSingleEditOperation (b : PTTB) (operations : List IValidatedEditOperation) :
    IValidatedEditOperation :=
  let firstEditRange := (operations.headD defaultValidatedOp).range
  let lastEditRange := (operations.getLast?.getD defaultValidatedOp).range
  let entireEditRange : Range :=
    ⟨firstEditRange.startLineNumber, firstEditRange.startColumn,
      lastEditRange.endLineNumber, lastEditRange.endColumn⟩
  let r := b.toSingleGo operations firstEditRange.startLineNumber
    firstEditRange.startColumn false
  let text := r.1.flatten
  let ce := countEOL text
  { sortIndex := 0
    identifier := (operations.headD defaultValidatedOp).identifier
    range := entireEditRange
    rangeOffset := b.getOffsetAt entireEditRange.startLineNumber entireEditRange.startColumn
    rangeLength := b.getValueLengthInRange entireEditRange EOLPref.TextDefined
    text := text
    eolCount := ce.1
    firstLineLength := ce.2.1
    lastLineLength := ce.2.2.1
    forceMoveMarkers := r.2
    isAutoWhitespaceEdit := false }

/-- Code of `_reduceOperations(operations)` (pieceTreeTextBuffer lines
449-461). -/
def reduceOperations (b : PTTB) (operations : List IValidatedEditOperation) :
    List IValidatedEditOperation :=
  if (operations.length : Int) < 1000 then operations
  else [b.toSingleEditOperation operations]

/-- Loop of `_getInverseEditRanges(operations)` (pieceTreeTextBuffer lines
589-639); `prev?` carries the previous operation and the end of its
inverse range. -/
def getInverseEditRangesGo :
    Option (IValidatedEditOperation × Int × Int) → List IValidatedEditOperation → List Range
  | _, [] => []
  | prev?, op :: rest =>
    let sp : Int × Int :=
      match prev? with
      | some (prevOp, prevOpEndLineNumber, prevOpEndColumn) =>
        if prevOp.range.endLineNumber = op.range.startLineNumber then
          (prevOpEndLineNumber, prevOpEndColumn + (op.range.startColumn - prevOp.range.endColumn))
        else
          (prevOpEndLineNumber + (op.range.startLineNumber - prevOp.range.endLineNumber),
            op.range.startColumn)
      | none => (op.range.startLineNumber, op.range.startColumn)
    let resultRange : Range :=
      if (op.text.length : Int) > 0 then
        let lineCount := op.eolCount + 1
        if lineCount = 1 then ⟨sp.1, sp.2, sp.1, sp.2 + op.firstLineLength⟩
        else ⟨sp.1, sp.2, sp.1 + lineCount - 1, op.lastLineLength + 1⟩
      else ⟨sp.1, sp.2, sp.1, sp.2⟩
    resultRange :: getInverseEditRangesGo
      (some (op, resultRange.endLineNumber, resultRange.endColumn)) rest

/-- Code of `_getInverseEditRanges(operations)` (pieceTreeTextBuffer lines
589-640). -/
def getInverseEditRanges (operations : List IValidatedEditOperation) : List Range :=
  getInverseEditRangesGo none operations

/-- Inner line loop of the trim-auto-whitespace candidate recording
(pieceTreeTextBuffer lines 362-371); threads the piece tree because
`getLineContent` caches. -/
def trimInner (pt : PTB) (op : IValidatedEditOperation) (rr : Range) :
    List Int → List (Int × Str) × PTB
  | [] => ([], pt)
  | ln :: rest =>
    if ln = rr.startLineNumber then
      let r := pt.getLineContent op.range.startLineNumber
      if ¬(firstNonWhitespaceIndex r.1 = -1) then trimInner r.2 op rr rest
      else
        let r2 := trimInner r.2 op rr rest
        ((ln, r.1) :: r2.1, r2.2)
    else
      let r2 := trimInner pt op rr rest
      ((ln, ([] : Str)) :: r2.1, r2.2)

/-- Outer loop of the trim-auto-whitespace candidate recording
(pieceTreeTextBuffer lines 355-374). -/
def trimOuter (pt : PTB) : List (IValidatedEditOperation × Range) → List (Int × Str) × PTB
  | [] => ([], pt)
  | (op, rr) :: rest =>
    if op.isAutoWhitespaceEdit ∧ op.range.isEmpty then
      let r1 := trimInner pt op rr (intRangeIncl rr.startLineNumber rr.endLineNumber)
      let r2 := trimOuter r1.2 rest
      (r1.1 ++ r2.1, r2.2)
    else trimOuter pt rest

/-- Reverse-operation loop of `applyEdits` (pieceTreeTextBuffer lines
379-395); `delta` is `reverseRangeDeltaOffset`. -/
def buildReverse (b : PTTB) : List (IValidatedEditOperation × Range) → Int → List ReverseOp
  | [], _ => []
  | (op, rr) :: rest, delta =>
    let bufferText := b.getValueInRange op.range
    let reverseRangeOffset := op.rangeOffset + delta
    let delta2 := delta + ((op.text.length : Int) - (bufferText.length : Int))
    { sortIndex := op.sortIndex
      identifier := op.identifier
      range := rr
      text := bufferText
      textChange := ⟨op.rangeOffset, bufferText, reverseRangeOffset, op.text⟩ }
      :: b.buildReverse rest delta2

/-- Edit loop of `_doApplyEdits` (pieceTreeTextBuffer lines 514-545) on the
descending-sorted operations: a replace is delete-then-insert at the same
offset, a pure deletion just deletes; a zero-length zero-text operation is
a no-op. -/
def doApplyEditsGo (pt : PTB) : List IValidatedEditOperation → List ContentChange × PTB
  | [] => ([], pt)
  | op :: rest =>
    if op.range.startLineNumber = op.range.endLineNumber
        ∧ op.range.startColumn = op.range.endColumn ∧ op.text.length = 0 then
      doApplyEditsGo pt rest
    else
      let pt2 :=
        if ¬(op.text = []) then
          (pt.deleteRange op.rangeOffset op.rangeLength).insert op.rangeOffset op.text true
        else pt.deleteRange op.rangeOffset op.rangeLength
      let cc : ContentChange :=
        { range := ⟨op.range.startLineNumber, op.range.startColumn,
            op.range.endLineNumber, op.range.endColumn⟩
          rangeLength := op.rangeLength
          text := op.text
          rangeOffset := op.rangeOffset
          forceMoveMarkers := op.forceMoveMarkers }
      let r := doApplyEditsGo pt2 rest
      (cc :: r.1, r.2)

/-- Code of `_doApplyEdits(operations)` (pieceTreeTextBuffer lines
508-547). -/
def doApplyEdits (pt : PTB) (operations : List IValidatedEditOperation) :
    List ContentChange × PTB :=
  doApplyEditsGo pt
    (stableSort (fun a b => sortOpsDescendingCmp a b ≤ 0) operations)

/-- Final trim-auto-whitespace filter of `applyEdits` (pieceTreeTextBuffer
lines 412-433), on the candidates sorted by line number descending; `prev?`
is the previously processed line number (duplicates are skipped). -/
def trimFilter (pt : PTB) : Option Int → List (Int × Str) → List Int × PTB
  | _, [] => ([], pt)
  | prev?, (lineNumber, prevContent) :: rest =>
    if prev? = some lineNumber then trimFilter pt prev? rest
    else
      let r := pt.getLineContent lineNumber
      let lineContent := r.1
      let pt2 := r.2
      if lineContent.length = 0 ∨ lineContent = prevContent
          ∨ ¬(firstNonWhitespaceIndex lineContent = -1) then
        trimFilter pt2 (some lineNumber) rest
      else
        let r2 := trimFilter pt2 (some lineNumber) rest
        (lineNumber :: r2.1, r2.2)

/-- Code of `applyEdits(rawOperations, recordTrimAutoWhitespace,
computeUndoEdits)` (pieceTreeTextBuffer lines 270-443).  The `throw` on
overlapping ranges is the `Except.error` and happens before any buffer
mutation, so the state of the error case is the entry state. -/
def applyEdits (b : PTTB) (rawOperations : List ValidAnnotatedEditOperation)
    (recordTrimAutoWhitespace computeUndoEdits : Bool) :
    PTTB × Except String ApplyEditsResult :=
  let r0 := b.buildOperations rawOperations 0 b.mightContainRTL
    b.mightContainUnusualLineTerminators b.mightContainNonBasicASCII true
  let canReduceOperations := r0.2.2.2.2
  let operations1 := stableSort (fun x y => sortOpsAscendingCmp x y ≤ 0) r0.1
  match checkAdjacent false operations1 with
  | Except.error msg => (b, Except.error msg)
  | Except.ok hasTouchingRanges =>
    let operations := if canReduceOperations then b.reduceOperations operations1
      else operations1
    let reverseRanges := if computeUndoEdits ∨ recordTrimAutoWhitespace then
        getInverseEditRanges operations
      else []
    let rtrim :=
      if recordTrimAutoWhitespace then
        trimOuter b.pieceTree (operations.zip reverseRanges)
      else ([], b.pieceTree)
    let newTrimAutoWhitespaceCandidates := rtrim.1
    let b := { b with pieceTree := rtrim.2 }
    let reverseOperations : Option (List ReverseOp) :=
      if computeUndoEdits then
        let ro := b.buildReverse (operations.zip reverseRanges) 0
        some (if ¬hasTouchingRanges then
            stableSort (fun x y => decide (x.sortIndex ≤ y.sortIndex)) ro
          else ro)
      else none
    let b := { b with mightContainRTL := r0.2.1
                      mightContainUnusualLineTerminators := r0.2.2.1
                      mightContainNonBasicASCII := r0.2.2.2.1 }
    let rdo := doApplyEdits b.pieceTree operations
    let contentChanges := rdo.1
    let b := { b with pieceTree := rdo.2 }
    let rtr :=
      if recordTrimAutoWhitespace ∧ newTrimAutoWhitespaceCandidates.length > 0 then
        let sorted := stableSort (fun x y => decide (y.1 ≤ x.1))
          newTrimAutoWhitespaceCandidates
        let r := trimFilter b.pieceTree none sorted
        (some r.1, r.2)
      else (none, b.pieceTree)
    let b := { b with pieceTree := rtr.2 }
    (b, Except.ok ⟨reverseOperations, contentChanges, rtr.1⟩)

end PTTB

end PieceTree

namespace PieceTree

/-! ## Reference model and claim-level notions. -/

/-- Naive reference insert on a plain string. -/
def naiveInsert (doc : Str) (off : Nat) (v : Str) : Str :=
  doc.take off ++ v ++ doc.drop off

/-- Naive reference delete on a plain string. -/
def naiveDelete (doc : Str) (off cnt : Nat) : Str :=
  doc.take off ++ doc.drop (off + cnt)

/-- One edit of the round-trip property: `insert(offset, text)` or
`delete(offset, count)`. -/
inductive BufOp where
  | ins (off : Nat) (text : Str)
  | del (off cnt : Nat)
  deriving Repr, DecidableEq

/-- Applying a sequence of edits to the piece tree. -/
def PTB.applyOps (s : PTB) : List BufOp → PTB
  | [] => s
  | BufOp.ins off t :: rest => (s.insert (off : Int) t).applyOps rest
  | BufOp.del off cnt :: rest => (s.deleteRange (off : Int) (cnt : Int)).applyOps rest

/-- Applying the same sequence of edits to the naive reference string. -/
def naiveApplyOps (d : Str) : List BufOp → Str
  | [] => d
  | BufOp.ins off t :: rest => naiveApplyOps (naiveInsert d off t) rest
  | BufOp.del off cnt :: rest => naiveApplyOps (naiveDelete d off cnt) rest

/-- Count of line terminators, `"\r\n"` counting as one (lone `"\r"` and
lone `"\n"` each count one). -/
def countTerminators : Str → Nat
  | [] => 0
  | c :: rest =>
    if c = CR then
      match rest with
      | c2 :: rest2 =>
        if c2 = LF then 1 + countTerminators rest2
        else 1 + countTerminators (c2 :: rest2)
      | [] => 1
    else if c = LF then 1 + countTerminators rest
    else countTerminators rest

/-- The initially empty piece-tree buffer (no chunks, LF EOL, not
normalized). -/
def emptyBuffer : PTB := PTB.create [] [LF] false

/-- The concrete scenario buffer of claim C7: one chunk `"ab\r\ncd"` with
CRLF EOL. -/
def c7Buffer : PTB :=
  PTB.create [([Char.ofNat 97, Char.ofNat 98, CR, LF, Char.ofNat 99, Char.ofNat 100], none)]
    [CR, LF] false

/-- State of the C7 scenario after `insert(2, "X")`. -/
def c7After : PTB := c7Buffer.insert 2 [Char.ofNat 88]

end PieceTree

namespace PieceTree

/-! ## Claim C7: the concrete CRLF insert scenario. -/

/-- C7, counterexample: starting from `"ab\r\ncd"` and inserting `"X"` at
offset 2, `getOffsetAt(2, 1)` returns 5 (the offset of `"c"`, line 2 column
1 of `"abX\r\ncd"`), not 4 as the claim states. -/
theorem C7_counterexample :
    c7After.getOffsetAt 2 1 = 5 ∧ ¬(c7After.getOffsetAt 2 1 = 4) := by decide

/-- C7 (amended): starting from a buffer with content `"ab\r\ncd"` (6
characters, 2 lines), after `insert(2, "X")` the content is `"abX\r\ncd"`,
`getLineCount()` returns 2, and `getOffsetAt(2, 1)` returns 5. -/
theorem C7_scenario :
    c7After.getLinesRawContent =
        [Char.ofNat 97, Char.ofNat 98, Char.ofNat 88, CR, LF, Char.ofNat 99, Char.ofNat 100]
      ∧ c7After.getLineCount = 2 ∧ c7After.getOffsetAt 2 1 = 5 := by decide

/-! ## Claim C10: empty ranges. -/

/-- C10: for every buffer state and every empty range (equal start and end
line/column), `PieceTreeBase.getValueInRange` and
`PieceTreeTextBuffer.getValueInRange` return the empty string and
`getValueLengthInRange` returns 0 — for every state, hence without
consulting the tree. -/
theorem C10_empty_range (s : PTB) (b : PTTB) (range : Range) (eol? : Option Str)
    (pref : EOLPref) (hL : range.startLineNumber = range.endLineNumber)
    (hC : range.startColumn = range.endColumn) :
    s.getValueInRange range eol? = []
      ∧ b.getValueInRange range pref = []
      ∧ b.getValueLengthInRange range pref = 0 := by
  refine ⟨?_, ?_, ?_⟩
  · unfold PTB.getValueInRange
    simp [hL, hC]
  · unfold PTTB.getValueInRange Range.isEmpty
    simp [hL, hC]
  · unfold PTTB.getValueLengthInRange Range.isEmpty
    simp [hL, hC]

/-- C10, witness at a concrete state and range. -/
theorem C10_empty_range_witness :
    emptyBuffer.getValueInRange ⟨1, 1, 1, 1⟩ none = []
      ∧ (PTTB.create [] [] [LF] false false true false).getValueInRange
          ⟨1, 1, 1, 1⟩ EOLPref.TextDefined = []
      ∧ (PTTB.create [] [] [LF] false false true false).getValueLengthInRange
          ⟨1, 1, 1, 1⟩ EOLPref.TextDefined = 0 :=
  C10_empty_range emptyBuffer (PTTB.create [] [] [LF] false false true false)
    ⟨1, 1, 1, 1⟩ none EOLPref.TextDefined rfl rfl

/-! ## Claim C5: snapshots. -/

/-- Buffer with content `"a\r"` written into the change buffer. -/
def c5Base : PTB := emptyBuffer.insert 0 [Char.ofNat 97, CR]

/-- Snapshot of `c5Base` with empty BOM. -/
def c5Snap : PieceTreeSnapshot := c5Base.createSnapshot []

/-- The state of `c5Base` after inserting `"\n"` at the end (the `insert`
fast path appends to the change buffer, popping the line start the
snapshot's piece end cursor refers to). -/
def c5After : PTB := c5Base.insert 2 [LF]

/-- C5, counterexample: the snapshot of `"a\r"` reads back `"a\r"` before
further edits, but after `insert(2, "\n")` the same snapshot reads back
`"a\r\n"` — not the content at snapshot-creation time. -/
theorem C5_counterexample :
    c5Snap.readAll c5Base = [Char.ofNat 97, CR]
      ∧ c5Base.getLinesRawContent = [Char.ofNat 97, CR]
      ∧ ¬(c5Snap.readAll c5After = c5Snap.bom ++ c5Base.getLinesRawContent) := by decide

theorem readAllGo_succ (s : PTB) (snap : PieceTreeSnapshot) (fuel : Nat) :
    PieceTreeSnapshot.readAllGo s snap (fuel + 1)
      = match snap.read s with
        | (none, _) => []
        | (some chunk, snap2) => chunk :: PieceTreeSnapshot.readAllGo s snap2 fuel := rfl

theorem readAllGo_drop (s : PTB) (bom : Str) (pieces : List Piece) :
    ∀ (fuel i : Nat), 1 ≤ i → 1 ≤ pieces.length → pieces.length + 1 - i ≤ fuel →
    (PieceTreeSnapshot.readAllGo s ⟨pieces, i, bom⟩ fuel).flatten
      = ((pieces.drop i).map (fun p => s.getPieceContent p)).flatten := by
  intro fuel
  induction fuel with
  | zero =>
    intro i h1 hlen hf
    have hd : pieces.drop i = [] := List.drop_eq_nil_of_le (by omega)
    simp [PieceTreeSnapshot.readAllGo, hd]
  | succ fuel ih =>
    intro i h1 hlen hf
    by_cases hgt : i > pieces.length - 1
    · have hd : pieces.drop i = [] := List.drop_eq_nil_of_le (by omega)
      have h0 : ¬(pieces.length = 0) := by omega
      simp [PieceTreeSnapshot.readAllGo, PieceTreeSnapshot.read, h0, hgt, hd]
    · have h0 : ¬(pieces.length = 0) := by omega
      have hi0 : ¬(i = 0) := by omega
      have hlt : i < pieces.length := by omega
      have hdrop : pieces.drop i = pieces[i] :: pieces.drop (i + 1) :=
        List.drop_eq_getElem_cons hlt
      have hgetD : pieces.getD i defaultPiece = pieces[i] := List.getD_eq_getElem pieces _ hlt
      simp only [PieceTreeSnapshot.readAllGo, PieceTreeSnapshot.read, h0, hgt, hi0,
        if_false, if_neg h0, if_neg hgt, if_neg hi0]
      simp only [hgetD, hdrop, List.map_cons, List.flatten_cons]
      rw [ih (i + 1) (by omega) hlen (by omega)]

/-- Reading a snapshot to exhaustion against the state it was created from
yields the BOM followed by the full content. -/
theorem snapshot_readAll_at_creation (s : PTB) (bom : Str) :
    (s.createSnapshot bom).readAll s = bom ++ s.getLinesRawContent := by
  unfold PTB.createSnapshot PieceTreeSnapshot.readAll PTB.getLinesRawContent
  have hmm : s.root.inorder.map (fun e => s.getPieceContent e.2)
      = (s.root.inorder.map Prod.snd).map (fun p => s.getPieceContent p) := by
    simp [List.map_map, Function.comp]
  rw [hmm]
  cases hp : s.root.inorder.map Prod.snd with
  | nil => simp [PieceTreeSnapshot.readAllGo, PieceTreeSnapshot.read]
  | cons p ps =>
    have hread : (PieceTreeSnapshot.read ⟨p :: ps, 0, bom⟩ s)
        = (some (bom ++ s.getPieceContent p), ⟨p :: ps, 1, bom⟩) := by
      unfold PieceTreeSnapshot.read
      simp
    rw [show (p :: ps).length + 2 = ((p :: ps).length + 1) + 1 from rfl,
      readAllGo_succ, hread]
    simp only [List.flatten_cons]
    rw [readAllGo_drop s bom (p :: ps) ((p :: ps).length + 1) 1 (by omega) (by simp) (by omega)]
    simp

/-- Once `read()` has returned null it keeps returning null. -/
theorem snapshot_read_null_sticky (s2 : PTB) (snap : PieceTreeSnapshot)
    (h : (snap.read s2).1 = none) : ((snap.read s2).2.read s2).1 = none := by
  unfold PieceTreeSnapshot.read at h ⊢
  by_cases h0 : snap.pieces.length = 0
  · by_cases hi : snap.index = 0
    · simp [h0, hi] at h
    · simp [h0, hi] at h ⊢
  · by_cases hgt : snap.index > snap.pieces.length - 1
    · simp [h0, hgt] at h ⊢
    · by_cases hi : snap.index = 0
      · simp [h0, hgt, hi] at h
      · simp [h0, hgt, hi] at h

/-- C5 (amended): concatenating every chunk yielded by a snapshot (repeated
`read()` until null) equals the BOM argument followed by the full document
content at snapshot-creation time, provided no insert or delete operation
is applied between creation and reading (the change-buffer fast path of
`insert` can otherwise extend a piece captured by the snapshot, see
`C5_counterexample`); and once `read()` has returned null, every subsequent
`read()` returns null. -/
theorem C5_snapshot :
    (∀ (s : PTB) (bom : Str), (s.createSnapshot bom).readAll s = bom ++ s.getLinesRawContent)
  ∧ (∀ (s2 : PTB) (snap : PieceTreeSnapshot),
      (snap.read s2).1 = none → ((snap.read s2).2.read s2).1 = none) :=
  ⟨snapshot_readAll_at_creation, snapshot_read_null_sticky⟩

/-- C5, witness at concrete inputs. -/
theorem C5_snapshot_witness :
    ((c5Base.createSnapshot []).readAll c5Base = [] ++ c5Base.getLinesRawContent)
  ∧ (((⟨[], 1, []⟩ : PieceTreeSnapshot).read c5Base).1 = none →
      (((⟨[], 1, []⟩ : PieceTreeSnapshot).read c5Base).2.read c5Base).1 = none) :=
  ⟨C5_snapshot.1 c5Base [], C5_snapshot.2 c5Base ⟨[], 1, []⟩⟩

end PieceTree

namespace PieceTree

/-! ## Claim C6: the line-start builder.

Spec-side characterization, following the claim's words: the line starts
are offset 0 followed by the ordered positions immediately after each line
break, where a `"\r\n"` pair is one break. -/

/-- Position `j` of `str` is immediately after a line break: the previous
character is `"\n"`, or it is `"\r"` not followed by `"\n"`. -/
def IsBreakEnd (str : Str) (j : Nat) : Prop :=
  0 < j ∧ (str[j-1]? = some LF ∨ (str[j-1]? = some CR ∧ ¬(str[j]? = some LF)))

/-- Position `j` is immediately after a lone `"\r"` break. -/
def IsLoneCREnd (str : Str) (j : Nat) : Prop :=
  0 < j ∧ str[j-1]? = some CR ∧ ¬(str[j]? = some LF)

/-- Position `j` is immediately after a lone `"\n"` break (not preceded by
`"\r"`). -/
def IsLoneLFEnd (str : Str) (j : Nat) : Prop :=
  0 < j ∧ str[j-1]? = some LF ∧ ¬(1 < j ∧ str[j-2]? = some CR)

/-- Position `j` is immediately after a `"\r\n"` break. -/
def IsCRLFEnd (str : Str) (j : Nat) : Prop :=
  1 < j ∧ str[j-2]? = some CR ∧ str[j-1]? = some LF

instance (str : Str) (j : Nat) : Decidable (IsBreakEnd str j) := by
  unfold IsBreakEnd; infer_instance

instance (str : Str) (j : Nat) : Decidable (IsLoneCREnd str j) := by
  unfold IsLoneCREnd; infer_instance

instance (str : Str) (j : Nat) : Decidable (IsLoneLFEnd str j) := by
  unfold IsLoneLFEnd; infer_instance

instance (str : Str) (j : Nat) : Decidable (IsCRLFEnd str j) := by
  unfold IsCRLFEnd; infer_instance

/-- Ordered positions immediately after each line break of `str`. -/
def specBreakEnds (str : Str) : List Nat :=
  (List.range (str.length + 1)).filter (fun j => decide (IsBreakEnd str j))

/-- Number of positions of `str` satisfying `p`. -/
def specCount (str : Str) (p : Str → Nat → Prop) [∀ s j, Decidable (p s j)] : Nat :=
  (List.range (str.length + 1)).countP (fun j => decide (p str j))

/-- The claim's reading of `isBasicASCII`: only ASCII printable and tab
characters. -/
def PrintableOrTab (c : Char) : Prop :=
  c.toNat = 9 ∨ (32 ≤ c.toNat ∧ c.toNat ≤ 126)

/-- Range-filter decomposition: dropping the head element 0 when the
predicate rejects it. -/
theorem filter_range_shift (p : Nat → Bool) (n : Nat) (hp0 : p 0 = false) :
    (List.range (n + 1)).filter p
      = ((List.range n).filter (fun j => p (j + 1))).map Nat.succ := by
  rw [List.range_succ_eq_map, List.filter_cons, hp0]
  simp [List.filter_map, Function.comp_def, Nat.succ_eq_add_one]

/-- Range-filter decomposition keeping the head element. -/
theorem filter_range_cons (p : Nat → Bool) (n : Nat) :
    (List.range (n + 1)).filter p
      = (if p 0 then [0] else []) ++ ((List.range n).filter (fun j => p (j + 1))).map Nat.succ := by
  rw [List.range_succ_eq_map, List.filter_cons]
  by_cases h0 : p 0 <;> simp [h0, List.filter_map, Function.comp_def, Nat.succ_eq_add_one]

end PieceTree

namespace PieceTree

theorem specBreakEnds_cons (c : Char) (rest : Str)
    (hshift : ∀ j, IsBreakEnd (c :: rest) (j + 2) ↔ IsBreakEnd rest (j + 1)) :
    specBreakEnds (c :: rest)
      = (if IsBreakEnd (c :: rest) 1 then [1] else [])
          ++ (specBreakEnds rest).map Nat.succ := by
  unfold specBreakEnds
  rw [show (c :: rest).length + 1 = rest.length + 1 + 1 by simp]
  rw [filter_range_shift _ _ (by simp [IsBreakEnd])]
  rw [filter_range_cons]
  have hfc : (List.range rest.length).filter
        (fun j => decide (IsBreakEnd (c :: rest) (j + 1 + 1)))
      = (List.range rest.length).filter (fun j => decide (IsBreakEnd rest (j + 1))) :=
    List.filter_congr (fun j _ => by
      rw [decide_eq_decide]
      exact hshift j)
  rw [hfc]
  rw [filter_range_shift (fun j => decide (IsBreakEnd rest j)) rest.length
    (by simp [IsBreakEnd])]
  by_cases h1 : IsBreakEnd (c :: rest) 1 <;>
    simp [h1, List.map_map, Function.comp_def]

theorem specCount_cons (P : Str → Nat → Prop) [∀ s j, Decidable (P s j)]
    (c : Char) (rest : Str)
    (h0 : ∀ s, ¬ P s 0)
    (hshift : ∀ j, P (c :: rest) (j + 2) ↔ P rest (j + 1)) :
    specCount (c :: rest) P = (if P (c :: rest) 1 then 1 else 0) + specCount rest P := by
  unfold specCount
  rw [List.countP_eq_length_filter, List.countP_eq_length_filter]
  rw [show (c :: rest).length + 1 = rest.length + 1 + 1 by simp]
  rw [filter_range_shift _ _ (by simp [h0])]
  rw [filter_range_cons]
  have hfc : (List.range rest.length).filter
        (fun j => decide (P (c :: rest) (j + 1 + 1)))
      = (List.range rest.length).filter (fun j => decide (P rest (j + 1))) :=
    List.filter_congr (fun j _ => by
      rw [decide_eq_decide]
      exact hshift j)
  rw [hfc]
  rw [filter_range_shift (fun j => decide (P rest j)) rest.length (by simp [h0])]
  by_cases h1 : P (c :: rest) 1 <;> simp [h1, Nat.add_comm]

end PieceTree

namespace PieceTree

@[simp] theorem isBreakEnd_zero (str : Str) : ¬ IsBreakEnd str 0 := by
  simp [IsBreakEnd]

@[simp] theorem isBreakEnd_succ (str : Str) (j : Nat) :
    IsBreakEnd str (j + 1)
      ↔ (str[j]? = some LF ∨ (str[j]? = some CR ∧ ¬(str[j + 1]? = some LF))) := by
  simp [IsBreakEnd]

@[simp] theorem isLoneCREnd_zero (str : Str) : ¬ IsLoneCREnd str 0 := by
  simp [IsLoneCREnd]

@[simp] theorem isLoneCREnd_succ (str : Str) (j : Nat) :
    IsLoneCREnd str (j + 1) ↔ (str[j]? = some CR ∧ ¬(str[j + 1]? = some LF)) := by
  simp [IsLoneCREnd]

@[simp] theorem isLoneLFEnd_zero (str : Str) : ¬ IsLoneLFEnd str 0 := by
  simp [IsLoneLFEnd]

@[simp] theorem isLoneLFEnd_one (str : Str) :
    IsLoneLFEnd str 1 ↔ str[0]? = some LF := by
  simp [IsLoneLFEnd]

@[simp] theorem isLoneLFEnd_succ2 (str : Str) (j : Nat) :
    IsLoneLFEnd str (j + 2) ↔ (str[j + 1]? = some LF ∧ ¬(str[j]? = some CR)) := by
  unfold IsLoneLFEnd
  constructor
  · rintro ⟨-, h1, h2⟩
    refine ⟨h1, fun hc => h2 ⟨by omega, ?_⟩⟩
    simpa using hc
  · rintro ⟨h1, h2⟩
    refine ⟨by omega, h1, fun hc => h2 ?_⟩
    simpa using hc.2

@[simp] theorem isCRLFEnd_zero (str : Str) : ¬ IsCRLFEnd str 0 := by
  simp [IsCRLFEnd]

@[simp] theorem isCRLFEnd_one (str : Str) : ¬ IsCRLFEnd str 1 := by
  simp [IsCRLFEnd]

@[simp] theorem isCRLFEnd_succ2 (str : Str) (j : Nat) :
    IsCRLFEnd str (j + 2) ↔ (str[j]? = some CR ∧ str[j + 1]? = some LF) := by
  unfold IsCRLFEnd
  constructor
  · rintro ⟨-, h1, h2⟩
    exact ⟨by simpa using h1, by simpa using h2⟩
  · rintro ⟨h1, h2⟩
    exact ⟨by omega, by simpa using h1, by simpa using h2⟩

theorem specBreakEnds_cons2 (c1 c2 : Char) (rest : Str)
    (hshift : ∀ j, IsBreakEnd (c1 :: c2 :: rest) (j + 3) ↔ IsBreakEnd rest (j + 1)) :
    specBreakEnds (c1 :: c2 :: rest)
      = (if IsBreakEnd (c1 :: c2 :: rest) 1 then [1] else [])
        ++ (if IsBreakEnd (c1 :: c2 :: rest) 2 then [2] else [])
        ++ (specBreakEnds rest).map (fun j => j + 2) := by
  unfold specBreakEnds
  rw [show (c1 :: c2 :: rest).length + 1 = rest.length + 1 + 1 + 1 by simp]
  rw [filter_range_shift _ _ (by simp)]
  rw [filter_range_cons]
  rw [filter_range_cons]
  have hfc : (List.range rest.length).filter
        (fun j => decide (IsBreakEnd (c1 :: c2 :: rest) (j + 1 + 1 + 1)))
      = (List.range rest.length).filter (fun j => decide (IsBreakEnd rest (j + 1))) :=
    List.filter_congr (fun j _ => by
      rw [decide_eq_decide]
      exact hshift j)
  rw [hfc]
  rw [filter_range_shift (fun j => decide (IsBreakEnd rest j)) rest.length (by simp)]
  have harr : (fun x : Nat => x + 2 + 1) = (fun x : Nat => x + 1 + 2) := by
    funext x
    omega
  simp only [decide_eq_true_eq, Nat.zero_add]
  split_ifs <;>
    simp_all [List.map_map, Function.comp_def, harr, Nat.succ_eq_add_one]

theorem specCount_cons2 (P : Str → Nat → Prop) [∀ s j, Decidable (P s j)]
    (c1 c2 : Char) (rest : Str)
    (h0 : ∀ s, ¬ P s 0)
    (hshift : ∀ j, P (c1 :: c2 :: rest) (j + 3) ↔ P rest (j + 1)) :
    specCount (c1 :: c2 :: rest) P
      = (if P (c1 :: c2 :: rest) 1 then 1 else 0)
        + (if P (c1 :: c2 :: rest) 2 then 1 else 0) + specCount rest P := by
  unfold specCount
  rw [List.countP_eq_length_filter, List.countP_eq_length_filter]
  rw [show (c1 :: c2 :: rest).length + 1 = rest.length + 1 + 1 + 1 by simp]
  rw [filter_range_shift _ _ (by simp [h0])]
  rw [filter_range_cons]
  rw [filter_range_cons]
  have hfc : (List.range rest.length).filter
        (fun j => decide (P (c1 :: c2 :: rest) (j + 1 + 1 + 1)))
      = (List.range rest.length).filter (fun j => decide (P rest (j + 1))) :=
    List.filter_congr (fun j _ => by
      rw [decide_eq_decide]
      exact hshift j)
  rw [hfc]
  rw [filter_range_shift (fun j => decide (P rest j)) rest.length (by simp [h0])]
  simp only [decide_eq_true_eq, Nat.zero_add]
  split_ifs <;> simp <;> omega

end PieceTree

namespace PieceTree

@[simp] theorem cr_ne_lf : ¬(CR = LF) := by decide

@[simp] theorem lf_ne_cr : ¬(LF = CR) := by decide

theorem specs_crlf (r : Str) :
    specBreakEnds (CR :: LF :: r) = 2 :: (specBreakEnds r).map (fun j => j + 2)
  ∧ specCount (CR :: LF :: r) IsLoneCREnd = specCount r IsLoneCREnd
  ∧ specCount (CR :: LF :: r) IsLoneLFEnd = specCount r IsLoneLFEnd
  ∧ specCount (CR :: LF :: r) IsCRLFEnd = specCount r IsCRLFEnd + 1 := by
  have hshB : ∀ j, IsBreakEnd (CR :: LF :: r) (j + 3) ↔ IsBreakEnd r (j + 1) := by
    intro j
    rw [show j + 3 = (j + 2) + 1 from rfl]
    simp
  have hshCR : ∀ j, IsLoneCREnd (CR :: LF :: r) (j + 3) ↔ IsLoneCREnd r (j + 1) := by
    intro j
    rw [show j + 3 = (j + 2) + 1 from rfl]
    simp
  have hshLF : ∀ j, IsLoneLFEnd (CR :: LF :: r) (j + 3) ↔ IsLoneLFEnd r (j + 1) := by
    intro j
    cases j with
    | zero => simp
    | succ jj =>
      rw [show jj + 1 + 3 = (jj + 2) + 2 from rfl, show jj + 1 + 1 = jj + 2 from rfl]
      simp
  have hshCRLF : ∀ j, IsCRLFEnd (CR :: LF :: r) (j + 3) ↔ IsCRLFEnd r (j + 1) := by
    intro j
    cases j with
    | zero => simp
    | succ jj =>
      rw [show jj + 1 + 3 = (jj + 2) + 2 from rfl, show jj + 1 + 1 = jj + 2 from rfl]
      simp
  refine ⟨?_, ?_, ?_, ?_⟩
  · rw [specBreakEnds_cons2 _ _ _ hshB]
    simp
  · rw [specCount_cons2 _ _ _ _ (fun s => isLoneCREnd_zero s) hshCR]
    simp
  · rw [specCount_cons2 _ _ _ _ (fun s => isLoneLFEnd_zero s) hshLF]
    simp
  · rw [specCount_cons2 _ _ _ _ (fun s => isCRLFEnd_zero s) hshCRLF]
    simp [Nat.add_comm]

theorem specs_lone_cr (c2 : Char) (r : Str) (hc2 : ¬(c2 = LF)) :
    specBreakEnds (CR :: c2 :: r) = 1 :: (specBreakEnds (c2 :: r)).map Nat.succ
  ∧ specCount (CR :: c2 :: r) IsLoneCREnd = specCount (c2 :: r) IsLoneCREnd + 1
  ∧ specCount (CR :: c2 :: r) IsLoneLFEnd = specCount (c2 :: r) IsLoneLFEnd
  ∧ specCount (CR :: c2 :: r) IsCRLFEnd = specCount (c2 :: r) IsCRLFEnd := by
  have hshB : ∀ j, IsBreakEnd (CR :: c2 :: r) (j + 2) ↔ IsBreakEnd (c2 :: r) (j + 1) := by
    intro j
    rw [show j + 2 = (j + 1) + 1 from rfl]
    simp
  have hshCR : ∀ j, IsLoneCREnd (CR :: c2 :: r) (j + 2) ↔ IsLoneCREnd (c2 :: r) (j + 1) := by
    intro j
    rw [show j + 2 = (j + 1) + 1 from rfl]
    simp
  have hshLF : ∀ j, IsLoneLFEnd (CR :: c2 :: r) (j + 2) ↔ IsLoneLFEnd (c2 :: r) (j + 1) := by
    intro j
    cases j with
    | zero => simp [hc2]
    | succ jj =>
      rw [show jj + 1 + 2 = (jj + 1) + 2 from rfl, show jj + 1 + 1 = jj + 2 from rfl]
      simp
  have hshCRLF : ∀ j, IsCRLFEnd (CR :: c2 :: r) (j + 2) ↔ IsCRLFEnd (c2 :: r) (j + 1) := by
    intro j
    cases j with
    | zero => simp [hc2]
    | succ jj =>
      rw [show jj + 1 + 2 = (jj + 1) + 2 from rfl, show jj + 1 + 1 = jj + 2 from rfl]
      simp
  refine ⟨?_, ?_, ?_, ?_⟩
  · rw [specBreakEnds_cons _ _ hshB]
    simp [hc2]
  · rw [specCount_cons _ _ _ (fun s => isLoneCREnd_zero s) hshCR]
    simp [hc2, Nat.add_comm]
  · rw [specCount_cons _ _ _ (fun s => isLoneLFEnd_zero s) hshLF]
    simp
  · rw [specCount_cons _ _ _ (fun s => isCRLFEnd_zero s) hshCRLF]
    simp

theorem specs_head_lf (r : Str) :
    specBreakEnds (LF :: r) = 1 :: (specBreakEnds r).map Nat.succ
  ∧ specCount (LF :: r) IsLoneCREnd = specCount r IsLoneCREnd
  ∧ specCount (LF :: r) IsLoneLFEnd = specCount r IsLoneLFEnd + 1
  ∧ specCount (LF :: r) IsCRLFEnd = specCount r IsCRLFEnd := by
  have hshB : ∀ j, IsBreakEnd (LF :: r) (j + 2) ↔ IsBreakEnd r (j + 1) := by
    intro j
    rw [show j + 2 = (j + 1) + 1 from rfl]
    simp
  have hshCR : ∀ j, IsLoneCREnd (LF :: r) (j + 2) ↔ IsLoneCREnd r (j + 1) := by
    intro j
    rw [show j + 2 = (j + 1) + 1 from rfl]
    simp
  have hshLF : ∀ j, IsLoneLFEnd (LF :: r) (j + 2) ↔ IsLoneLFEnd r (j + 1) := by
    intro j
    cases j with
    | zero => simp
    | succ jj =>
      rw [show jj + 1 + 2 = (jj + 1) + 2 from rfl, show jj + 1 + 1 = jj + 2 from rfl]
      simp
  have hshCRLF : ∀ j, IsCRLFEnd (LF :: r) (j + 2) ↔ IsCRLFEnd r (j + 1) := by
    intro j
    cases j with
    | zero => simp
    | succ jj =>
      rw [show jj + 1 + 2 = (jj + 1) + 2 from rfl, show jj + 1 + 1 = jj + 2 from rfl]
      simp
  refine ⟨?_, ?_, ?_, ?_⟩
  · rw [specBreakEnds_cons _ _ hshB]
    simp
  · rw [specCount_cons _ _ _ (fun s => isLoneCREnd_zero s) hshCR]
    simp
  · rw [specCount_cons _ _ _ (fun s => isLoneLFEnd_zero s) hshLF]
    simp [Nat.add_comm]
  · rw [specCount_cons _ _ _ (fun s => isCRLFEnd_zero s) hshCRLF]
    simp

theorem specs_other (c : Char) (r : Str) (hcr : ¬(c = CR)) (hlf : ¬(c = LF)) :
    specBreakEnds (c :: r) = (specBreakEnds r).map Nat.succ
  ∧ specCount (c :: r) IsLoneCREnd = specCount r IsLoneCREnd
  ∧ specCount (c :: r) IsLoneLFEnd = specCount r IsLoneLFEnd
  ∧ specCount (c :: r) IsCRLFEnd = specCount r IsCRLFEnd := by
  have hshB : ∀ j, IsBreakEnd (c :: r) (j + 2) ↔ IsBreakEnd r (j + 1) := by
    intro j
    rw [show j + 2 = (j + 1) + 1 from rfl]
    simp
  have hshCR : ∀ j, IsLoneCREnd (c :: r) (j + 2) ↔ IsLoneCREnd r (j + 1) := by
    intro j
    rw [show j + 2 = (j + 1) + 1 from rfl]
    simp
  have hshLF : ∀ j, IsLoneLFEnd (c :: r) (j + 2) ↔ IsLoneLFEnd r (j + 1) := by
    intro j
    cases j with
    | zero => simp [hcr]
    | succ jj =>
      rw [show jj + 1 + 2 = (jj + 1) + 2 from rfl, show jj + 1 + 1 = jj + 2 from rfl]
      simp
  have hshCRLF : ∀ j, IsCRLFEnd (c :: r) (j + 2) ↔ IsCRLFEnd r (j + 1) := by
    intro j
    cases j with
    | zero => simp [hcr]
    | succ jj =>
      rw [show jj + 1 + 2 = (jj + 1) + 2 from rfl, show jj + 1 + 1 = jj + 2 from rfl]
      simp
  refine ⟨?_, ?_, ?_, ?_⟩
  · rw [specBreakEnds_cons _ _ hshB]
    simp [hcr, hlf]
  · rw [specCount_cons _ _ _ (fun s => isLoneCREnd_zero s) hshCR]
    simp [hcr, hlf]
  · rw [specCount_cons _ _ _ (fun s => isLoneLFEnd_zero s) hshLF]
    simp [hcr, hlf]
  · rw [specCount_cons _ _ _ (fun s => isCRLFEnd_zero s) hshCRLF]
    simp [hcr]

end PieceTree

namespace PieceTree

theorem loop_nil (i cr lf crlf : Int) (basic : Bool) :
    lineStartsLoop [] i cr lf crlf basic = ([], cr, lf, crlf, basic) := rfl

theorem loop_crlf (rest2 : Str) (i cr lf crlf : Int) (basic : Bool) :
    lineStartsLoop (CR :: LF :: rest2) i cr lf crlf basic
      = ((i + 2) :: (lineStartsLoop rest2 (i + 2) cr lf (crlf + 1) basic).1,
         (lineStartsLoop rest2 (i + 2) cr lf (crlf + 1) basic).2) := by
  rw [lineStartsLoop.eq_def]
  dsimp only
  simp

theorem loop_cr_single (i cr lf crlf : Int) (basic : Bool) :
    lineStartsLoop [CR] i cr lf crlf basic = ([i + 1], cr + 1, lf, crlf, basic) := by
  rw [lineStartsLoop.eq_def]
  dsimp only
  simp

theorem loop_cr_other (c2 : Char) (rest2 : Str) (hc2 : ¬(c2 = LF))
    (i cr lf crlf : Int) (basic : Bool) :
    lineStartsLoop (CR :: c2 :: rest2) i cr lf crlf basic
      = ((i + 1) :: (lineStartsLoop (c2 :: rest2) (i + 1) (cr + 1) lf crlf basic).1,
         (lineStartsLoop (c2 :: rest2) (i + 1) (cr + 1) lf crlf basic).2) := by
  rw [lineStartsLoop.eq_def]
  dsimp only
  simp [hc2]

theorem loop_lf (rest : Str) (i cr lf crlf : Int) (basic : Bool) :
    lineStartsLoop (LF :: rest) i cr lf crlf basic
      = ((i + 1) :: (lineStartsLoop rest (i + 1) cr (lf + 1) crlf basic).1,
         (lineStartsLoop rest (i + 1) cr (lf + 1) crlf basic).2) := by
  rw [lineStartsLoop.eq_def]
  dsimp only
  simp [show ¬(LF = CR) from by decide]

theorem loop_other (c : Char) (rest : Str) (hcr : ¬(c = CR)) (hlf : ¬(c = LF))
    (i cr lf crlf : Int) (basic : Bool) :
    lineStartsLoop (c :: rest) i cr lf crlf basic
      = lineStartsLoop rest (i + 1) cr lf crlf
          (if basic ∧ ¬(c = Char.ofNat 9) ∧ ((c.toNat : Int) < 32 ∨ (c.toNat : Int) > 126)
            then false else basic) := by
  rw [lineStartsLoop.eq_def]
  dsimp only
  rw [if_neg hcr, if_neg hlf]

instance (c : Char) : Decidable (PrintableOrTab c) := by
  unfold PrintableOrTab; infer_instance

theorem char_eq_ofNat_nine (c : Char) : c = Char.ofNat 9 ↔ c.toNat = 9 := by
  constructor
  · intro h
    subst h
    decide
  · intro h
    have := Char.ofNat_toNat c
    rw [h] at this
    exact this.symm

theorem basic_step (c : Char) (basic : Bool) :
    (if basic ∧ ¬(c = Char.ofNat 9) ∧ ((c.toNat : Int) < 32 ∨ (c.toNat : Int) > 126)
      then false else basic)
      = (basic && decide (PrintableOrTab c)) := by
  have hcond : (¬(c = Char.ofNat 9) ∧ ((c.toNat : Int) < 32 ∨ (c.toNat : Int) > 126))
      ↔ ¬ PrintableOrTab c := by
    rw [char_eq_ofNat_nine]
    unfold PrintableOrTab
    omega
  cases basic with
  | false => simp
  | true =>
    by_cases hg : PrintableOrTab c
    · rw [if_neg (fun h => (hcond.mp h.2) hg)]
      simp [hg]
    · rw [if_pos ⟨rfl, hcond.mpr hg⟩]
      simp [hg]

end PieceTree

namespace PieceTree

/-- Characterization of the `createLineStarts` loop: the line starts are
the spec break-end positions shifted by `i`, the counters add the spec
counts, and the flag survives iff every character is a break character,
tab, or printable ASCII. -/
theorem lineStartsLoop_spec :
    ∀ (n : Nat) (str : Str), str.length ≤ n → ∀ (i cr lf crlf : Int) (basic : Bool),
    lineStartsLoop str i cr lf crlf basic
      = ((specBreakEnds str).map (fun (j : Nat) => i + (j : Int)),
         cr + (specCount str IsLoneCREnd : Int),
         lf + (specCount str IsLoneLFEnd : Int),
         crlf + (specCount str IsCRLFEnd : Int),
         basic && str.all (fun c => decide (c = CR ∨ c = LF ∨ PrintableOrTab c))) := by
  intro n
  induction n with
  | zero =>
    intro str hlen i cr lf crlf basic
    have h0 : str = [] := List.length_eq_zero.mp (Nat.le_zero.mp hlen)
    subst h0
    rw [loop_nil, show specBreakEnds ([] : Str) = [] from by decide,
        show specCount ([] : Str) IsLoneCREnd = 0 from by decide,
        show specCount ([] : Str) IsLoneLFEnd = 0 from by decide,
        show specCount ([] : Str) IsCRLFEnd = 0 from by decide]
    simp
  | succ n ih =>
    intro str hlen i cr lf crlf basic
    match str with
    | [] =>
      rw [loop_nil, show specBreakEnds ([] : Str) = [] from by decide,
          show specCount ([] : Str) IsLoneCREnd = 0 from by decide,
          show specCount ([] : Str) IsLoneLFEnd = 0 from by decide,
          show specCount ([] : Str) IsCRLFEnd = 0 from by decide]
      simp
    | c :: rest =>
      by_cases hcr : c = CR
      · subst hcr
        match rest with
        | [] =>
          rw [loop_cr_single, show specBreakEnds [CR] = [1] from by decide,
              show specCount [CR] IsLoneCREnd = 1 from by decide,
              show specCount [CR] IsLoneLFEnd = 0 from by decide,
              show specCount [CR] IsCRLFEnd = 0 from by decide]
          simp [Prod.ext_iff]
        | c2 :: rest2 =>
          by_cases hlf2 : c2 = LF
          · subst hlf2
            have hb := specs_crlf rest2
            have hlen2 : rest2.length ≤ n := by
              simp only [List.length_cons] at hlen
              omega
            rw [loop_crlf, ih rest2 hlen2 (i + 2) cr lf (crlf + 1) basic,
                hb.1, hb.2.1, hb.2.2.1, hb.2.2.2]
            simp only [Prod.mk.injEq, List.map_cons, List.map_map, Function.comp_def,
              List.cons.injEq]
            and_intros <;>
              first
                | (push_cast; ring1)
                | (apply List.map_congr_left
                   intro a ha
                   push_cast
                   ring1)
                | simp
          · have hb := specs_lone_cr c2 rest2 hlf2
            have hlen2 : (c2 :: rest2).length ≤ n := by
              simp only [List.length_cons] at hlen ⊢
              omega
            rw [loop_cr_other c2 rest2 hlf2,
                ih (c2 :: rest2) hlen2 (i + 1) (cr + 1) lf crlf basic,
                hb.1, hb.2.1, hb.2.2.1, hb.2.2.2]
            simp only [Prod.mk.injEq, List.map_cons, List.map_map, Function.comp_def,
              List.cons.injEq]
            and_intros <;>
              first
                | (push_cast; ring1)
                | (apply List.map_congr_left
                   intro a ha
                   push_cast
                   ring1)
                | simp [hlf2]
      · by_cases hlf : c = LF
        · subst hlf
          have hb := specs_head_lf rest
          have hlen2 : rest.length ≤ n := by
            simp only [List.length_cons] at hlen
            omega
          rw [loop_lf, ih rest hlen2 (i + 1) cr (lf + 1) crlf basic,
              hb.1, hb.2.1, hb.2.2.1, hb.2.2.2]
          simp only [Prod.mk.injEq, List.map_cons, List.map_map, Function.comp_def,
            List.cons.injEq]
          and_intros <;>
            first
              | (push_cast; ring1)
              | (apply List.map_congr_left
                 intro a ha
                 push_cast
                 ring1)
              | simp
        · have hb := specs_other c rest hcr hlf
          have hlen2 : rest.length ≤ n := by
            simp only [List.length_cons] at hlen
            omega
          rw [loop_other c rest hcr hlf, basic_step,
              ih rest hlen2 (i + 1) cr lf crlf (basic && decide (PrintableOrTab c)),
              hb.1, hb.2.1, hb.2.2.1, hb.2.2.2]
          simp only [Prod.mk.injEq, List.map_map, Function.comp_def]
          and_intros <;>
            first
              | (push_cast; ring1)
              | (apply List.map_congr_left
                 intro a ha
                 push_cast
                 ring1)
              | simp [hcr, hlf, Bool.and_assoc]

end PieceTree

namespace PieceTree

/-- C6, counterexample: the string `"\n"` gets `isBasicASCII = true` from
`createLineStarts` although it is not made of ASCII printable + tab
characters only (line-break characters are skipped by the flag check). -/
theorem C6_counterexample :
    (createLineStarts [LF]).isBasicASCII = true
      ∧ ¬(∀ c ∈ ([LF] : Str), PrintableOrTab c) := by
  constructor
  · decide
  · decide

/-- C6 (amended): for every input string, `createLineStarts` returns the
line-start offsets `0` followed by exactly the ordered positions
immediately after each line break (a `"\r\n"` pair being one break),
correct counts of lone-`"\r"`, lone-`"\n"` and `"\r\n"` line endings, and
an `isBasicASCII` flag that is true iff every character is a line-break
character (`"\r"` or `"\n"`) or an ASCII printable + tab character. -/
theorem C6_createLineStarts (str : Str) :
    (createLineStarts str).lineStarts
        = 0 :: (specBreakEnds str).map (fun (j : Nat) => (j : Int))
  ∧ (createLineStarts str).cr = (specCount str IsLoneCREnd : Int)
  ∧ (createLineStarts str).lf = (specCount str IsLoneLFEnd : Int)
  ∧ (createLineStarts str).crlf = (specCount str IsCRLFEnd : Int)
  ∧ ((createLineStarts str).isBasicASCII = true
      ↔ ∀ c ∈ str, c = CR ∨ c = LF ∨ PrintableOrTab c) := by
  have h := lineStartsLoop_spec str.length str (le_refl _) 0 0 0 0 true
  refine ⟨?_, ?_, ?_, ?_, ?_⟩ <;>
    simp [createLineStarts, h, List.all_eq_true]

end PieceTree

namespace PieceTree

/-! ## Claim C4: overlap validation of `applyEdits`. -/

/-- The spec's notion of two edit ranges strictly overlapping: each
range's start lies strictly before the other's end, so the two ranges
share more than a single boundary position (merely touching ranges do
not satisfy this). -/
def Range.strictlyOverlaps (r1 r2 : Range) : Prop :=
  r1.getStartPosition.isBefore r2.getEndPosition = true
    ∧ r2.getStartPosition.isBefore r1.getEndPosition = true

instance (r1 r2 : Range) : Decidable (Range.strictlyOverlaps r1 r2) := by
  unfold Range.strictlyOverlaps; infer_instance

theorem Range.strictlyOverlaps_comm (r1 r2 : Range) :
    Range.strictlyOverlaps r1 r2 ↔ Range.strictlyOverlaps r2 r1 := by
  unfold Range.strictlyOverlaps; exact and_comm

theorem Position.isBefore_iff (a b : Position) :
    a.isBefore b = true ↔
      a.lineNumber < b.lineNumber
        ∨ (a.lineNumber = b.lineNumber ∧ a.column < b.column) := by
  unfold Position.isBefore; split_ifs <;> simp <;> omega

theorem Position.isBefore_eq_false_iff (a b : Position) :
    a.isBefore b = false ↔
      b.lineNumber < a.lineNumber
        ∨ (b.lineNumber = a.lineNumber ∧ b.column ≤ a.column) := by
  unfold Position.isBefore; split_ifs <;> simp <;> omega

theorem Position.isBeforeOrEqual_eq_false_iff (a b : Position) :
    a.isBeforeOrEqual b = false ↔
      b.lineNumber < a.lineNumber
        ∨ (b.lineNumber = a.lineNumber ∧ b.column < a.column) := by
  unfold Position.isBeforeOrEqual; split_ifs <;> simp <;> omega

theorem Position.isBeforeOrEqual_iff (a b : Position) :
    a.isBeforeOrEqual b = true ↔
      a.lineNumber < b.lineNumber
        ∨ (a.lineNumber = b.lineNumber ∧ a.column ≤ b.column) := by
  unfold Position.isBeforeOrEqual; split_ifs <;> simp <;> omega

theorem sortOpsAscendingCmp_total (a b : IValidatedEditOperation) :
    PTTB.sortOpsAscendingCmp a b ≤ 0 ∨ PTTB.sortOpsAscendingCmp b a ≤ 0 := by
  unfold PTTB.sortOpsAscendingCmp Range.compareRangesUsingEnds
  dsimp only
  split_ifs <;> omega

theorem sortOpsAscendingCmp_trans (a b c : IValidatedEditOperation) :
    PTTB.sortOpsAscendingCmp a b ≤ 0 → PTTB.sortOpsAscendingCmp b c ≤ 0 →
      PTTB.sortOpsAscendingCmp a c ≤ 0 := by
  unfold PTTB.sortOpsAscendingCmp Range.compareRangesUsingEnds
  dsimp only
  split_ifs <;> omega

/-- An ascending comparator result orders the end positions, and at equal
end positions also the start positions. -/
theorem sortOpsAscendingCmp_ends (a b : IValidatedEditOperation)
    (h : PTTB.sortOpsAscendingCmp a b ≤ 0) :
    (a.range.endLineNumber < b.range.endLineNumber
      ∨ (a.range.endLineNumber = b.range.endLineNumber
          ∧ a.range.endColumn ≤ b.range.endColumn))
    ∧ (a.range.endLineNumber = b.range.endLineNumber →
       a.range.endColumn = b.range.endColumn →
       (a.range.startLineNumber < b.range.startLineNumber
         ∨ (a.range.startLineNumber = b.range.startLineNumber
             ∧ a.range.startColumn ≤ b.range.startColumn))) := by
  unfold PTTB.sortOpsAscendingCmp Range.compareRangesUsingEnds at h
  dsimp only at h
  split_ifs at h <;> omega

theorem insertSorted_eq_orderedInsert (le : α → α → Bool) (x : α) :
    ∀ l : List α,
      insertSorted le x l = List.orderedInsert (fun a b => le a b = true) x l
  | [] => rfl
  | y :: ys => by
    simp only [insertSorted, List.orderedInsert]
    by_cases h : le x y = true
    · simp [h]
    · simp [h, insertSorted_eq_orderedInsert le x ys]

theorem stableSort_eq_insertionSort (le : α → α → Bool) :
    ∀ l : List α,
      stableSort le l = List.insertionSort (fun a b => le a b = true) l
  | [] => rfl
  | x :: rest => by
    simp only [stableSort, List.insertionSort]
    rw [stableSort_eq_insertionSort le rest, insertSorted_eq_orderedInsert]

theorem stableSort_perm (le : α → α → Bool) (l : List α) :
    List.Perm (stableSort le l) l := by
  rw [stableSort_eq_insertionSort]; exact List.perm_insertionSort _ l

theorem stableSort_pairwise (le : α → α → Bool)
    (htot : ∀ a b, le a b = true ∨ le b a = true)
    (htrans : ∀ a b c, le a b = true → le b c = true → le a c = true)
    (l : List α) :
    List.Pairwise (fun a b => le a b = true) (stableSort le l) := by
  rw [stableSort_eq_insertionSort]
  letI : IsTotal α (fun a b => le a b = true) := ⟨htot⟩
  letI : IsTrans α (fun a b => le a b = true) := ⟨htrans⟩
  exact List.sorted_insertionSort _ l

/-- The operation-building loop keeps the ranges of the raw operations,
in order. -/
theorem buildOperations_ranges (b : PTTB) (ops : List ValidAnnotatedEditOperation) :
    ∀ (i : Int) (r u nb cr : Bool),
      ((b.buildOperations ops i r u nb cr).1).map (fun op => op.range)
        = ops.map (fun op => op.range) := by
  induction ops with
  | nil => intro i r u nb cr; rfl
  | cons op rest ih =>
    intro i r u nb cr
    simp only [PTTB.buildOperations]
    simp [ih]

/-- One-step equation of the overlap-validation loop on a list with at
least two operations. -/
theorem checkAdjacent_cons2 (t : Bool) (a b : IValidatedEditOperation)
    (rest : List IValidatedEditOperation) :
    PTTB.checkAdjacent t (a :: b :: rest)
      = (if b.range.getStartPosition.isBeforeOrEqual a.range.getEndPosition then
           if b.range.getStartPosition.isBefore a.range.getEndPosition then
             Except.error "Overlapping ranges are not allowed!"
           else PTTB.checkAdjacent true (b :: rest)
         else PTTB.checkAdjacent t (b :: rest)) := by
  rw [PTTB.checkAdjacent.eq_def]

/-- If the overlap scan succeeds on a sorted list, the head's end is not
after any later operation's start. -/
theorem checkAdjacent_ok_gap :
    ∀ (l : List IValidatedEditOperation) (a : IValidatedEditOperation) (t v : Bool),
      PTTB.checkAdjacent t (a :: l) = Except.ok v →
      List.Pairwise (fun x y => PTTB.sortOpsAscendingCmp x y ≤ 0) (a :: l) →
      ∀ x ∈ l, x.range.getStartPosition.isBefore a.range.getEndPosition = false
  | [], _, _, _ => by
    intro _ _ x hx
    simp at hx
  | b :: rest, a, t, v => by
    intro hrun hpw x hx
    have hab : PTTB.sortOpsAscendingCmp a b ≤ 0 :=
      (List.pairwise_cons.mp hpw).1 b (by simp)
    rw [checkAdjacent_cons2] at hrun
    rw [List.mem_cons] at hx
    rcases hx with hx | hx
    · subst hx
      split_ifs at hrun with h1 h2
      · rw [Bool.not_eq_true] at h2
        exact h2
      · rw [Bool.not_eq_true] at h1
        rw [Position.isBeforeOrEqual_eq_false_iff] at h1
        rw [Bool.eq_false_iff, Ne, Position.isBefore_iff]
        push_neg
        omega
    · have hrec : ∀ y ∈ rest,
          y.range.getStartPosition.isBefore b.range.getEndPosition = false := by
        split_ifs at hrun with h1 h2
        · exact checkAdjacent_ok_gap rest b true v hrun hpw.of_cons
        · exact checkAdjacent_ok_gap rest b t v hrun hpw.of_cons
      have hx2 := hrec x hx
      have hends := (sortOpsAscendingCmp_ends a b hab).1
      rw [Bool.eq_false_iff, Ne, Position.isBefore_iff] at hx2 ⊢
      simp only [Range.getStartPosition, Range.getEndPosition] at hx2 ⊢
      push_neg at hx2 ⊢
      omega

/-- If the overlap scan succeeds on a sorted list, no two of its
operations strictly overlap. -/
theorem checkAdjacent_pairwise_of_ok :
    ∀ (l : List IValidatedEditOperation) (t v : Bool),
      PTTB.checkAdjacent t l = Except.ok v →
      List.Pairwise (fun x y => PTTB.sortOpsAscendingCmp x y ≤ 0) l →
      List.Pairwise (fun x y => ¬ Range.strictlyOverlaps x.range y.range) l
  | [], _, _ => by
    intro _ _
    exact List.Pairwise.nil
  | [a], _, _ => by
    intro _ _
    simp
  | a :: b :: rest, t, v => by
    intro hrun hpw
    have hgap := checkAdjacent_ok_gap (b :: rest) a t v hrun hpw
    have htail : List.Pairwise (fun x y => ¬ Range.strictlyOverlaps x.range y.range)
        (b :: rest) := by
      rw [checkAdjacent_cons2] at hrun
      split_ifs at hrun with h1 h2
      · exact checkAdjacent_pairwise_of_ok (b :: rest) true v hrun hpw.of_cons
      · exact checkAdjacent_pairwise_of_ok (b :: rest) t v hrun hpw.of_cons
    refine List.pairwise_cons.mpr ⟨?_, htail⟩
    intro x hx hov
    have hfalse := hgap x hx
    rw [hov.2] at hfalse
    exact absurd hfalse (by simp)

/-- If no two operations of a sorted list of valid operations strictly
overlap, the overlap scan succeeds. -/
theorem checkAdjacent_ok_of_pairwise :
    ∀ (l : List IValidatedEditOperation) (t : Bool),
      (∀ op ∈ l,
        op.range.getStartPosition.isBeforeOrEqual op.range.getEndPosition = true) →
      List.Pairwise (fun x y => PTTB.sortOpsAscendingCmp x y ≤ 0) l →
      List.Pairwise (fun x y => ¬ Range.strictlyOverlaps x.range y.range) l →
      ∃ v, PTTB.checkAdjacent t l = Except.ok v
  | [], t, _, _, _ => ⟨t, rfl⟩
  | [a], t, _, _, _ => ⟨t, rfl⟩
  | a :: b :: rest, t, hval, hle, hov => by
    have hab : PTTB.sortOpsAscendingCmp a b ≤ 0 :=
      (List.pairwise_cons.mp hle).1 b (by simp)
    have haov : ¬ Range.strictlyOverlaps a.range b.range :=
      (List.pairwise_cons.mp hov).1 b (by simp)
    have hva : a.range.getStartPosition.isBeforeOrEqual a.range.getEndPosition = true :=
      hval a (by simp)
    have hkey : b.range.getStartPosition.isBefore a.range.getEndPosition = false := by
      have hends := sortOpsAscendingCmp_ends a b hab
      rw [Bool.eq_false_iff, Ne, Position.isBefore_iff]
      intro hlt
      apply haov
      constructor
      · rw [Position.isBefore_iff]
        rw [Position.isBeforeOrEqual_iff] at hva
        simp only [Range.getStartPosition, Range.getEndPosition] at hva hlt ⊢
        omega
      · rw [Position.isBefore_iff]
        simp only [Range.getStartPosition, Range.getEndPosition] at hlt ⊢
        omega
    obtain ⟨v1, hv1⟩ := checkAdjacent_ok_of_pairwise (b :: rest) true
      (fun op h => hval op (by simp [h])) hle.of_cons hov.of_cons
    obtain ⟨v2, hv2⟩ := checkAdjacent_ok_of_pairwise (b :: rest) t
      (fun op h => hval op (by simp [h])) hle.of_cons hov.of_cons
    by_cases hbe : b.range.getStartPosition.isBeforeOrEqual a.range.getEndPosition = true
    · refine ⟨v1, ?_⟩
      rw [checkAdjacent_cons2, if_pos hbe, if_neg (by simp [hkey])]
      exact hv1
    · refine ⟨v2, ?_⟩
      rw [checkAdjacent_cons2, if_neg hbe]
      exact hv2

end PieceTree

namespace PieceTree

/-- Case split of `applyEdits` on the outcome of the overlap validation:
an error leaves the buffer untouched, and success is exactly success of
`checkAdjacent` on the sorted built operations. -/
theorem applyEdits_dispatch (b : PTTB) (raw : List ValidAnnotatedEditOperation)
    (rt cu : Bool) :
    (∀ msg, (PTTB.applyEdits b raw rt cu).2 = Except.error msg →
      (PTTB.applyEdits b raw rt cu).1 = b)
    ∧ ((∃ res, (PTTB.applyEdits b raw rt cu).2 = Except.ok res) ↔
        ∃ v, PTTB.checkAdjacent false
          (stableSort (fun x y => decide (PTTB.sortOpsAscendingCmp x y ≤ 0))
            (PTTB.buildOperations b raw 0 b.mightContainRTL
              b.mightContainUnusualLineTerminators b.mightContainNonBasicASCII true).1)
          = Except.ok v) := by
  rcases hca : PTTB.checkAdjacent false
      (stableSort (fun x y => decide (PTTB.sortOpsAscendingCmp x y ≤ 0))
        (PTTB.buildOperations b raw 0 b.mightContainRTL
          b.mightContainUnusualLineTerminators b.mightContainNonBasicASCII true).1)
    with msg | ht
  · refine ⟨?_, ?_, ?_⟩
    · intro msg2 _
      simp only [PTTB.applyEdits]
      rw [hca]
    · rintro ⟨res, hres⟩
      simp only [PTTB.applyEdits] at hres
      rw [hca] at hres
      exact absurd hres (by simp)
    · rintro ⟨v, hv⟩
      exact absurd hv (by simp)
  · refine ⟨?_, ?_, ?_⟩
    · intro msg hmsg
      exfalso
      simp only [PTTB.applyEdits] at hmsg
      rw [hca] at hmsg
      exact absurd hmsg (by simp)
    · intro _
      exact ⟨ht, rfl⟩
    · intro _
      rcases h2 : (PTTB.applyEdits b raw rt cu).2 with m | res
      · exfalso
        simp only [PTTB.applyEdits] at h2
        rw [hca] at h2
        simp at h2
      · exact ⟨res, rfl⟩

end PieceTree

namespace PieceTree

/-- Whether some two operations of the batch strictly overlap is the same
question for the sorted built operations as for the raw operations: the
building loop keeps every range and sorting permutes them. -/
theorem pairwise_overlap_transfer (b : PTTB) (raw : List ValidAnnotatedEditOperation) :
    List.Pairwise (fun x y => ¬ Range.strictlyOverlaps x.range y.range)
        (stableSort (fun x y => decide (PTTB.sortOpsAscendingCmp x y ≤ 0))
          (PTTB.buildOperations b raw 0 b.mightContainRTL
            b.mightContainUnusualLineTerminators b.mightContainNonBasicASCII true).1)
      ↔ List.Pairwise (fun o1 o2 => ¬ Range.strictlyOverlaps o1.range o2.range) raw := by
  have hsymm : Symmetric (fun x y : IValidatedEditOperation =>
      ¬ Range.strictlyOverlaps x.range y.range) := by
    intro x y h hov
    exact h ((Range.strictlyOverlaps_comm y.range x.range).mp hov)
  have hperm := stableSort_perm
    (fun x y => decide (PTTB.sortOpsAscendingCmp x y ≤ 0))
    (PTTB.buildOperations b raw 0 b.mightContainRTL
      b.mightContainUnusualLineTerminators b.mightContainNonBasicASCII true).1
  rw [hperm.pairwise_iff (fun hxy => hsymm hxy)]
  have hmap := buildOperations_ranges b raw 0 b.mightContainRTL
    b.mightContainUnusualLineTerminators b.mightContainNonBasicASCII true
  constructor
  · intro h
    have h2 := (@List.pairwise_map _ _
      (fun op : IValidatedEditOperation => op.range)
      (fun r s => ¬ Range.strictlyOverlaps r s) _).mpr h
    rw [hmap] at h2
    exact List.pairwise_map.mp h2
  · intro h
    have h2 := (@List.pairwise_map _ _
      (fun op : ValidAnnotatedEditOperation => op.range)
      (fun r s => ¬ Range.strictlyOverlaps r s) _).mpr h
    rw [← hmap] at h2
    exact List.pairwise_map.mp h2

end PieceTree

namespace PieceTree

/-- A piece-tree text buffer wrapping the empty piece tree. -/
def c4Buffer : PTTB :=
  { pieceTree := emptyBuffer
    bom := []
    mightContainRTL := false
    mightContainUnusualLineTerminators := false
    mightContainNonBasicASCII := false }

/-- A batch of two valid edit operations whose ranges touch at `(1,2)`
without strictly overlapping. -/
def c4Ops : List ValidAnnotatedEditOperation :=
  [⟨none, ⟨1, 1, 1, 2⟩, none, false, false, false⟩,
   ⟨none, ⟨1, 2, 1, 3⟩, none, false, false, false⟩]

/-- C4: for a batch of edit operations with valid ranges (start before or
equal to end), `applyEdits` succeeds exactly when no two of the
operations' ranges strictly overlap — so merely touching ranges are
accepted and a strictly overlapping pair is rejected with an error — and
whenever it reports the error the returned buffer is the entry buffer,
i.e. the error is raised before any mutation. -/
theorem C4_applyEdits (b : PTTB) (rawOperations : List ValidAnnotatedEditOperation)
    (recordTrimAutoWhitespace computeUndoEdits : Bool)
    (hvalid : ∀ op ∈ rawOperations,
      op.range.getStartPosition.isBeforeOrEqual op.range.getEndPosition = true) :
    ((∃ res,
        (PTTB.applyEdits b rawOperations recordTrimAutoWhitespace computeUndoEdits).2
          = Except.ok res)
      ↔ List.Pairwise (fun o1 o2 => ¬ Range.strictlyOverlaps o1.range o2.range)
          rawOperations)
    ∧ ∀ msg,
        (PTTB.applyEdits b rawOperations recordTrimAutoWhitespace computeUndoEdits).2
          = Except.error msg →
        (PTTB.applyEdits b rawOperations recordTrimAutoWhitespace computeUndoEdits).1
          = b := by
  obtain ⟨hstate, hok⟩ :=
    applyEdits_dispatch b rawOperations recordTrimAutoWhitespace computeUndoEdits
  refine ⟨?_, hstate⟩
  rw [hok, ← pairwise_overlap_transfer b rawOperations]
  have hle : List.Pairwise (fun x y => PTTB.sortOpsAscendingCmp x y ≤ 0)
      (stableSort (fun x y => decide (PTTB.sortOpsAscendingCmp x y ≤ 0))
        (PTTB.buildOperations b rawOperations 0 b.mightContainRTL
          b.mightContainUnusualLineTerminators b.mightContainNonBasicASCII true).1) :=
    (stableSort_pairwise (fun x y => decide (PTTB.sortOpsAscendingCmp x y ≤ 0))
      (fun x y => by simpa using sortOpsAscendingCmp_total x y)
      (fun x y z hxy hyz => by
        simp only [decide_eq_true_eq] at hxy hyz ⊢
        exact sortOpsAscendingCmp_trans x y z hxy hyz)
      _).imp (fun h => by simpa using h)
  have hvs : ∀ op ∈ stableSort (fun x y => decide (PTTB.sortOpsAscendingCmp x y ≤ 0))
      (PTTB.buildOperations b rawOperations 0 b.mightContainRTL
        b.mightContainUnusualLineTerminators b.mightContainNonBasicASCII true).1,
      op.range.getStartPosition.isBeforeOrEqual op.range.getEndPosition = true := by
    intro op hop
    have hmem := (stableSort_perm
      (fun x y => decide (PTTB.sortOpsAscendingCmp x y ≤ 0)) _).mem_iff.mp hop
    have hrng : op.range ∈ (PTTB.buildOperations b rawOperations 0 b.mightContainRTL
        b.mightContainUnusualLineTerminators b.mightContainNonBasicASCII true).1.map
          (fun o => o.range) := List.mem_map.mpr ⟨op, hmem, rfl⟩
    rw [buildOperations_ranges] at hrng
    obtain ⟨op2, hop2, heq⟩ := List.mem_map.mp hrng
    rw [← heq]
    exact hvalid op2 hop2
  constructor
  · rintro ⟨v, hv⟩
    exact checkAdjacent_pairwise_of_ok _ false v hv hle
  · intro hpw
    exact checkAdjacent_ok_of_pairwise _ false hvs hle hpw

/-- C4 witness: a concrete touching-only batch on a concrete buffer has
valid ranges and is accepted by `applyEdits`. -/
theorem C4_applyEdits_witness :
    (∀ op ∈ c4Ops,
        op.range.getStartPosition.isBeforeOrEqual op.range.getEndPosition = true)
      ∧ ∃ res, (PTTB.applyEdits c4Buffer c4Ops false false).2 = Except.ok res := by
  refine ⟨by decide, ?_⟩
  exact (C4_applyEdits c4Buffer c4Ops false false (by decide)).1.mpr (by decide)

end PieceTree

namespace PieceTree

/-! ## Claim C8: clamping of out-of-range coordinates. -/

/-- Every piece length in the subtree is nonnegative (lengths are
character counts, so this holds of every tree the code builds). -/
def RBTree.lensNonneg : RBTree → Bool
  | RBTree.nil => true
  | RBTree.node l _ _ p r => l.lensNonneg && decide (0 ≤ p.length) && r.lensNonneg

theorem RBTree.totalLen_nonneg :
    ∀ t : RBTree, t.lensNonneg = true → 0 ≤ t.totalLen
  | RBTree.nil, _ => le_refl 0
  | RBTree.node l _ _ p r, h => by
    simp only [RBTree.lensNonneg, Bool.and_eq_true, decide_eq_true_eq] at h
    have hl := RBTree.totalLen_nonneg l h.1.1
    have hr := RBTree.totalLen_nonneg r h.2
    simp only [RBTree.totalLen]
    omega

/-- Once the requested offset exceeds the subtree's total length, the
`getPositionAt` descent runs down the right spine and produces the
position after the subtree's last line-feed whose column is measured from
`originalOffset - (offset - totalLen)`, independently of how far the
offset overshoots. -/
theorem getPositionAtGo_overshoot (s : PTB) :
    ∀ t : RBTree, t.lensNonneg = true → ¬(t = RBTree.nil) →
      ∀ offset lfCnt originalOffset : Int, t.totalLen < offset →
      s.getPositionAtGo t offset lfCnt originalOffset
        = ⟨lfCnt + t.totalLFs + 1,
           originalOffset - (offset - t.totalLen)
             - s.getOffsetAt (lfCnt + t.totalLFs + 1) 1 + 1⟩ := by
  intro t
  induction t with
  | nil =>
    intro _ hne
    exact absurd rfl hne
  | node l id c p r ihl ihr =>
    intro hnn _ offset lfCnt originalOffset hover
    simp only [RBTree.lensNonneg, Bool.and_eq_true, decide_eq_true_eq] at hnn
    have hlnn := RBTree.totalLen_nonneg l hnn.1.1
    have hrnn := RBTree.totalLen_nonneg r hnn.2
    have hp := hnn.1.2
    simp only [RBTree.totalLen] at hover
    rw [PTB.getPositionAtGo.eq_def]
    dsimp only
    rw [if_neg (by push_neg; intro _; omega), if_neg (by omega)]
    cases r with
    | nil =>
      have h1 : lfCnt + l.totalLFs + p.lineFeedCnt
          = lfCnt + (RBTree.node l id c p RBTree.nil).totalLFs := by
        simp only [RBTree.totalLFs]
        omega
      rw [h1]
      simp only [Position.mk.injEq, RBTree.totalLen]
      exact ⟨trivial, by omega⟩
    | node rl rid rc rp rr =>
      dsimp only
      rw [ihr hnn.2 (by simp) (offset - (l.totalLen + p.length)) (lfCnt + l.totalLFs + p.lineFeedCnt)
        originalOffset (by simp only [RBTree.totalLen] at hover hrnn ⊢; omega)]
      have h1 : lfCnt + l.totalLFs + p.lineFeedCnt + (RBTree.node rl rid rc rp rr).totalLFs
          = lfCnt + (RBTree.node l id c p (RBTree.node rl rid rc rp rr)).totalLFs := by
        simp only [RBTree.totalLFs]
        omega
      rw [h1]
      simp only [Position.mk.injEq, RBTree.totalLen]
      exact ⟨trivial, by omega⟩

end PieceTree

namespace PieceTree

/-- C8 (amended): out-of-range offsets are clamped — for every buffer
whose stored length and line count agree with its piece tree and whose
piece lengths are nonnegative, `getPositionAt(offset)` for every offset
strictly greater than `getLength()` returns the end-of-document position
(line `getLineCount()`, column one past the last line's content), the same
valid position for every such offset, without raising an error.  (The
claim's second half fails: a column past the end of the last line is not
clamped, see the counterexample.) -/
theorem C8_getPositionAt_clamp (s : PTB) (offset : Int)
    (hnn : s.root.lensNonneg = true)
    (hlen : s.length = s.root.totalLen)
    (hlc : s.lineCnt = s.root.totalLFs + 1)
    (hover : s.getLength < offset) :
    s.getPositionAt offset
      = ⟨s.getLineCount, s.getLength - s.getOffsetAt s.getLineCount 1 + 1⟩ := by
  have h0 : 0 ≤ s.root.totalLen := RBTree.totalLen_nonneg s.root hnn
  unfold PTB.getLength at hover
  have hmax : max 0 offset = offset := by omega
  unfold PTB.getPositionAt
  dsimp only
  rw [hmax]
  rcases hroot : s.root with _ | ⟨l, id, c, p, r⟩
  · rw [hroot] at hlen hlc
    unfold PTB.getLineCount PTB.getLength PTB.getOffsetAt
    rw [hroot]
    simp only [RBTree.totalLFs, RBTree.totalLen] at hlen hlc
    rw [hlen, hlc]
    simp [PTB.getPositionAtGo, PTB.getOffsetAtGo]
  · rw [hroot] at hnn hlen
    have hgo := getPositionAtGo_overshoot s (RBTree.node l id c p r) hnn (by simp)
      offset 0 offset (by omega)
    rw [hgo]
    have hz : (0 : Int) + (RBTree.node l id c p r).totalLFs
        = (RBTree.node l id c p r).totalLFs := zero_add _
    rw [hz]
    unfold PTB.getLineCount PTB.getLength
    rw [hlc, hroot, hlen]
    simp only [Position.mk.injEq]
    exact ⟨trivial, by omega⟩

/-- C8, counterexample to the column half of the claim: on the buffer
`"ab\r\ncd"` a column far past the end of line 1 is clamped by `nodeAt2`
(it returns a node position), but the same request on the last line 2
reaches the `return null!` path of `nodeAt2` — represented as `none` —
which the callers dereference, so an out-of-range column on the last line
raises an error instead of being clamped. -/
theorem C8_counterexample :
    c7Buffer.nodeAt2 2 10 = none ∧ ¬(c7Buffer.nodeAt2 1 10 = none) := by
  constructor
  · decide
  · decide

/-- C8 witness: the amended clamp theorem applied to the concrete buffer
`"ab\r\ncd"` and offset 100. -/
theorem C8_getPositionAt_clamp_witness :
    (c7Buffer.root.lensNonneg = true
      ∧ c7Buffer.length = c7Buffer.root.totalLen
      ∧ c7Buffer.lineCnt = c7Buffer.root.totalLFs + 1
      ∧ c7Buffer.getLength < 100)
    ∧ c7Buffer.getPositionAt 100
        = ⟨c7Buffer.getLineCount,
           c7Buffer.getLength - c7Buffer.getOffsetAt c7Buffer.getLineCount 1 + 1⟩ := by
  refine ⟨by decide, ?_⟩
  exact C8_getPositionAt_clamp c7Buffer 100 (by decide) (by decide) (by decide) (by decide)

end PieceTree

namespace PieceTree

/-! ## Claim C9: CRLF merge on the change-buffer append path. -/

/-- Every piece length in the subtree is at least 1 (a document invariant:
the mutators delete emptied pieces). -/
def RBTree.lensPos : RBTree → Bool
  | RBTree.nil => true
  | RBTree.node l _ _ p r => l.lensPos && decide (1 ≤ p.length) && r.lensPos

theorem RBTree.lensPos_totalLen_nonneg :
    ∀ t : RBTree, t.lensPos = true → 0 ≤ t.totalLen
  | RBTree.nil, _ => le_refl 0
  | RBTree.node l _ _ p r, h => by
    simp only [RBTree.lensPos, Bool.and_eq_true, decide_eq_true_eq] at h
    have hl := RBTree.lensPos_totalLen_nonneg l h.1.1
    have hr := RBTree.lensPos_totalLen_nonneg r h.2
    simp only [RBTree.totalLen]
    omega

theorem RBTree.lensPos_totalLen_pos :
    ∀ t : RBTree, ¬(t = RBTree.nil) → t.lensPos = true → 1 ≤ t.totalLen
  | RBTree.nil, hne, _ => absurd rfl hne
  | RBTree.node l _ _ p r, _, h => by
    simp only [RBTree.lensPos, Bool.and_eq_true, decide_eq_true_eq] at h
    have hl := RBTree.lensPos_totalLen_nonneg l h.1.1
    have hr := RBTree.lensPos_totalLen_nonneg r h.2
    simp only [RBTree.totalLen]
    omega

/-- Id and piece of the rightmost node. -/
def RBTree.rightmostData? : RBTree → Option (Nat × Piece)
  | RBTree.nil => none
  | RBTree.node _ id _ p RBTree.nil => some (id, p)
  | RBTree.node _ _ _ _ (RBTree.node rl rid rc rp rr) =>
    RBTree.rightmostData? (RBTree.node rl rid rc rp rr)

theorem RBTree.rightmost_mem :
    ∀ (t : RBTree) (rid : Nat) (p : Piece),
      t.rightmostData? = some (rid, p) → rid ∈ t.inorder.map Prod.fst
  | RBTree.nil, rid, p, h => by simp [RBTree.rightmostData?] at h
  | RBTree.node l id c p0 RBTree.nil, rid, p, h => by
    simp only [RBTree.rightmostData?, Option.some.injEq, Prod.mk.injEq] at h
    simp [RBTree.inorder, h.1]
  | RBTree.node l id c p0 (RBTree.node rl rid2 rc rp rr), rid, p, h => by
    simp only [RBTree.rightmostData?] at h
    have := RBTree.rightmost_mem (RBTree.node rl rid2 rc rp rr) rid p h
    simp only [RBTree.inorder, List.map_append, List.map_cons, List.mem_append,
      List.mem_cons] at this ⊢
    tauto

theorem RBTree.findPiece_none_of_not_mem :
    ∀ (t : RBTree) (tgt : Nat), ¬(tgt ∈ t.inorder.map Prod.fst) →
      t.findPiece tgt = none
  | RBTree.nil, _, _ => rfl
  | RBTree.node l id c p r, tgt, h => by
    simp only [RBTree.inorder, List.map_append, List.map_cons, List.mem_append,
      List.mem_cons] at h
    push_neg at h
    simp only [RBTree.findPiece]
    rw [if_neg (fun heq => h.2.1 heq.symm),
      RBTree.findPiece_none_of_not_mem l tgt h.1,
      RBTree.findPiece_none_of_not_mem r tgt h.2.2]

theorem RBTree.setPiece_of_not_mem :
    ∀ (t : RBTree) (tgt : Nat) (q : Piece), ¬(tgt ∈ t.inorder.map Prod.fst) →
      t.setPiece tgt q = t
  | RBTree.nil, _, _, _ => rfl
  | RBTree.node l id c p r, tgt, q, h => by
    simp only [RBTree.inorder, List.map_append, List.map_cons, List.mem_append,
      List.mem_cons] at h
    push_neg at h
    simp only [RBTree.setPiece]
    rw [if_neg (fun heq => h.2.1 heq.symm),
      RBTree.setPiece_of_not_mem l tgt q h.1,
      RBTree.setPiece_of_not_mem r tgt q h.2.2]

theorem RBTree.mem_of_findPiece_some :
    ∀ (t : RBTree) (tgt : Nat) (p : Piece), t.findPiece tgt = some p →
      tgt ∈ t.inorder.map Prod.fst
  | RBTree.nil, tgt, p, h => by simp [RBTree.findPiece] at h
  | RBTree.node l id c p0 r, tgt, p, h => by
    simp only [RBTree.findPiece] at h
    simp only [RBTree.inorder, List.map_append, List.map_cons, List.mem_append,
      List.mem_cons]
    by_cases hid : id = tgt
    · exact Or.inr (Or.inl hid.symm)
    · rw [if_neg hid] at h
      rcases hfl : l.findPiece tgt with _ | q
      · rw [hfl] at h
        exact Or.inr (Or.inr (RBTree.mem_of_findPiece_some r tgt p h))
      · exact Or.inl (RBTree.mem_of_findPiece_some l tgt q hfl)

/-- Decomposition of the no-duplicate-ids invariant at a node. -/
theorem RBTree.nodup_node {l : RBTree} {id : Nat} {c : Bool} {p : Piece} {r : RBTree}
    (h : ((RBTree.node l id c p r).inorder.map Prod.fst).Nodup) :
    (l.inorder.map Prod.fst).Nodup ∧ (r.inorder.map Prod.fst).Nodup
      ∧ ¬(id ∈ l.inorder.map Prod.fst) ∧ ¬(id ∈ r.inorder.map Prod.fst)
      ∧ ∀ x ∈ l.inorder.map Prod.fst, ¬(x ∈ r.inorder.map Prod.fst) := by
  simp only [RBTree.inorder, List.map_append, List.map_cons] at h
  rw [List.nodup_append] at h
  obtain ⟨h1, h2, h3⟩ := h
  rw [List.nodup_cons] at h2
  refine ⟨h1, h2.2, ?_, h2.1, ?_⟩
  · intro hmem
    exact h3 hmem (List.mem_cons_self id _)
  · intro x hx hxr
    exact h3 hx (List.mem_cons_of_mem id hxr)

theorem RBTree.not_mem_of_findPiece_none :
    ∀ (t : RBTree) (tgt : Nat), t.findPiece tgt = none →
      ¬(tgt ∈ t.inorder.map Prod.fst)
  | RBTree.nil, tgt, _ => by simp [RBTree.inorder]
  | RBTree.node l id c p0 r, tgt, h => by
    simp only [RBTree.findPiece] at h
    by_cases hid : id = tgt
    · rw [if_pos hid] at h
      exact absurd h (by simp)
    · rw [if_neg hid] at h
      rcases hfl : l.findPiece tgt with _ | q
      · rw [hfl] at h
        have hl := RBTree.not_mem_of_findPiece_none l tgt hfl
        have hr := RBTree.not_mem_of_findPiece_none r tgt h
        simp only [RBTree.inorder, List.map_append, List.map_cons, List.mem_append,
          List.mem_cons]
        push_neg
        exact ⟨hl, fun he => hid he.symm, hr⟩
      · rw [hfl] at h
        exact absurd h (by simp)

theorem RBTree.setPiece_totalLFs :
    ∀ (t : RBTree) (tgt : Nat) (p q : Piece),
      (t.inorder.map Prod.fst).Nodup → t.findPiece tgt = some p →
      (t.setPiece tgt q).totalLFs = t.totalLFs - p.lineFeedCnt + q.lineFeedCnt
  | RBTree.nil, tgt, p, q, _, h => by simp [RBTree.findPiece] at h
  | RBTree.node l id c p0 r, tgt, p, q, hnd, h => by
    obtain ⟨hndl, hndr, hidl, hidr, hdisj⟩ := RBTree.nodup_node hnd
    simp only [RBTree.findPiece] at h
    simp only [RBTree.setPiece]
    by_cases hid : id = tgt
    · rw [if_pos hid] at h ⊢
      rw [Option.some.injEq] at h
      subst h
      simp only [RBTree.totalLFs]
      omega
    · rw [if_neg hid] at h ⊢
      rcases hfl : l.findPiece tgt with _ | ql
      · rw [hfl] at h
        dsimp only at h
        have hnl := RBTree.not_mem_of_findPiece_none l tgt hfl
        rw [RBTree.setPiece_of_not_mem l tgt q hnl]
        simp only [RBTree.totalLFs]
        rw [RBTree.setPiece_totalLFs r tgt p q hndr h]
        omega
      · rw [hfl] at h
        dsimp only at h
        rw [Option.some.injEq] at h
        subst h
        have hml := RBTree.mem_of_findPiece_some l tgt ql hfl
        have hnr : ¬(tgt ∈ r.inorder.map Prod.fst) := hdisj tgt hml
        rw [RBTree.setPiece_of_not_mem r tgt q hnr]
        simp only [RBTree.totalLFs]
        rw [RBTree.setPiece_totalLFs l tgt ql q hndl hfl]
        omega

theorem RBTree.rightmost_findPiece :
    ∀ (t : RBTree) (rid : Nat) (p : Piece),
      t.rightmostData? = some (rid, p) → (t.inorder.map Prod.fst).Nodup →
      t.findPiece rid = some p
  | RBTree.nil, rid, p, h, _ => by simp [RBTree.rightmostData?] at h
  | RBTree.node l id c p0 RBTree.nil, rid, p, h, hnd => by
    simp only [RBTree.rightmostData?, Option.some.injEq, Prod.mk.injEq] at h
    simp only [RBTree.findPiece]
    rw [if_pos h.1, h.2]
  | RBTree.node l id c p0 (RBTree.node rl rid2 rc rp rr), rid, p, h, hnd => by
    obtain ⟨hndl, hndr, hidl, hidr, hdisj⟩ := RBTree.nodup_node hnd
    simp only [RBTree.rightmostData?] at h
    have hmem := RBTree.rightmost_mem (RBTree.node rl rid2 rc rp rr) rid p h
    have hidne : ¬(id = rid) := fun he => hidr (he ▸ hmem)
    have hnl : ¬(rid ∈ l.inorder.map Prod.fst) := fun hm => hdisj rid hm hmem
    simp only [RBTree.findPiece]
    rw [if_neg hidne, RBTree.findPiece_none_of_not_mem l rid hnl]
    exact RBTree.rightmost_findPiece (RBTree.node rl rid2 rc rp rr) rid p h hndr

/-- The search for the offset equal to the subtree length lands on the
rightmost node with remainder equal to its full piece length. -/
theorem nodeAtGo_rightmost (s : PTB) :
    ∀ (t : RBTree) (rid : Nat) (p : Piece),
      t.rightmostData? = some (rid, p) → t.lensPos = true →
      ∀ acc : Int, s.nodeAtGo t t.totalLen acc
        = some ⟨rid, p.length, acc + t.totalLen - p.length⟩
  | RBTree.nil, rid, p, h, _, acc => by simp [RBTree.rightmostData?] at h
  | RBTree.node l id c p0 RBTree.nil, rid, p, h, hpos, acc => by
    simp only [RBTree.rightmostData?, Option.some.injEq, Prod.mk.injEq] at h
    obtain ⟨h1, h2⟩ := h
    subst h1
    subst h2
    simp only [RBTree.lensPos, Bool.and_eq_true, decide_eq_true_eq] at hpos
    have hl := RBTree.lensPos_totalLen_nonneg l hpos.1.1
    have hp := hpos.1.2
    rw [PTB.nodeAtGo.eq_def]
    dsimp only
    rw [if_neg (by simp only [RBTree.totalLen]; omega),
      if_pos (by simp only [RBTree.totalLen]; omega)]
    simp only [Option.some.injEq, NodePosition.mk.injEq, RBTree.totalLen]
    refine ⟨trivial, by omega, by omega⟩
  | RBTree.node l id c p0 (RBTree.node rl rid2 rc rp rr), rid, p, h, hpos, acc => by
    simp only [RBTree.rightmostData?] at h
    simp only [RBTree.lensPos, Bool.and_eq_true, decide_eq_true_eq] at hpos
    have hl := RBTree.lensPos_totalLen_nonneg l hpos.1.1
    have hp := hpos.1.2
    have hr1 : 1 ≤ (RBTree.node rl rid2 rc rp rr).totalLen :=
      RBTree.lensPos_totalLen_pos _ (by simp) (by
        simp only [RBTree.lensPos, Bool.and_eq_true, decide_eq_true_eq]
        exact hpos.2)
    have hr1u : 1 ≤ rl.totalLen + rp.length + rr.totalLen := by
      simpa only [RBTree.totalLen] using hr1
    rw [PTB.nodeAtGo.eq_def]
    dsimp only
    rw [if_neg (by simp only [RBTree.totalLen]; omega),
      if_neg (by simp only [RBTree.totalLen]; omega)]
    rw [show (RBTree.node l id c p0 (RBTree.node rl rid2 rc rp rr)).totalLen
        - (l.totalLen + p0.length) = (RBTree.node rl rid2 rc rp rr).totalLen by
      simp only [RBTree.totalLen]; ring]
    rw [nodeAtGo_rightmost s (RBTree.node rl rid2 rc rp rr) rid p h (by
      simp only [RBTree.lensPos, Bool.and_eq_true, decide_eq_true_eq]
      exact hpos.2) (acc + l.totalLen + p0.length)]
    simp only [Option.some.injEq, NodePosition.mk.injEq, RBTree.totalLen]
    refine ⟨trivial, trivial, by ring⟩

/-- Right-spine metadata accumulation computes the subtree aggregates. -/
theorem cbmGo_spec :
    ∀ (t : RBTree) (a b : Int), PTB.cbmGo t a b = (a + t.totalLFs, b + t.totalLen)
  | RBTree.nil, a, b => by
    simp [PTB.cbmGo, RBTree.totalLFs, RBTree.totalLen]
  | RBTree.node l id c p r, a, b => by
    simp only [PTB.cbmGo]
    rw [cbmGo_spec r]
    simp only [Prod.mk.injEq, RBTree.totalLFs, RBTree.totalLen]
    constructor <;> ring

end PieceTree

namespace PieceTree

/-- The cache entry (if any) found for an offset names the expected node
at the expected start offset. -/
def cacheEntryOk (rid : Nat) (off : Int) : Option CacheEntry → Prop
  | none => True
  | some e => e.nodeId = rid ∧ e.nodeStartOffset = off

instance (rid : Nat) (off : Int) (oe : Option CacheEntry) :
    Decidable (cacheEntryOk rid off oe) := by
  cases oe with
  | none => exact Decidable.isTrue trivial
  | some e =>
    unfold cacheEntryOk
    infer_instance

theorem lsGet_append_last (xs : List Int) (v : Int) :
    lsGet (xs ++ [v]) (xs.length : Int) = v := by
  unfold lsGet
  rw [dif_pos (by constructor <;> simp)]
  simp

theorem bufferAt_setBufferAt_zero (s : PTB) (b : StringBuffer)
    (h : ¬(s.buffers = [])) : (s.setBufferAt 0 b).bufferAt 0 = b := by
  unfold PTB.setBufferAt PTB.bufferAt
  rcases hb : s.buffers with _ | ⟨x, xs⟩
  · exact absurd hb h
  · simp

theorem getLineFeedCnt_col0 (s : PTB) (bi : Int) (st : BufferCursor) (E : Int) :
    s.getLineFeedCnt bi st ⟨E, 0⟩ = E - st.line := by
  unfold PTB.getLineFeedCnt
  rw [if_pos rfl]

theorem adjustCR_newline (s : PTB) (rid : Nat) :
    s.adjustCarriageReturnFromNext [LF] rid = (false, s) := by
  unfold PTB.adjustCarriageReturnFromNext
  rw [if_neg (fun h => absurd h.2 (by decide))]

end PieceTree

namespace PieceTree

/-- Appending `"\n"` to the rightmost change-buffer piece whose text ends
with `"\r"` merges the two characters into one CRLF line break: the
popped line start keeps the piece's line-feed count unchanged, so the
recomputed line count equals the one the tree already had, while the
change buffer just gains the `"\n"`. -/
theorem appendToNode_newline (s : PTB) (rid : Nat) (p : Piece)
    (hfp : s.root.findPiece rid = some p)
    (hnodup : (s.root.inorder.map Prod.fst).Nodup)
    (heoln : s.eolNormalized = false)
    (hbne : ¬(s.buffers = []))
    (hbi : p.bufferIndex = 0)
    (hcr : codeAt (s.bufferAt 0).buffer
      (s.offsetInBuffer 0 p.start + (p.length - 1)) = 13)
    (hlf1 : 1 ≤ p.lineFeedCnt)
    (hsl : 0 ≤ p.start.line)
    (hline : p.endPos.line = ((s.bufferAt 0).lineStarts.length : Int) - 1)
    (hlfc : p.lineFeedCnt = p.endPos.line - p.start.line) :
    ((s.appendToNode rid [LF]).computeBufferMetadata).lineCnt
        = s.root.totalLFs + 1
    ∧ (((s.appendToNode rid [LF]).computeBufferMetadata).bufferAt 0).buffer
        = (s.bufferAt 0).buffer ++ [LF] := by
  have hsc : s.shouldCheckCRLF = true := by
    simp [PTB.shouldCheckCRLF, heoln]
  have hncc : s.nodeCharCodeAt rid (p.length - 1) = 13 := by
    unfold PTB.nodeCharCodeAt PTB.pieceOf
    rw [hfp]
    simp only [Option.getD_some]
    rw [if_neg (by omega), hbi]
    exact hcr
  have hew : s.endWithCRNode (some rid) = true := by
    unfold PTB.endWithCRNode
    dsimp only
    rw [hfp]
    dsimp only
    rw [if_neg (by omega)]
    simp [hncc]
  have hsw : PTB.startWithLFStr [LF] = true := by decide
  have hcls : createLineStartsFast [LF] = [0, 1] := by decide
  have hadj := adjustCR_newline s rid
  unfold PTB.appendToNode
  rw [hadj]
  simp only [PTB.setBufferAt, PTB.pieceOf, hsc, hew, hsw, hfp, hcls,
    Bool.false_eq_true, if_false, ite_false, ite_true, and_self, and_true, true_and,
    eq_self_iff_true, Option.getD_some, List.map_cons, List.map_nil,
    List.drop_succ_cons, List.drop_zero]
  have h2L : (2 : Int) ≤ ((s.bufferAt 0).lineStarts.length : Int) := by omega
  have hE : (((s.bufferAt 0).lineStarts.dropLast
        ++ [1 + ((s.bufferAt 0).buffer.length : Int)]).length : Int) - 1
      = p.endPos.line := by
    rw [List.length_append, List.length_dropLast]
    simp only [List.length_cons, List.length_nil]
    omega
  have hC : ((((s.bufferAt 0).buffer ++ [LF]).length : Int)
        - lsGet ((s.bufferAt 0).lineStarts.dropLast
            ++ [1 + ((s.bufferAt 0).buffer.length : Int)])
          ((((s.bufferAt 0).lineStarts.dropLast
            ++ [1 + ((s.bufferAt 0).buffer.length : Int)]).length : Int) - 1)) = 0 := by
    have harg : (((s.bufferAt 0).lineStarts.dropLast
          ++ [1 + ((s.bufferAt 0).buffer.length : Int)]).length : Int) - 1
        = (((s.bufferAt 0).lineStarts.dropLast).length : Int) := by
      rw [List.length_append]
      simp only [List.length_cons, List.length_nil]
      omega
    rw [harg, lsGet_append_last, List.length_append]
    simp only [List.length_cons, List.length_nil]
    omega
  rw [hC, hE, getLineFeedCnt_col0, ← hlfc]
  constructor
  · simp only [PTB.computeBufferMetadata]
    rw [cbmGo_spec]
    dsimp only
    rw [RBTree.setPiece_totalLFs s.root rid p _ hnodup hfp]
    dsimp only
    omega
  · simp only [PTB.computeBufferMetadata, PTB.bufferAt]
    rcases hb : s.buffers with _ | ⟨x, xs⟩
    · exact absurd hb hbne
    · simp [List.set]

end PieceTree

namespace PieceTree

/-- C9: inserting `"\n"` at the very end of a buffer whose content ends
with a `"\r"` sitting at the tail of the change buffer merges the two
characters into a single CRLF line break: `getLineCount()` after the
insert equals `getLineCount()` before it, and the change buffer gains
exactly the `"\n"` (so it now ends with the pair `"\r\n"`).  The
hypotheses spell out the document invariants of such a state: metadata
agreeing with the tree, positive piece lengths, unique node ids, a
consistent search-cache entry at the end offset, and a rightmost piece
that is the change-buffer tail whose last character is `"\r"`. -/
theorem C9_crlf_merge (s0 : PTB) (rid : Nat) (p : Piece)
    (hrm : s0.root.rightmostData? = some (rid, p))
    (hnodup : (s0.root.inorder.map Prod.fst).Nodup)
    (hpos : s0.root.lensPos = true)
    (hlen : s0.length = s0.root.totalLen)
    (hlc : s0.lineCnt = s0.root.totalLFs + 1)
    (hbne : ¬(s0.buffers = []))
    (hbi : p.bufferIndex = 0)
    (hend : p.endPos = s0.lastChangeBufferPos)
    (hlf1 : 1 ≤ p.lineFeedCnt)
    (hsl : 0 ≤ p.start.line)
    (hcr : codeAt (s0.bufferAt 0).buffer
      (s0.offsetInBuffer 0 p.start + (p.length - 1)) = 13)
    (hline : p.endPos.line = ((s0.bufferAt 0).lineStarts.length : Int) - 1)
    (hlfc : p.lineFeedCnt = p.endPos.line - p.start.line)
    (hcache : cacheEntryOk rid (s0.length - p.length)
      (s0.cache.get s0.root s0.length)) :
    (s0.insert s0.getLength [LF]).getLineCount = s0.getLineCount
    ∧ ((s0.insert s0.getLength [LF]).bufferAt 0).buffer
        = (s0.bufferAt 0).buffer ++ [LF] := by
  have hrootne : ¬(s0.root = RBTree.nil) := by
    intro h
    rw [h] at hrm
    simp [RBTree.rightmostData?] at hrm
  have hfp := RBTree.rightmost_findPiece s0.root rid p hrm hnodup
  unfold PTB.getLineCount PTB.getLength
  unfold PTB.insert
  simp only [Bool.and_false]
  rw [if_pos hrootne]
  unfold PTB.nodeAt
  dsimp only
  rcases hget : s0.cache.get s0.root s0.length with _ | e
  · dsimp only
    rw [hlen]
    rw [nodeAtGo_rightmost _ s0.root rid p hrm hpos 0]
    dsimp only
    simp only [PTB.pieceOf, hfp, Option.getD_some]
    rw [if_pos ⟨hbi, by rw [hend], by rw [hend], by omega, by norm_num⟩]
    refine ⟨?_, ?_⟩
    · exact ((appendToNode_newline
        (⟨s0.root, s0.buffers, s0.lineCnt, s0.root.totalLen, s0.eol, s0.eolLength, false,
          s0.lastChangeBufferPos,
          s0.cache.set ⟨rid, 0 + s0.root.totalLen - p.length, none⟩,
          0, [], s0.nextId⟩ : PTB)
        rid p hfp hnodup rfl hbne hbi hcr hlf1 hsl hline hlfc).1).trans hlc.symm
    · exact (appendToNode_newline
        (⟨s0.root, s0.buffers, s0.lineCnt, s0.root.totalLen, s0.eol, s0.eolLength, false,
          s0.lastChangeBufferPos,
          s0.cache.set ⟨rid, 0 + s0.root.totalLen - p.length, none⟩,
          0, [], s0.nextId⟩ : PTB)
        rid p hfp hnodup rfl hbne hbi hcr hlf1 hsl hline hlfc).2
  · rw [hget] at hcache
    dsimp only [cacheEntryOk] at hcache
    obtain ⟨he1, he2⟩ := hcache
    dsimp only
    rw [he1, he2]
    simp only [PTB.pieceOf, hfp, Option.getD_some]
    rw [if_pos ⟨hbi, by rw [hend], by rw [hend], by omega, by norm_num⟩]
    refine ⟨?_, ?_⟩
    · exact ((appendToNode_newline
        (⟨s0.root, s0.buffers, s0.lineCnt, s0.length, s0.eol, s0.eolLength, false,
          s0.lastChangeBufferPos, s0.cache, 0, [], s0.nextId⟩ : PTB)
        rid p hfp hnodup rfl hbne hbi hcr hlf1 hsl hline hlfc).1).trans hlc.symm
    · exact (appendToNode_newline
        (⟨s0.root, s0.buffers, s0.lineCnt, s0.length, s0.eol, s0.eolLength, false,
          s0.lastChangeBufferPos, s0.cache, 0, [], s0.nextId⟩ : PTB)
        rid p hfp hnodup rfl hbne hbi hcr hlf1 hsl hline hlfc).2

end PieceTree

namespace PieceTree

/-- C9 witness: the concrete buffer `"a\r"`, whose `"\r"` sits at the tail
of the change buffer, satisfies the invariants, and inserting `"\n"` at
its very end leaves `getLineCount()` unchanged. -/
theorem C9_crlf_merge_witness :
    (c5Base.root.rightmostData? = some (1, ⟨0, ⟨0, 0⟩, ⟨1, 0⟩, 1, 2⟩)
      ∧ (c5Base.root.inorder.map Prod.fst).Nodup
      ∧ c5Base.root.lensPos = true)
    ∧ (c5Base.insert c5Base.getLength [LF]).getLineCount = c5Base.getLineCount := by
  refine ⟨by decide, ?_⟩
  exact (C9_crlf_merge c5Base 1 ⟨0, ⟨0, 0⟩, ⟨1, 0⟩, 1, 2⟩ (by decide) (by decide)
    (by decide) (by decide) (by decide) (by decide) (by decide) (by decide)
    (by decide) (by decide) (by decide) (by decide) (by decide) (by decide)).1

end PieceTree

namespace PieceTree

/-! ## Claim C3: line count versus content terminators. -/

theorem ct_crlf (rest : Str) :
    countTerminators (CR :: LF :: rest) = 1 + countTerminators rest := by
  rw [countTerminators.eq_def]
  simp

theorem ct_cr_single : countTerminators [CR] = 1 := by
  rw [countTerminators.eq_def]
  simp

theorem ct_cr_other (c2 : Char) (rest : Str) (h : ¬(c2 = LF)) :
    countTerminators (CR :: c2 :: rest) = 1 + countTerminators (c2 :: rest) := by
  rw [countTerminators.eq_def]
  simp [h]

theorem ct_lf (rest : Str) :
    countTerminators (LF :: rest) = 1 + countTerminators rest := by
  rw [countTerminators.eq_def]
  simp [show ¬(LF = CR) from by decide]

theorem ct_other (c : Char) (rest : Str) (h1 : ¬(c = CR)) (h2 : ¬(c = LF)) :
    countTerminators (c :: rest) = countTerminators rest := by
  rw [countTerminators.eq_def]
  simp [h1, h2]

theorem ct_nil : countTerminators [] = 0 := by
  rw [countTerminators.eq_def]

/-- Terminator counting is additive over a concatenation that does not
split a `"\r\n"` pair across the boundary. -/
theorem countTerminators_append :
    ∀ (n : Nat) (a : Str), a.length ≤ n → ∀ (b : Str),
      (a.getLast? = some CR → ¬(b.head? = some LF)) →
      countTerminators (a ++ b) = countTerminators a + countTerminators b := by
  intro n
  induction n with
  | zero =>
    intro a ha b _
    rw [List.length_eq_zero.mp (Nat.le_zero.mp ha)]
    simp [ct_nil]
  | succ n ih =>
    intro a ha b hcond
    match a with
    | [] => simp [ct_nil]
    | c :: rest =>
      by_cases hcCR : c = CR
      · subst hcCR
        match rest with
        | [] =>
          match b with
          | [] => simp [ct_cr_single, ct_nil]
          | c2 :: rest2 =>
            have hc2 : ¬(c2 = LF) := by
              intro he
              exact hcond (by simp) (by simp [he])
            rw [List.singleton_append, ct_cr_other c2 rest2 hc2, ct_cr_single]
        | c2 :: rest2 =>
          by_cases hc2 : c2 = LF
          · subst hc2
            have hcond2 : rest2.getLast? = some CR → ¬(b.head? = some LF) := by
              intro hl
              apply hcond
              rcases rest2 with _ | ⟨d, t⟩
              · exact absurd hl (by simp)
              · rw [List.getLast?_cons_cons, List.getLast?_cons_cons]
                exact hl
            rw [List.cons_append, List.cons_append, ct_crlf, ct_crlf,
              ih rest2 (by simp at ha; omega) b hcond2]
            omega
          · have hcond2 : (c2 :: rest2).getLast? = some CR → ¬(b.head? = some LF) := by
              intro hl
              apply hcond
              rw [List.getLast?_cons_cons]
              exact hl
            rw [List.cons_append, List.cons_append, ct_cr_other _ _ hc2]
            rw [show c2 :: (rest2 ++ b) = (c2 :: rest2) ++ b from rfl]
            rw [ih (c2 :: rest2) (by simp at ha ⊢; omega) b hcond2,
              ct_cr_other _ _ hc2]
            omega
      · by_cases hcLF : c = LF
        · subst hcLF
          have hcond2 : rest.getLast? = some CR → ¬(b.head? = some LF) := by
            intro hl
            apply hcond
            rcases rest with _ | ⟨d, t⟩
            · exact absurd hl (by simp)
            · rw [List.getLast?_cons_cons]
              exact hl
          rw [List.cons_append, ct_lf, ct_lf, ih rest (by simp at ha; omega) b hcond2]
          omega
        · have hcond2 : rest.getLast? = some CR → ¬(b.head? = some LF) := by
            intro hl
            apply hcond
            rcases rest with _ | ⟨d, t⟩
            · exact absurd hl (by simp)
            · rw [List.getLast?_cons_cons]
              exact hl
          rw [List.cons_append, ct_other c _ hcCR hcLF,
            ih rest (by simp at ha; omega) b hcond2, ct_other c _ hcCR hcLF]

end PieceTree

namespace PieceTree

/-- Terminator counting sums over a list of nonempty chunks none of whose
boundaries splits a `"\r\n"` pair. -/
theorem countTerminators_flatten :
    ∀ L : List Str, (∀ x ∈ L, ¬(x = [])) →
      List.Chain' (fun x y => x.getLast? = some CR → ¬(y.head? = some LF)) L →
      countTerminators L.flatten = (L.map countTerminators).sum
  | [], _, _ => by simp [ct_nil]
  | x :: rest, hne, hch => by
    have hcond : x.getLast? = some CR → ¬(rest.flatten.head? = some LF) := by
      intro hl hh
      match rest, hch with
      | [], _ => simp at hh
      | y :: rest2, hch =>
        have hy : ¬(y = []) := hne y (by simp)
        have hrel := (List.chain'_cons.mp hch).1
        rcases hy2 : y with _ | ⟨d, t⟩
        · exact hy hy2
        · rw [List.flatten_cons, hy2, List.cons_append] at hh
          simp only [List.head?_cons, Option.some.injEq] at hh
          exact hrel hl (by rw [hy2]; simp [hh])
    rw [List.flatten_cons,
      countTerminators_append (x.length) x (le_refl _) rest.flatten hcond,
      countTerminators_flatten rest (fun z hz => hne z (by simp [hz]))
        (List.Chain'.tail hch)]
    simp

/-- The total line-feed aggregate is the sum of the pieces' counts in
order. -/
theorem totalLFs_eq_sum :
    ∀ t : RBTree,
      t.totalLFs = ((t.inorder.map (fun e => e.2.lineFeedCnt)).sum : Int)
  | RBTree.nil => by simp [RBTree.totalLFs, RBTree.inorder]
  | RBTree.node l id c p r => by
    simp only [RBTree.totalLFs, RBTree.inorder, List.map_append, List.map_cons,
      List.sum_append, List.sum_cons]
    rw [totalLFs_eq_sum l, totalLFs_eq_sum r]
    ring

/-- Bool check that no boundary between adjacent chunks splits a
`"\r\n"` pair. -/
def noStraddle : List Str → Bool
  | x :: y :: rest =>
    (!(decide (x.getLast? = some CR)) || !(decide (y.head? = some LF)))
      && noStraddle (y :: rest)
  | _ => true

theorem noStraddle_chain' :
    ∀ L : List Str, noStraddle L = true →
      List.Chain' (fun x y => x.getLast? = some CR → ¬(y.head? = some LF)) L
  | [], _ => by simp
  | [x], _ => by simp
  | x :: y :: rest, h => by
    simp only [noStraddle, Bool.and_eq_true, Bool.or_eq_true, Bool.not_eq_true',
      decide_eq_false_iff_not, decide_eq_true_eq] at h
    rw [List.chain'_cons]
    refine ⟨fun hl hh => ?_, noStraddle_chain' (y :: rest) h.2⟩
    rcases h.1 with hc | hc
    · exact hc hl
    · exact hc hh

/-- Document invariant of the piece list (spec section 3): every piece is
nonempty and carries the terminator count of its own content, and no piece
boundary splits a `"\r\n"` pair. -/
def pieceMetaWF (s : PTB) : Bool :=
  s.root.inorder.all (fun e =>
    decide (¬(s.getPieceContent e.2 = []))
      && decide (e.2.lineFeedCnt = (countTerminators (s.getPieceContent e.2) : Int)))
  && noStraddle (s.root.inorder.map (fun e => s.getPieceContent e.2))

/-- C3: for every buffer state whose piece metadata satisfies the document
invariants (each piece nonempty and carrying the terminator count of its
content, no piece boundary splitting a `"\r\n"` pair) and whose stored
line count agrees with the tree aggregate — as `computeBufferMetadata`
re-establishes at the end of every insert and delete — `getLineCount()`
equals 1 plus the number of line terminators of the full content, a
`"\r\n"` pair counting as a single terminator. -/
theorem C3_lineCount (s : PTB)
    (hmc : s.lineCnt = s.root.totalLFs + 1)
    (hwf : pieceMetaWF s = true) :
    s.getLineCount = 1 + (countTerminators s.getLinesRawContent : Int) := by
  simp only [pieceMetaWF, Bool.and_eq_true, List.all_eq_true, Bool.and_eq_true,
    decide_eq_true_eq] at hwf
  obtain ⟨hpieces, hstraddle⟩ := hwf
  have hchain := noStraddle_chain' _ hstraddle
  unfold PTB.getLineCount PTB.getLinesRawContent
  rw [hmc, totalLFs_eq_sum,
    countTerminators_flatten _ (by
      intro x hx
      obtain ⟨e, he, rfl⟩ := List.mem_map.mp hx
      exact (hpieces e he).1) hchain]
  have hmapeq : s.root.inorder.map (fun e => e.2.lineFeedCnt)
      = s.root.inorder.map
          (fun e => (countTerminators (s.getPieceContent e.2) : Int)) :=
    List.map_congr_left (fun e he => (hpieces e he).2)
  rw [hmapeq, List.map_map]
  have hcast : ∀ L : List (Nat × Piece),
      (L.map ((fun x => (countTerminators (s.getPieceContent x.2) : Int)))).sum
        = ((L.map (countTerminators ∘ (fun e => s.getPieceContent e.2))).sum : Int) := by
    intro L
    induction L with
    | nil => simp
    | cons x t iht => simp [iht]
  rw [hcast]
  simp [Function.comp_def]
  ring

theorem C3_lineCount_witness :
    (c7After.lineCnt = c7After.root.totalLFs + 1 ∧ pieceMetaWF c7After = true)
    ∧ c7After.getLineCount
        = 1 + (countTerminators c7After.getLinesRawContent : Int) := by
  refine ⟨by decide, ?_⟩
  exact C3_lineCount c7After (by decide) (by decide)

end PieceTree

namespace PieceTree

/-- Every mutator ends in `computeBufferMetadata`, which re-establishes
the stored-line-count hypothesis of the line-count characterization. -/
theorem computeBufferMetadata_lineCnt (s : PTB) :
    (s.computeBufferMetadata).lineCnt = (s.computeBufferMetadata).root.totalLFs + 1 := by
  unfold PTB.computeBufferMetadata
  dsimp only
  rw [cbmGo_spec]
  dsimp only
  ring

end PieceTree
